import Mathlib

/-!
Verification of `tensorflow/compiler/mlir/xla/transforms/legalize_control_flow.cc`.

The pass lowers the structured XLA HLO control-flow operations (`ConditionalOp`,
`WhileOp`, each owning nested regions terminated by `xla_hlo::ReturnOp`) into an
explicit control-flow graph of blocks joined by `BranchOp` / `CondBranchOp`.

Shallow embedding conventions:
* `mlir::Value` pointers are modelled by natural-number identifiers (`Nat`);
  the `BlockAndValueMapping` built by `Region::cloneInto` assigns fresh
  identifiers, modelled by adding a fresh offset to every identifier defined
  inside the cloned region (a legitimate fresh assignment, since pointer
  identity is opaque).
* `mlir::Block` pointers are modelled by natural-number identifiers (`Nat`)
  carried in the block; splitting and cloning allocate fresh ones from counters.
* Tensors are modelled as scalars (`Int`); `ExtractElementOp` on a
  single-element tensor is a copy, matching the single-element normalisation
  the pass assumes for predicates.
* `LogicalResult` failure is `LowRes.failed`, which carries the partially
  rewritten function (the C++ mutates in place and performs no rollback).
  Out-of-contract accesses (e.g. `getOperand(0)` on an operand-less op,
  `Region::front()` on an empty region, a dangling op pointer) are modelled
  by the distinct outcome `LowRes.crash`.
-/

set_option maxHeartbeats 1000000

namespace XlaCF

/-- Execution environments: SSA value identifiers (naturals modelling
`mlir::Value` pointers) to scalar-modelled content.  Block identifiers
(naturals modelling `mlir::Block` pointers) are used alongside; both kinds of
identifier are plain `Nat`. -/
def Env : Type := Nat → Int

/-- Point update of an environment. -/
def envUpd (e : Env) (d : Nat) (v : Int) : Env :=
  fun x => if x = d then v else e x

/-- The all-zero environment. -/
def env0 : Env := fun _ => 0

/-- Non-structured operations appearing inside blocks: constants, addition and
comparison (enough to express the spec scenarios), and the
`mlir::ExtractElementOp` that the pass emits to reduce a predicate tensor to a
primitive boolean. -/
inductive SimpleOp : Type where
  | constOp (dst : Nat) (v : Int)
  | addOp (dst a b : Nat)
  | ltOp (dst a b : Nat)
  | extractElementOp (dst src : Nat)
deriving DecidableEq, Repr

/-- The value defined by a simple operation. -/
def SimpleOp.dst : SimpleOp → Nat
  | .constOp d _ => d
  | .addOp d _ _ => d
  | .ltOp d _ _ => d
  | .extractElementOp d _ => d

/-- Block terminators.  `ret` is `xla_hlo::ReturnOp` (the region terminator the
pass looks for with `dyn_cast<xla_hlo::ReturnOp>`); `stdRet` is the function's
own return, a different operation; `br` / `condBr` are `mlir::BranchOp` /
`mlir::CondBranchOp` produced by the lowering. -/
inductive Term : Type where
  | ret (args : List Nat)
  | stdRet (args : List Nat)
  | br (target : Nat) (args : List Nat)
  | condBr (c : Nat) (tTgt : Nat) (tArgs : List Nat) (fTgt : Nat) (fArgs : List Nat)
deriving DecidableEq, Repr

/-- `true` exactly when the terminator is an `xla_hlo::ReturnOp`. -/
def Term.isRet : Term → Bool
  | .ret _ => true
  | _ => false

mutual
/-- Operations: simple ops, and the two structured control-flow ops, each
carrying a stable operation identifier (modelling its pointer), its single
result value, its operands, and its owned regions (`List Blk`). -/
inductive Op : Type where
  | simple (s : SimpleOp)
  | conditional (oid : Nat) (res pred targ farg : Nat) (trueR falseR : List Blk)
  | whileOp (oid : Nat) (res init : Nat) (condR bodyR : List Blk)

/-- A block: stable identifier, entry parameters, body operations, terminator. -/
inductive Blk : Type where
  | mk (bid : Nat) (params : List Nat) (ops : List Op) (term : Term)
end

/-- Block identifier projection. -/
def Blk.bid : Blk → Nat
  | .mk b _ _ _ => b

/-- Block parameters projection. -/
def Blk.params : Blk → List Nat
  | .mk _ p _ _ => p

/-- Block operations projection. -/
def Blk.ops : Blk → List Op
  | .mk _ _ o _ => o

/-- Block terminator projection. -/
def Blk.term : Blk → Term
  | .mk _ _ _ t => t

/-- Find the block with the given identifier (models dereferencing a block
pointer; identifiers are kept globally fresh by the transformation). -/
def findBlk (R : List Blk) (b : Nat) : Option Blk :=
  R.find? (fun blk => blk.bid = b)

mutual
/-- Number of `ConditionalOp`s in an operation, nested regions included. -/
def condCountOp : Op → Nat
  | .simple _ => 0
  | .conditional _ _ _ _ _ tr fr => 1 + condCountBlks tr + condCountBlks fr
  | .whileOp _ _ _ cr bd => condCountBlks cr + condCountBlks bd

/-- Number of `ConditionalOp`s in a list of operations. -/
def condCountOps : List Op → Nat
  | [] => 0
  | o :: rest => condCountOp o + condCountOps rest

/-- Number of `ConditionalOp`s in a block. -/
def condCountBlk : Blk → Nat
  | .mk _ _ ops _ => condCountOps ops

/-- Number of `ConditionalOp`s in a region. -/
def condCountBlks : List Blk → Nat
  | [] => 0
  | b :: rest => condCountBlk b + condCountBlks rest
end

mutual
/-- Number of `WhileOp`s in an operation, nested regions included. -/
def whileCountOp : Op → Nat
  | .simple _ => 0
  | .conditional _ _ _ _ _ tr fr => whileCountBlks tr + whileCountBlks fr
  | .whileOp _ _ _ cr bd => 1 + whileCountBlks cr + whileCountBlks bd

/-- Number of `WhileOp`s in a list of operations. -/
def whileCountOps : List Op → Nat
  | [] => 0
  | o :: rest => whileCountOp o + whileCountOps rest

/-- Number of `WhileOp`s in a block. -/
def whileCountBlk : Blk → Nat
  | .mk _ _ ops _ => whileCountOps ops

/-- Number of `WhileOp`s in a region. -/
def whileCountBlks : List Blk → Nat
  | [] => 0
  | b :: rest => whileCountBlk b + whileCountBlks rest
end

mutual
/-- Number of `xla_hlo::ReturnOp` terminators in an operation's regions. -/
def retCountOp : Op → Nat
  | .simple _ => 0
  | .conditional _ _ _ _ _ tr fr => retCountBlks tr + retCountBlks fr
  | .whileOp _ _ _ cr bd => retCountBlks cr + retCountBlks bd

/-- Number of `xla_hlo::ReturnOp` terminators below a list of operations. -/
def retCountOps : List Op → Nat
  | [] => 0
  | o :: rest => retCountOp o + retCountOps rest

/-- Number of `xla_hlo::ReturnOp` terminators in a block (its own terminator
plus any inside nested regions). -/
def retCountBlk : Blk → Nat
  | .mk _ _ ops t => (if t.isRet then 1 else 0) + retCountOps ops

/-- Number of `xla_hlo::ReturnOp` terminators in a region, nested included. -/
def retCountBlks : List Blk → Nat
  | [] => 0
  | b :: rest => retCountBlk b + retCountBlks rest
end

/-! ## Renaming (the clone's identity remapping) -/

/-- Rename the value identifiers of a simple operation. -/
def renameSimple (sv : Nat → Nat) : SimpleOp → SimpleOp
  | .constOp d v => .constOp (sv d) v
  | .addOp d a b => .addOp (sv d) (sv a) (sv b)
  | .ltOp d a b => .ltOp (sv d) (sv a) (sv b)
  | .extractElementOp d s => .extractElementOp (sv d) (sv s)

/-- Rename value identifiers and branch targets of a terminator. -/
def renameTerm (sv : Nat → Nat) (sb : Nat → Nat) : Term → Term
  | .ret args => .ret (args.map sv)
  | .stdRet args => .stdRet (args.map sv)
  | .br t args => .br (sb t) (args.map sv)
  | .condBr c tt ta ft fa => .condBr (sv c) (sb tt) (ta.map sv) (sb ft) (fa.map sv)

mutual
/-- Structural copy of an operation under value / block / op-id renamings;
models `Operation::clone` resolving operands through the mapping. -/
def renameOp (sv : Nat → Nat) (sb : Nat → Nat) (so : Nat → Nat) : Op → Op
  | .simple s => .simple (renameSimple sv s)
  | .conditional oid res p t f tr fr =>
      .conditional (so oid) (sv res) (sv p) (sv t) (sv f)
        (renameBlks sv sb so tr) (renameBlks sv sb so fr)
  | .whileOp oid res init cr bd =>
      .whileOp (so oid) (sv res) (sv init) (renameBlks sv sb so cr) (renameBlks sv sb so bd)

/-- Renaming over a list of operations. -/
def renameOps (sv : Nat → Nat) (sb : Nat → Nat) (so : Nat → Nat) : List Op → List Op
  | [] => []
  | o :: rest => renameOp sv sb so o :: renameOps sv sb so rest

/-- Renaming over a block. -/
def renameBlk (sv : Nat → Nat) (sb : Nat → Nat) (so : Nat → Nat) : Blk → Blk
  | .mk bid ps ops t => .mk (sb bid) (ps.map sv) (renameOps sv sb so ops) (renameTerm sv sb t)

/-- Renaming over a region. -/
def renameBlks (sv : Nat → Nat) (sb : Nat → Nat) (so : Nat → Nat) : List Blk → List Blk
  | [] => []
  | b :: rest => renameBlk sv sb so b :: renameBlks sv sb so rest
end

/-! ## Identifier collection -/

mutual
/-- All value identifiers defined inside an operation (its result and,
recursively, the block parameters and results of its regions): exactly the
identifiers `Region::cloneInto` maps to fresh values. -/
def defsOp : Op → List Nat
  | .simple s => [s.dst]
  | .conditional _ res _ _ _ tr fr => res :: (defsBlks tr ++ defsBlks fr)
  | .whileOp _ res _ cr bd => res :: (defsBlks cr ++ defsBlks bd)

/-- Defined value identifiers of a list of operations. -/
def defsOps : List Op → List Nat
  | [] => []
  | o :: rest => defsOp o ++ defsOps rest

/-- Defined value identifiers of a block (parameters and op results). -/
def defsBlk : Blk → List Nat
  | .mk _ ps ops _ => ps ++ defsOps ops

/-- Defined value identifiers of a region. -/
def defsBlks : List Blk → List Nat
  | [] => []
  | b :: rest => defsBlk b ++ defsBlks rest
end

mutual
/-- All block identifiers occurring in an operation's regions, nested
included. -/
def blkIdsOp : Op → List Nat
  | .simple _ => []
  | .conditional _ _ _ _ _ tr fr => blkIdsBlks tr ++ blkIdsBlks fr
  | .whileOp _ _ _ cr bd => blkIdsBlks cr ++ blkIdsBlks bd

/-- Block identifiers below a list of operations. -/
def blkIdsOps : List Op → List Nat
  | [] => []
  | o :: rest => blkIdsOp o ++ blkIdsOps rest

/-- Block identifiers of a block: its own and all nested ones. -/
def blkIdsBlk : Blk → List Nat
  | .mk bid _ ops _ => bid :: blkIdsOps ops

/-- Block identifiers of a region, nested included. -/
def blkIdsBlks : List Blk → List Nat
  | [] => []
  | b :: rest => blkIdsBlk b ++ blkIdsBlks rest
end

mutual
/-- All structured-operation identifiers in an operation, nested included. -/
def opIdsOp : Op → List Nat
  | .simple _ => []
  | .conditional oid _ _ _ _ tr fr => oid :: (opIdsBlks tr ++ opIdsBlks fr)
  | .whileOp oid _ _ cr bd => oid :: (opIdsBlks cr ++ opIdsBlks bd)

/-- Structured-operation identifiers of a list of operations. -/
def opIdsOps : List Op → List Nat
  | [] => []
  | o :: rest => opIdsOp o ++ opIdsOps rest

/-- Structured-operation identifiers of a block. -/
def opIdsBlk : Blk → List Nat
  | .mk _ _ ops _ => opIdsOps ops

/-- Structured-operation identifiers of a region. -/
def opIdsBlks : List Blk → List Nat
  | [] => []
  | b :: rest => opIdsBlk b ++ opIdsBlks rest
end

/-! ## Use replacement (`replaceAllUsesWith`) -/

/-- Replace uses of value `a` by `b` in a simple operation (result position is
a definition, not a use, so it is kept). -/
def substSimple (a b : Nat) : SimpleOp → SimpleOp
  | .constOp d v => .constOp d v
  | .addOp d x y => .addOp d (if x = a then b else x) (if y = a then b else y)
  | .ltOp d x y => .ltOp d (if x = a then b else x) (if y = a then b else y)
  | .extractElementOp d s => .extractElementOp d (if s = a then b else s)

/-- Replace uses of `a` by `b` among a terminator's operands. -/
def substTerm (a b : Nat) (t : Term) : Term :=
  renameTerm (fun v => if v = a then b else v) id t

mutual
/-- `replaceAllUsesWith`: replace every use of `a` by `b` in an operation,
nested regions included; definitions (results, parameters) are untouched. -/
def substOp (a b : Nat) : Op → Op
  | .simple s => .simple (substSimple a b s)
  | .conditional oid res p t f tr fr =>
      .conditional oid res (if p = a then b else p) (if t = a then b else t)
        (if f = a then b else f) (substBlks a b tr) (substBlks a b fr)
  | .whileOp oid res init cr bd =>
      .whileOp oid res (if init = a then b else init) (substBlks a b cr) (substBlks a b bd)

/-- Use replacement over a list of operations. -/
def substOps (a b : Nat) : List Op → List Op
  | [] => []
  | o :: rest => substOp a b o :: substOps a b rest

/-- Use replacement over a block. -/
def substBlk (a b : Nat) : Blk → Blk
  | .mk bid ps ops t => .mk bid ps (substOps a b ops) (substTerm a b t)

/-- Use replacement over a region. -/
def substBlks (a b : Nat) : List Blk → List Blk
  | [] => []
  | blk :: rest => substBlk a b blk :: substBlks a b rest
end

/-! ## The lowering pass -/

/-- Fresh-identifier counters of the function being rewritten: next value id,
next block id, next op id.  A well-formed function keeps every identifier
below the matching counter, which makes the offset-based clone mapping
injective and fresh. -/
structure Counters : Type where
  nv : Nat
  nb : Nat
  nop : Nat
deriving DecidableEq, Repr

/-- A function under rewriting: its top-level region and its counters. -/
structure FuncState : Type where
  body : List Blk
  ctr : Counters

/-- The clone substitution: identifiers in `D` (the identifiers defined inside
the cloned region) are mapped to fresh ones by adding the offset `δ`; all
others — values defined outside the region — are referenced as-is. -/
def mkSubst (D : List Nat) (δ : Nat) : Nat → Nat :=
  fun v => if v ∈ D then v + δ else v

/-- `Region::cloneInto`: produce the renamed copy of region `R` together with
the value and block mappings used, and the advanced counters. -/
def cloneRegion (R : List Blk) (c : Counters) :
    List Blk × (Nat → Nat) × (Nat → Nat) × Counters :=
  let sv := mkSubst (defsBlks R) c.nv
  let sb := mkSubst (blkIdsBlks R) c.nb
  let so := mkSubst (opIdsBlks R) c.nop
  (renameBlks sv sb so R, sv, sb, ⟨c.nv * 2, c.nb * 2, c.nop * 2⟩)

/-- Overwrite the terminator of the first block with identifier `bid`
(mutation through a block pointer touches exactly one block; `findBlk`
resolves an identifier to the first match, and this updates the same one). -/
def setTermFirst (bid : Nat) (t : Term) : List Blk → List Blk
  | [] => []
  | b :: rest =>
      if b.bid = bid then .mk b.bid b.params b.ops t :: rest
      else b :: setTermFirst bid t rest

/-- Overwrite operations and terminator of the first block with id `bid`. -/
def setOpsTermFirst (bid : Nat) (ops : List Op) (t : Term) : List Blk → List Blk
  | [] => []
  | b :: rest =>
      if b.bid = bid then .mk b.bid b.params ops t :: rest
      else b :: setOpsTermFirst bid ops t rest

/-- `Block::addArguments`: append a parameter to the first block with id `bid`. -/
def addParamFirst (bid : Nat) (p : Nat) : List Blk → List Blk
  | [] => []
  | b :: rest =>
      if b.bid = bid then .mk b.bid (b.params ++ [p]) b.ops b.term :: rest
      else b :: addParamFirst bid p rest

/-- Erase the leading operation of the first block with id `bid` (the
structured op sits at the head of the tail block created by `splitBlock`, and
`op_inst->erase()` removes exactly it). -/
def dropHeadOpFirst (bid : Nat) : List Blk → List Blk
  | [] => []
  | b :: rest =>
      if b.bid = bid then .mk b.bid b.params b.ops.tail b.term :: rest
      else b :: dropHeadOpFirst bid rest

/-- `ReplaceTerminators`: for every block of the source region `src`, look up
its clone (via the block mapping `sb`) in the rewritten region `RR`; require
its terminator to be an `xla_hlo::ReturnOp` — returning failure immediately
otherwise, with the blocks rewritten so far kept (the C++ mutates in place) —
and replace it by an unconditional branch to `tailId` carrying the return's
(post-clone) operands.  A missing clone is also reported as failure. -/
def ReplaceTerminators (src : List Blk) (sb : Nat → Nat) (tailId : Nat)
    (RR : List Blk) : List Blk × Bool :=
  match src with
  | [] => (RR, true)
  | b :: rest =>
      match findBlk RR (sb b.bid) with
      | none => (RR, false)
      | some blk =>
          match blk.term with
          | .ret args => ReplaceTerminators rest sb tailId (setTermFirst (sb b.bid) (.br tailId args) RR)
          | _ => (RR, false)

/-- Outcome of a lowering step: success, `LogicalResult` failure carrying the
partially rewritten data (no rollback), or an out-of-contract crash. -/
inductive LowRes (α : Type) : Type where
  | ok (a : α)
  | failed (a : α)
  | crash
deriving Repr

/-- Map over the payload of a lowering outcome. -/
def LowRes.mapRes {α β : Type} (f : α → β) : LowRes α → LowRes β
  | .ok a => .ok (f a)
  | .failed a => .failed (f a)
  | .crash => .crash

/-- `true` exactly on `LowRes.ok`. -/
def LowRes.isOk {α : Type} : LowRes α → Bool
  | .ok _ => true
  | _ => false

/-- `true` exactly on `LowRes.failed`. -/
def LowRes.isFailed {α : Type} : LowRes α → Bool
  | .failed _ => true
  | _ => false

/-- The carried data of a non-crash outcome. -/
def LowRes.payload? {α : Type} : LowRes α → Option α
  | .ok a => some a
  | .failed a => some a
  | .crash => none

/-- Decidable contract check: if the clone of `b` (through the block mapping
`sb`) is present and Return-terminated, that Return has at least one operand
(so `getOperand(0)` is in contract). -/
def cloneRetNonEmpty (sb : Nat → Nat) (RR : List Blk) (b : Blk) : Bool :=
  match findBlk RR (sb b.bid) with
  | some blk =>
      match blk.term with
      | .ret args => !args.isEmpty
      | _ => true
  | none => true

/-- `LowerConditionalOp`, acting in the region that contains the conditional.
The containing block has been decomposed as
`pre ++ [⟨bbid, bparams, opsPre ++ [conditional …] ++ opsPost, bterm⟩] ++ post`.
Mirrors the C++ step for step: split the block at the op (the tail keeps the
op and everything after it); clone the true then the false region between the
two halves; append an `ExtractElementOp` of the predicate and a
`CondBranchOp` into the cloned entries, passing the branch arguments; rewrite
the cloned regions' returns into branches to the tail (failure aborts here,
keeping all mutations made so far); add the tail parameter, replace all uses
of the conditional's result with it, and erase the op. -/
def LowerConditionalOpCore (pre : List Blk) (bbid : Nat) (bparams : List Nat)
    (opsPre : List Op) (oid : Nat) (res pred targ farg : Nat) (trueR falseR : List Blk)
    (opsPost : List Op) (bterm : Term) (post : List Blk) (c : Counters) :
    LowRes (List Blk × Counters) :=
  match trueR, falseR with
  | tEntry :: tRest, fEntry :: fRest =>
      let tailId := c.nb
      let c1 : Counters := ⟨c.nv, c.nb + 1, c.nop⟩
      let clT := cloneRegion trueR c1
      let clF := cloneRegion falseR clT.2.2.2
      let c3 := clF.2.2.2
      let e := c3.nv
      let c4 : Counters := ⟨c3.nv + 1, c3.nb, c3.nop⟩
      let pBlk : Blk := .mk bbid bparams (opsPre ++ [.simple (.extractElementOp e pred)])
        (.condBr e (clT.2.2.1 tEntry.bid) [targ] (clF.2.2.1 fEntry.bid) [farg])
      let tailBlk : Blk := .mk tailId []
        (.conditional oid res pred targ farg (tEntry :: tRest) (fEntry :: fRest) :: opsPost) bterm
      let RR1 := pre ++ [pBlk] ++ clT.1 ++ clF.1 ++ [tailBlk] ++ post
      match ReplaceTerminators (tEntry :: tRest) clT.2.2.1 tailId RR1 with
      | (RR2, false) => .failed (RR2, c4)
      | (RR2, true) =>
          match ReplaceTerminators (fEntry :: fRest) clF.2.2.1 tailId RR2 with
          | (RR3, false) => .failed (RR3, c4)
          | (RR3, true) =>
              let tp := c4.nv
              let c5 : Counters := ⟨c4.nv + 1, c4.nb, c4.nop⟩
              let RR4 := addParamFirst tailId tp RR3
              let RR5 := substBlks res tp RR4
              let RR6 := dropHeadOpFirst tailId RR5
              .ok (RR6, c5)
  | _, _ => .crash

/-- The per-block rewrite of the cloned condition region in `LowerWhileOp`:
for each block of the source condition region, look up its clone, require an
`xla_hlo::ReturnOp` terminator (failure otherwise, keeping prior rewrites),
take its first operand (`getOperand(0)`; a crash if there is none), append an
`ExtractElementOp` of it, and replace the return with a conditional branch —
true to the cloned body entry, false to the tail — whose argument lists are
both the current parameters of the cloned condition entry block
(`cond_block->args_begin()..args_end()` in the C++, read fresh per block). -/
def rewriteCondBlocks (src : List Blk) (sb : Nat → Nat)
    (condEntryId bodyEntryId tailId : Nat) (RR : List Blk) (c : Counters) :
    LowRes (List Blk × Counters) :=
  match src with
  | [] => .ok (RR, c)
  | b :: rest =>
      match findBlk RR (sb b.bid) with
      | none => .failed (RR, c)
      | some blk =>
          match blk.term with
          | .ret args =>
              match args with
              | [] => .crash
              | v :: _ =>
                  match findBlk RR condEntryId with
                  | none => .crash
                  | some condEntry =>
                      let e := c.nv
                      let c2 : Counters := ⟨c.nv + 1, c.nb, c.nop⟩
                      let ops2 := blk.ops ++ [.simple (.extractElementOp e v)]
                      let t2 : Term := .condBr e bodyEntryId condEntry.params tailId condEntry.params
                      rewriteCondBlocks rest sb condEntryId bodyEntryId tailId
                        (setOpsTermFirst (sb b.bid) ops2 t2 RR) c2
          | _ => .failed (RR, c)

/-- The per-block rewrite of the cloned body region in `LowerWhileOp`: for
each block of the source body region, look up its clone, require an
`xla_hlo::ReturnOp` terminator (failure otherwise), and replace it by an
unconditional branch back to the cloned condition entry carrying all of the
return's operands. -/
def rewriteBodyBlocks (src : List Blk) (sb : Nat → Nat) (condEntryId : Nat)
    (RR : List Blk) : List Blk × Bool :=
  match src with
  | [] => (RR, true)
  | b :: rest =>
      match findBlk RR (sb b.bid) with
      | none => (RR, false)
      | some blk =>
          match blk.term with
          | .ret args => rewriteBodyBlocks rest sb condEntryId
              (setTermFirst (sb b.bid) (.br condEntryId args) RR)
          | _ => (RR, false)

/-- `LowerWhileOp`, acting in the region containing the while.  Mirrors the
C++: split the block (tail keeps the op); clone the condition then the body
region between the halves; branch from the predecessor to the cloned
condition entry passing the op's operand; rewrite the condition blocks
(`rewriteCondBlocks`) and then the body blocks (`rewriteBodyBlocks`), each
failure aborting with the mutations made so far; finally add the tail
parameter, replace uses of the while's result with it, and erase the op. -/
def LowerWhileOpCore (pre : List Blk) (bbid : Nat) (bparams : List Nat)
    (opsPre : List Op) (oid : Nat) (res init : Nat) (condR bodyR : List Blk)
    (opsPost : List Op) (bterm : Term) (post : List Blk) (c : Counters) :
    LowRes (List Blk × Counters) :=
  match condR, bodyR with
  | cEntry :: cRest, bEntry :: bRest =>
      let tailId := c.nb
      let c1 : Counters := ⟨c.nv, c.nb + 1, c.nop⟩
      let clC := cloneRegion condR c1
      let clB := cloneRegion bodyR clC.2.2.2
      let c3 := clB.2.2.2
      let condEntryId := clC.2.2.1 cEntry.bid
      let bodyEntryId := clB.2.2.1 bEntry.bid
      let pBlk : Blk := .mk bbid bparams opsPre (.br condEntryId [init])
      let tailBlk : Blk := .mk tailId []
        (.whileOp oid res init (cEntry :: cRest) (bEntry :: bRest) :: opsPost) bterm
      let RR1 := pre ++ [pBlk] ++ clC.1 ++ clB.1 ++ [tailBlk] ++ post
      match rewriteCondBlocks (cEntry :: cRest) clC.2.2.1 condEntryId bodyEntryId tailId RR1 c3 with
      | .failed rc => .failed rc
      | .crash => .crash
      | .ok (RR2, c4) =>
          match rewriteBodyBlocks (bEntry :: bRest) clB.2.2.1 condEntryId RR2 with
          | (RR3, false) => .failed (RR3, c4)
          | (RR3, true) =>
              let tp := c4.nv
              let c5 : Counters := ⟨c4.nv + 1, c4.nb, c4.nop⟩
              let RR4 := addParamFirst tailId tp RR3
              let RR5 := substBlks res tp RR4
              let RR6 := dropHeadOpFirst tailId RR5
              .ok (RR6, c5)
  | _, _ => .crash

/-- Does this operation match the structured op being looked up?  `isCond`
selects the kind; `o` is the stable op identifier (the pointer). -/
def opMatches (isCond : Bool) (o : Nat) : Op → Bool
  | .simple _ => false
  | .conditional oid _ _ _ _ _ _ => isCond && oid = o
  | .whileOp oid _ _ _ _ => !isCond && oid = o

/-- Split a list of operations at the first one satisfying `p`. -/
def splitOpsAt (p : Op → Bool) : List Op → Option (List Op × Op × List Op)
  | [] => none
  | o :: rest =>
      if p o then some ([], o, rest)
      else
        match splitOpsAt p rest with
        | some (a, x, b) => some (o :: a, x, b)
        | none => none

/-- Split a region at the first block holding a top-level operation
satisfying `p`, returning the blocks before, the decomposed block, and the
blocks after. -/
def splitBlksAt (p : Op → Bool) :
    List Blk → Option (List Blk × Blk × (List Op × Op × List Op) × List Blk)
  | [] => none
  | b :: rest =>
      match splitOpsAt p b.ops with
      | some s => some ([], b, s, rest)
      | none =>
          match splitBlksAt p rest with
          | some (a, blk, s, post) => some (b :: a, blk, s, post)
          | none => none

/-- Dispatch the located structured operation to its lowering. -/
def coreDispatch (pre : List Blk) (bbid : Nat) (bparams : List Nat)
    (opsPre : List Op) (op : Op) (opsPost : List Op) (bterm : Term) (post : List Blk)
    (c : Counters) : LowRes (List Blk × Counters) :=
  match op with
  | .conditional oid res p t f tr fr =>
      LowerConditionalOpCore pre bbid bparams opsPre oid res p t f tr fr opsPost bterm post c
  | .whileOp oid res init cr bd =>
      LowerWhileOpCore pre bbid bparams opsPre oid res init cr bd opsPost bterm post c
  | .simple _ => .crash

/-- Lower the op `o` inside a region: if it is a top-level op of the region,
rewrite here; otherwise not found at this level. -/
def lowerTopLevel (isCond : Bool) (o : Nat) (RR : List Blk) (c : Counters) :
    Option (LowRes (List Blk × Counters)) :=
  match splitBlksAt (opMatches isCond o) RR with
  | some (pre, b, (opsPre, op, opsPost), post) =>
      some (coreDispatch pre b.bid b.params opsPre op opsPost b.term post c)
  | none => none

mutual
/-- Search the blocks of a region for the op `o` nested inside some
structured operation, and lower it in place there. -/
def lowerNestedBlks (isCond : Bool) (o : Nat) : List Blk → Counters →
    Option (LowRes (List Blk × Counters))
  | [], _ => none
  | .mk bid ps ops t :: rest, c =>
      match lowerNestedOps isCond o ops c with
      | some r => some (r.mapRes (fun x => (Blk.mk bid ps x.1 t :: rest, x.2)))
      | none =>
          match lowerNestedBlks isCond o rest c with
          | some r => some (r.mapRes (fun x => (Blk.mk bid ps ops t :: x.1, x.2)))
          | none => none

/-- Search a list of operations for the op `o` nested inside one of them. -/
def lowerNestedOps (isCond : Bool) (o : Nat) : List Op → Counters →
    Option (LowRes (List Op × Counters))
  | [], _ => none
  | op :: rest, c =>
      match lowerNestedOp isCond o op c with
      | some r => some (r.mapRes (fun x => (x.1 :: rest, x.2)))
      | none =>
          match lowerNestedOps isCond o rest c with
          | some r => some (r.mapRes (fun x => (op :: x.1, x.2)))
          | none => none

/-- Search one structured operation's regions for the op `o` and lower it
there (first as a top-level op of the region, else recursively). -/
def lowerNestedOp (isCond : Bool) (o : Nat) : Op → Counters →
    Option (LowRes (Op × Counters))
  | .simple _, _ => none
  | .conditional oid res p t f tr fr, c =>
      match lowerTopLevel isCond o tr c with
      | some r => some (r.mapRes (fun x => (Op.conditional oid res p t f x.1 fr, x.2)))
      | none =>
        match lowerNestedBlks isCond o tr c with
        | some r => some (r.mapRes (fun x => (Op.conditional oid res p t f x.1 fr, x.2)))
        | none =>
          match lowerTopLevel isCond o fr c with
          | some r => some (r.mapRes (fun x => (Op.conditional oid res p t f tr x.1, x.2)))
          | none =>
            match lowerNestedBlks isCond o fr c with
            | some r => some (r.mapRes (fun x => (Op.conditional oid res p t f tr x.1, x.2)))
            | none => none
  | .whileOp oid res init cr bd, c =>
      match lowerTopLevel isCond o cr c with
      | some r => some (r.mapRes (fun x => (Op.whileOp oid res init x.1 bd, x.2)))
      | none =>
        match lowerNestedBlks isCond o cr c with
        | some r => some (r.mapRes (fun x => (Op.whileOp oid res init x.1 bd, x.2)))
        | none =>
          match lowerTopLevel isCond o bd c with
          | some r => some (r.mapRes (fun x => (Op.whileOp oid res init cr x.1, x.2)))
          | none =>
            match lowerNestedBlks isCond o bd c with
            | some r => some (r.mapRes (fun x => (Op.whileOp oid res init cr x.1, x.2)))
            | none => none
end

/-- Lower the structured op `o` of the selected kind wherever it sits in the
function (the C++ holds a pointer; we search by stable identifier).  A
missing op models a dangling pointer: a crash. -/
def lowerStructAt (isCond : Bool) (o : Nat) (F : FuncState) : LowRes FuncState :=
  match lowerTopLevel isCond o F.body F.ctr with
  | some r => r.mapRes (fun x => ⟨x.1, x.2⟩)
  | none =>
      match lowerNestedBlks isCond o F.body F.ctr with
      | some r => r.mapRes (fun x => ⟨x.1, x.2⟩)
      | none => .crash

/-- `LowerConditionalOp` on the conditional with identifier `o`. -/
def LowerConditionalOp (o : Nat) (F : FuncState) : LowRes FuncState :=
  lowerStructAt true o F

/-- `LowerWhileOp` on the while with identifier `o`. -/
def LowerWhileOp (o : Nat) (F : FuncState) : LowRes FuncState :=
  lowerStructAt false o F

mutual
/-- `func.walk([&](ConditionalOp op) …)`: post-order traversal collecting
every conditional's identifier — an operation's regions are visited before
the operation itself. -/
def collectCondsOp : Op → List Nat
  | .simple _ => []
  | .conditional oid _ _ _ _ tr fr => collectCondsBlks tr ++ collectCondsBlks fr ++ [oid]
  | .whileOp _ _ _ cr bd => collectCondsBlks cr ++ collectCondsBlks bd

/-- Post-order conditional collection over a list of operations. -/
def collectCondsOps : List Op → List Nat
  | [] => []
  | o :: rest => collectCondsOp o ++ collectCondsOps rest

/-- Post-order conditional collection over a block. -/
def collectCondsBlk : Blk → List Nat
  | .mk _ _ ops _ => collectCondsOps ops

/-- Post-order conditional collection over a region. -/
def collectCondsBlks : List Blk → List Nat
  | [] => []
  | b :: rest => collectCondsBlk b ++ collectCondsBlks rest
end

mutual
/-- `func.walk([&](WhileOp op) …)`: post-order traversal collecting every
while's identifier. -/
def collectWhilesOp : Op → List Nat
  | .simple _ => []
  | .conditional _ _ _ _ _ tr fr => collectWhilesBlks tr ++ collectWhilesBlks fr
  | .whileOp oid _ _ cr bd => collectWhilesBlks cr ++ collectWhilesBlks bd ++ [oid]

/-- Post-order while collection over a list of operations. -/
def collectWhilesOps : List Op → List Nat
  | [] => []
  | o :: rest => collectWhilesOp o ++ collectWhilesOps rest

/-- Post-order while collection over a block. -/
def collectWhilesBlk : Blk → List Nat
  | .mk _ _ ops _ => collectWhilesOps ops

/-- Post-order while collection over a region. -/
def collectWhilesBlks : List Blk → List Nat
  | [] => []
  | b :: rest => collectWhilesBlk b ++ collectWhilesBlks rest
end

mutual
/-- Identifiers of the `ConditionalOp`s present in an operation (itself
included), nested regions included — the ops a complete traversal must find. -/
def condIdsOp : Op → List Nat
  | .simple _ => []
  | .conditional oid _ _ _ _ tr fr => oid :: (condIdsBlks tr ++ condIdsBlks fr)
  | .whileOp _ _ _ cr bd => condIdsBlks cr ++ condIdsBlks bd

/-- Conditional identifiers below a list of operations. -/
def condIdsOps : List Op → List Nat
  | [] => []
  | o :: rest => condIdsOp o ++ condIdsOps rest

/-- Conditional identifiers of a block. -/
def condIdsBlk : Blk → List Nat
  | .mk _ _ ops _ => condIdsOps ops

/-- Conditional identifiers of a region. -/
def condIdsBlks : List Blk → List Nat
  | [] => []
  | b :: rest => condIdsBlk b ++ condIdsBlks rest
end

mutual
/-- Identifiers of the `WhileOp`s present in an operation, nested included. -/
def whileIdsOp : Op → List Nat
  | .simple _ => []
  | .conditional _ _ _ _ _ tr fr => whileIdsBlks tr ++ whileIdsBlks fr
  | .whileOp oid _ _ cr bd => oid :: (whileIdsBlks cr ++ whileIdsBlks bd)

/-- While identifiers below a list of operations. -/
def whileIdsOps : List Op → List Nat
  | [] => []
  | o :: rest => whileIdsOp o ++ whileIdsOps rest

/-- While identifiers of a block. -/
def whileIdsBlk : Blk → List Nat
  | .mk _ _ ops _ => whileIdsOps ops

/-- While identifiers of a region. -/
def whileIdsBlks : List Blk → List Nat
  | [] => []
  | b :: rest => whileIdsBlk b ++ whileIdsBlks rest
end

/-- Lower each collected op in order; the first failure aborts the remaining
work (`signalPassFailure` and return), keeping the current partial state. -/
def foldLower (isCond : Bool) : List Nat → FuncState → LowRes FuncState
  | [], F => .ok F
  | o :: rest, F =>
      match lowerStructAt isCond o F with
      | .ok F2 => foldLower isCond rest F2
      | .failed F2 => .failed F2
      | .crash => .crash

/-- `LegalizeControlFlow::runOnFunction`: collect every conditional in one
upfront traversal and lower each; then collect every remaining while and
lower each; any failure aborts the pass. -/
def runOnFunction (F : FuncState) : LowRes FuncState :=
  match foldLower true (collectCondsBlks F.body) F with
  | .ok F1 => foldLower false (collectWhilesBlks F1.body) F1
  | r => r

/-! ## Semantics: a fuel-based interpreter

Blocks, branches and the structured operations are given an operational
semantics.  Structured operations still present in a function are executed
structurally (predicate picks a region; the while iterates its regions); the
lowered output is executed as an explicit block graph.  Tensors are scalars;
a boolean tensor holds `0` or `1` and `ExtractElementOp` copies it. -/

/-- Execute one simple operation. -/
def runSimple (s : SimpleOp) (e : Env) : Env :=
  match s with
  | .constOp d v => envUpd e d v
  | .addOp d a b => envUpd e d (e a + e b)
  | .ltOp d a b => envUpd e d (if e a < e b then 1 else 0)
  | .extractElementOp d src => envUpd e d (e src)

/-- Bind block parameters to entry argument values (strict on arity, as the
IR verifier requires branch arguments to match block parameters). -/
def bindParams : List Nat → List Int → Env → Option Env
  | [], [], e => some e
  | p :: ps, a :: rest, e => bindParams ps rest (envUpd e p a)
  | _, _, _ => none

/-- How a block-graph run ended: at an `xla_hlo::ReturnOp` (region yield), at
the function's own return, or by jumping to the designated stop block (used
to cut a run at a continuation point), carrying the evaluated values. -/
inductive Exit : Type where
  | exRet (vals : List Int)
  | exStdRet (vals : List Int)
  | exJump (vals : List Int)
deriving DecidableEq, Repr

mutual
/-- Run a list of operations in sequence. -/
def runOps : Nat → List Op → Env → Option Env
  | _, [], e => some e
  | 0, _ :: _, _ => none
  | n+1, o :: rest, e =>
      match runOp n o e with
      | none => none
      | some e2 => runOps n rest e2

/-- Run a single operation.  A structured conditional evaluates its predicate
and runs the chosen region on the chosen branch argument; a structured while
iterates condition and body regions on the loop state. -/
def runOp : Nat → Op → Env → Option Env
  | 0, _, _ => none
  | _+1, .simple s, e => some (runSimple s e)
  | n+1, .conditional _ res pred targ farg tr fr, e =>
      match (if e pred ≠ 0 then runRegionRet n tr [e targ] e else runRegionRet n fr [e farg] e) with
      | some [v] => some (envUpd e res v)
      | _ => none
  | n+1, .whileOp _ res init cr bd, e =>
      match runWhileAux n cr bd (e init) e with
      | some (_, x) => some (envUpd e res x)
      | none => none

/-- Iterate a structured while: run the condition region on the current state
`x`; if it yields a nonzero boolean, run the body region on `x` and continue
with its yield.  Returns the number of body executions together with the
final state — `N` body runs mean `N + 1` condition evaluations. -/
def runWhileAux : Nat → List Blk → List Blk → Int → Env → Option (Nat × Int)
  | 0, _, _, _, _ => none
  | n+1, cr, bd, x, e =>
      match runRegionRet n cr [x] e with
      | some [c] =>
          if c ≠ 0 then
            match runRegionRet n bd [x] e with
            | some [x2] =>
                match runWhileAux n cr bd x2 e with
                | some (k, xf) => some (k + 1, xf)
                | none => none
            | _ => none
          else some (0, x)
      | _ => none

/-- Run a structured region from its entry block on the given arguments, in
the surrounding environment (regions capture outer values); the region
yields the operands of the `xla_hlo::ReturnOp` it reaches. -/
def runRegionRet : Nat → List Blk → List Int → Env → Option (List Int)
  | 0, _, _, _ => none
  | n+1, R, args, e =>
      match R with
      | [] => none
      | entry :: _ =>
          match runIn n R entry.bid args e none with
          | some (.exRet vs, _, _) => some vs
          | _ => none

/-- Run a block graph: enter block `cur` of region `R` with arguments `args`,
follow branches, and stop at a terminator exit — or, when the target equals
`stop`, cut the run and report the jump with its evaluated arguments.  The
returned trace lists the visited blocks in order. -/
def runIn : Nat → List Blk → Nat → List Int → Env → Option Nat →
    Option (Exit × Env × List Nat)
  | 0, _, _, _, _, _ => none
  | n+1, R, cur, args, e, stop =>
      match findBlk R cur with
      | none => none
      | some blk =>
          match bindParams blk.params args e with
          | none => none
          | some e1 =>
              match runOps n blk.ops e1 with
              | none => none
              | some e2 =>
                  match blk.term with
                  | .ret vs => some (.exRet (vs.map e2), e2, [cur])
                  | .stdRet vs => some (.exStdRet (vs.map e2), e2, [cur])
                  | .br t targs =>
                      if stop = some t then some (.exJump (targs.map e2), e2, [cur])
                      else
                        match runIn n R t (targs.map e2) e2 stop with
                        | some (ex, e3, tr) => some (ex, e3, cur :: tr)
                        | none => none
                  | .condBr c tT tA fT fA =>
                      let tgt := if e2 c ≠ 0 then tT else fT
                      let targsv := (if e2 c ≠ 0 then tA else fA).map e2
                      if stop = some tgt then some (.exJump targsv, e2, [cur])
                      else
                        match runIn n R tgt targsv e2 stop with
                        | some (ex, e3, tr) => some (ex, e3, cur :: tr)
                        | none => none
end

/-- Run a whole function: enter its first block with the given inputs over
the all-zero environment. -/
def runFunc (n : Nat) (F : FuncState) (inputs : List Int) :
    Option (Exit × Env × List Nat) :=
  match F.body with
  | [] => none
  | entry :: _ => runIn n F.body entry.bid inputs env0 none

/-- Observable part of a run: the exit and the visited-block trace. -/
def runFuncObs (n : Nat) (F : FuncState) (inputs : List Int) :
    Option (Exit × List Nat) :=
  match runFunc n F inputs with
  | some (ex, _, tr) => some (ex, tr)
  | none => none

/-! ## Well-formedness checks used as hypotheses -/

/-- A single-operand `xla_hlo::ReturnOp`. -/
def singleRet : Term → Bool
  | .ret [_] => true
  | _ => false

mutual
/-- Every block inside every structured region of this operation ends in a
single-operand `xla_hlo::ReturnOp` (the spec's pre-lowering invariant). -/
def wfRegionsOp : Op → Bool
  | .simple _ => true
  | .conditional _ _ _ _ _ tr fr => wfRegionBlks tr && wfRegionBlks fr
  | .whileOp _ _ _ cr bd => wfRegionBlks cr && wfRegionBlks bd

/-- Region-return invariant over a list of operations. -/
def wfRegionsOps : List Op → Bool
  | [] => true
  | o :: rest => wfRegionsOp o && wfRegionsOps rest

/-- A block sitting inside a structured region: its terminator must be a
single-operand Return, and its operations satisfy the invariant. -/
def wfRegionBlk : Blk → Bool
  | .mk _ _ ops t => singleRet t && wfRegionsOps ops

/-- Region-return invariant over a region's blocks. -/
def wfRegionBlks : List Blk → Bool
  | [] => true
  | b :: rest => wfRegionBlk b && wfRegionBlks rest
end

/-- The region-return invariant for a function body: its own (top-level)
blocks may end in any terminator, but every structured region inside must be
return-terminated throughout. -/
def wfStructTop : List Blk → Bool
  | [] => true
  | b :: rest => wfRegionsOps b.ops && wfStructTop rest

/-- No top-level block of the function body ends in an `xla_hlo::ReturnOp`
(those are region terminators; a function block ends in its own return or a
branch). -/
def noTopRet : List Blk → Bool
  | [] => true
  | b :: rest => !b.term.isRet && noTopRet rest

/-- Number of top-level blocks of a region that end in an
`xla_hlo::ReturnOp` (nested regions not counted). -/
def topRetCount : List Blk → Nat
  | [] => 0
  | b :: rest => (if b.term.isRet then 1 else 0) + topRetCount rest

mutual
/-- Every block identifier in an operation's regions is below `n`. -/
def blkIdsBelowOp (n : Nat) : Op → Bool
  | .simple _ => true
  | .conditional _ _ _ _ _ tr fr => blkIdsBelowBlks n tr && blkIdsBelowBlks n fr
  | .whileOp _ _ _ cr bd => blkIdsBelowBlks n cr && blkIdsBelowBlks n bd

/-- Block-identifier bound over a list of operations. -/
def blkIdsBelowOps (n : Nat) : List Op → Bool
  | [] => true
  | o :: rest => blkIdsBelowOp n o && blkIdsBelowOps n rest

/-- Block-identifier bound over a block (its own id and nested ones). -/
def blkIdsBelowBlk (n : Nat) : Blk → Bool
  | .mk bid _ ops _ => decide (bid < n) && blkIdsBelowOps n ops

/-- Block-identifier bound over a region. -/
def blkIdsBelowBlks (n : Nat) : List Blk → Bool
  | [] => true
  | b :: rest => blkIdsBelowBlk n b && blkIdsBelowBlks n rest
end

/-! ## Concrete programs for the spec scenarios and counterexamples -/

/-- Scenario A's true region: one block, yields the constant `5`. -/
def trueRA : List Blk := [.mk 1 [1] [.simple (.constOp 2 5)] (.ret [2])]

/-- Scenario A's false region: one block, yields the constant `7`. -/
def falseRA : List Blk := [.mk 2 [3] [.simple (.constOp 4 7)] (.ret [4])]

/-- Scenario A: `%r = cond(%p, true {return 5}, false {return 7})`, the
result returned from the function. -/
def funcA : FuncState :=
  ⟨[.mk 0 [0] [.conditional 0 5 0 0 0 trueRA falseRA] (.stdRet [5])], ⟨6, 3, 1⟩⟩

/-- Scenario B's condition region: `return (x < 10)`. -/
def condRB : List Blk :=
  [.mk 1 [2] [.simple (.constOp 3 10), .simple (.ltOp 4 2 3)] (.ret [4])]

/-- Scenario B's body region: `return (x + 1)`. -/
def bodyRB : List Blk :=
  [.mk 2 [5] [.simple (.constOp 6 1), .simple (.addOp 7 5 6)] (.ret [7])]

/-- Scenario B: `%r = while(%x0, cond {return x < 10}, body {return x + 1})`,
the result returned from the function (the scenario runs it on input 7). -/
def funcB : FuncState :=
  ⟨[.mk 0 [0] [.whileOp 0 1 0 condRB bodyRB] (.stdRet [1])], ⟨8, 3, 1⟩⟩

/-- A condition region whose single block ends in a TWO-operand Return
(operand count deliberately not one). -/
def condRC5 : List Blk :=
  [.mk 1 [2] [.simple (.constOp 3 10), .simple (.ltOp 4 2 3)] (.ret [4, 2])]

/-- Body region for the two-operand-return loop. -/
def bodyRC5 : List Blk :=
  [.mk 2 [5] [.simple (.constOp 6 1), .simple (.addOp 7 5 6)] (.ret [7])]

/-- A loop whose condition region returns two operands: input for refuting
the claim that a non-single-operand Return is rejected. -/
def funcC5 : FuncState :=
  ⟨[.mk 0 [0] [.whileOp 0 1 0 condRC5 bodyRC5] (.stdRet [1])], ⟨8, 3, 1⟩⟩

/-- A two-block condition region, both blocks Return-terminated; the second
(non-entry) block has its own parameter `9`, distinct from the entry's `2`. -/
def condRC6 : List Blk :=
  [.mk 1 [2] [.simple (.constOp 3 10), .simple (.ltOp 4 2 3)] (.ret [4]),
   .mk 2 [9] [] (.ret [9])]

/-- Body region for the two-condition-block loop. -/
def bodyRC6 : List Blk :=
  [.mk 3 [5] [.simple (.constOp 6 1), .simple (.addOp 7 5 6)] (.ret [7])]

/-- A loop whose condition region has a non-entry block: input for refuting
the claim that each emitted conditional branch passes that block's own
parameters. -/
def funcC6 : FuncState :=
  ⟨[.mk 0 [0] [.whileOp 0 1 0 condRC6 bodyRC6] (.stdRet [1])], ⟨10, 4, 1⟩⟩

/-- True region of the conditional nested inside `func10`'s loop body. -/
def trueR10 : List Blk := [.mk 4 [7] [.simple (.constOp 8 1)] (.ret [8])]

/-- False region of the conditional nested inside `func10`'s loop body. -/
def falseR10 : List Blk := [.mk 5 [9] [.simple (.constOp 10 2)] (.ret [10])]

/-- Condition region of `func10`'s loop. -/
def condR10 : List Blk :=
  [.mk 1 [2] [.simple (.constOp 3 10), .simple (.ltOp 4 2 3)] (.ret [4])]

/-- Body region of `func10`'s loop: contains a nested conditional, and the
block still ends in a single-operand Return. -/
def bodyR10 : List Blk := [.mk 3 [5] [.conditional 1 6 5 5 5 trueR10 falseR10] (.ret [6])]

/-- A well-formed function: a loop whose body region contains a nested
conditional; every region block ends in a single-operand Return. -/
def func10 : FuncState :=
  ⟨[.mk 0 [0] [.whileOp 0 1 0 condR10 bodyR10] (.stdRet [1])], ⟨11, 6, 2⟩⟩

/-- The body region of the first `WhileOp` heading the first block, if any —
used to inspect `func10` after the conditional phase. -/
def firstWhileBodyRegion : List Blk → Option (List Blk)
  | (.mk _ _ (.whileOp _ _ _ _ bd :: _) _) :: _ => some bd
  | _ => none

/-- A conditional whose true region's block ends in a branch instead of a
Return — lowering it must fail (malformed region). -/
def funcBadCond : FuncState :=
  ⟨[.mk 0 [0] [.conditional 0 5 0 0 0 [.mk 1 [1] [] (.br 1 [1])]
      [.mk 2 [3] [.simple (.constOp 4 7)] (.ret [4])]] (.stdRet [5])], ⟨6, 3, 1⟩⟩

/-! ## Value discipline and identifier bounds for the semantics -/

/-- The value identifiers a simple operation reads. -/
def usesSimple : SimpleOp → List Nat
  | .constOp _ _ => []
  | .addOp _ a b => [a, b]
  | .ltOp _ a b => [a, b]
  | .extractElementOp _ s => [s]

/-- Decidable list inclusion. -/
def subList (xs avail : List Nat) : Bool := xs.all (fun v => decide (v ∈ avail))

/-- The result identifiers an operation defines in its own block (nested
region definitions are not visible outside the operation). -/
def resOp : Op → List Nat
  | .simple s => [s.dst]
  | .conditional _ res _ _ _ _ _ => [res]
  | .whileOp _ res _ _ _ => [res]

/-- Results of a list of operations. -/
def resOps : List Op → List Nat
  | [] => []
  | o :: rest => resOp o ++ resOps rest

/-- A terminator reads only available values. -/
def wfAvailTerm (avail : List Nat) : Term → Bool
  | .ret args => subList args avail
  | .stdRet args => subList args avail
  | .br _ args => subList args avail
  | .condBr cnd _ ta _ fa => subList (cnd :: (ta ++ fa)) avail

mutual
/-- SSA availability: an operation reads only values already available;
structured regions are self-contained (each region block reads only its own
parameters and earlier results of the same block). -/
def wfAvailOp (avail : List Nat) : Op → Bool
  | .simple s => subList (usesSimple s) avail
  | .conditional _ _ pred targ farg tr fr =>
      subList [pred, targ, farg] avail && wfAvailBlks tr && wfAvailBlks fr
  | .whileOp _ _ init cr bd =>
      subList [init] avail && wfAvailBlks cr && wfAvailBlks bd

/-- Availability through a block body and its terminator, threading the
results defined so far. -/
def wfAvailOpsT (avail : List Nat) : List Op → Term → Bool
  | [], t => wfAvailTerm avail t
  | o :: rest, t => wfAvailOp avail o && wfAvailOpsT (avail ++ resOp o) rest t

/-- A block is self-contained: starting from its parameters. -/
def wfAvailBlk : Blk → Bool
  | .mk _ ps ops t => wfAvailOpsT ps ops t

/-- Every block of a region is self-contained. -/
def wfAvailBlks : List Blk → Bool
  | [] => true
  | b :: rest => wfAvailBlk b && wfAvailBlks rest
end

/-- All value identifiers a terminator reads are below `n`. -/
def valsBelowTerm (n : Nat) : Term → Bool
  | .ret args => args.all (fun v => decide (v < n))
  | .stdRet args => args.all (fun v => decide (v < n))
  | .br _ args => args.all (fun v => decide (v < n))
  | .condBr cnd _ ta _ fa =>
      decide (cnd < n) && (ta ++ fa).all (fun v => decide (v < n))

mutual
/-- All value identifiers (definitions and uses) of an operation are below
`n`, nested regions included. -/
def valsBelowOp (n : Nat) : Op → Bool
  | .simple s => decide (s.dst < n) && (usesSimple s).all (fun v => decide (v < n))
  | .conditional _ res p t f tr fr =>
      decide (res < n) && decide (p < n) && decide (t < n) && decide (f < n) &&
        valsBelowBlks n tr && valsBelowBlks n fr
  | .whileOp _ res init cr bd =>
      decide (res < n) && decide (init < n) && valsBelowBlks n cr && valsBelowBlks n bd

/-- Value-identifier bound over a list of operations. -/
def valsBelowOps (n : Nat) : List Op → Bool
  | [] => true
  | o :: rest => valsBelowOp n o && valsBelowOps n rest

/-- Value-identifier bound over a block. -/
def valsBelowBlk (n : Nat) : Blk → Bool
  | .mk _ ps ops t =>
      ps.all (fun v => decide (v < n)) && valsBelowOps n ops && valsBelowTerm n t

/-- Value-identifier bound over a region. -/
def valsBelowBlks (n : Nat) : List Blk → Bool
  | [] => true
  | b :: rest => valsBelowBlk n b && valsBelowBlks n rest
end

/-- All branch targets of a terminator are below `n`. -/
def tgtsBelowTerm (n : Nat) : Term → Bool
  | .br t _ => decide (t < n)
  | .condBr _ tt _ ft _ => decide (tt < n) && decide (ft < n)
  | _ => true

mutual
/-- All branch targets in an operation's regions are below `n`. -/
def tgtsBelowOp (n : Nat) : Op → Bool
  | .simple _ => true
  | .conditional _ _ _ _ _ tr fr => tgtsBelowBlks n tr && tgtsBelowBlks n fr
  | .whileOp _ _ _ cr bd => tgtsBelowBlks n cr && tgtsBelowBlks n bd

/-- Branch-target bound over a list of operations. -/
def tgtsBelowOps (n : Nat) : List Op → Bool
  | [] => true
  | o :: rest => tgtsBelowOp n o && tgtsBelowOps n rest

/-- Branch-target bound over a block. -/
def tgtsBelowBlk (n : Nat) : Blk → Bool
  | .mk _ _ ops t => tgtsBelowOps n ops && tgtsBelowTerm n t

/-- Branch-target bound over a region. -/
def tgtsBelowBlks (n : Nat) : List Blk → Bool
  | [] => true
  | b :: rest => tgtsBelowBlk n b && tgtsBelowBlks n rest
end

/-- Environment correspondence between an original run and a run of the
clone: on every available identifier below the renaming threshold, the
clone's environment at the renamed identifier holds the original's value. -/
def Agree (V δ : Nat) (D avail : List Nat) (e e' : Env) : Prop :=
  ∀ v, v < V → v ∈ avail → e' (mkSubst D δ v) = e v

/-- Correspondence between a run of the original and a run of the clone:
failure maps to failure, success to success with an agreeing environment. -/
def SimEnvRel (V δ : Nat) (D avail : List Nat) : Option Env → Option Env → Prop
  | none, o2 => o2 = none
  | some e2, o2 => ∃ e2', o2 = some e2' ∧ Agree V δ D avail e2 e2'

/-- Correspondence between block-graph runs of the original and the clone:
same exit values, block trace mapped through the block renaming. -/
def SimInRel (sbf : Nat → Nat) :
    Option (Exit × Env × List Nat) → Option (Exit × Env × List Nat) → Prop
  | none, o2 => o2 = none
  | some (ex, _, tr), o2 => ∃ e2', o2 = some (ex, e2', tr.map sbf)

/-- The value identifiers a terminator reads (branch targets are not value
uses). -/
def usesTerm : Term → List Nat
  | .ret args => args
  | .stdRet args => args
  | .br _ args => args
  | .condBr cnd _ ta _ fa => cnd :: (ta ++ fa)

mutual
/-- All value identifiers an operation reads (its operands and, recursively,
every use inside its regions); results and parameters are definitions, not
uses — exactly the positions `replaceAllUsesWith` rewrites. -/
def usesOp : Op → List Nat
  | .simple s => usesSimple s
  | .conditional _ _ p t f tr fr => p :: t :: f :: (usesBlks tr ++ usesBlks fr)
  | .whileOp _ _ init cr bd => init :: (usesBlks cr ++ usesBlks bd)

/-- Uses of a list of operations. -/
def usesOps : List Op → List Nat
  | [] => []
  | o :: rest => usesOp o ++ usesOps rest

/-- Uses of a block: its operations' and its terminator's. -/
def usesBlk : Blk → List Nat
  | .mk _ _ ops t => usesOps ops ++ usesTerm t

/-- Uses of a region. -/
def usesBlks : List Blk → List Nat
  | [] => []
  | b :: rest => usesBlk b ++ usesBlks rest
end

/-- The block trace of a lowered loop that iterates `N` times: condition and
body alternate `N` times, then the condition runs once more and control
falls through to the tail block. -/
def loopTrace (cid bid tid : Nat) : Nat → List Nat
  | 0 => [cid, tid]
  | n + 1 => cid :: bid :: loopTrace cid bid tid n

/-- The canonical function containing one conditional: a single block binding
the function inputs, holding exactly the conditional, and returning its
result; the regions are single blocks ending in an `xla_hlo::ReturnOp`. -/
def condCanonF (b0 oid res pred targ farg tb fb tv fv : Nat)
    (ps tps fps : List Nat) (tops fops : List Op) (c : Counters) : FuncState :=
  ⟨[.mk b0 ps
      [.conditional oid res pred targ farg
        [.mk tb tps tops (.ret [tv])] [.mk fb fps fops (.ret [fv])]]
      (.stdRet [res])], c⟩

/-- What `LowerConditionalOp` produces on the canonical conditional function:
predecessor with the predicate extraction and conditional branch, the two
cloned region blocks re-terminated by branches to the tail, and the tail
block carrying the new parameter into the function return. -/
def condLoweredF (b0 pred targ farg tb fb tv fv : Nat)
    (ps tps fps : List Nat) (tops fops : List Op) (c : Counters) : FuncState :=
  ⟨[.mk b0 ps [.simple (.extractElementOp (c.nv * 2 * 2) pred)]
      (.condBr (c.nv * 2 * 2) (tb + (c.nb + 1)) [targ]
        (fb + (c.nb + 1) * 2) [farg]),
    .mk (tb + (c.nb + 1))
      (tps.map (mkSubst (defsBlks [Blk.mk tb tps tops (.ret [tv])]) c.nv))
      (renameOps (mkSubst (defsBlks [Blk.mk tb tps tops (.ret [tv])]) c.nv)
        (mkSubst (blkIdsBlks [Blk.mk tb tps tops (.ret [tv])]) (c.nb + 1))
        (mkSubst (opIdsBlks [Blk.mk tb tps tops (.ret [tv])]) c.nop) tops)
      (.br c.nb [mkSubst (defsBlks [Blk.mk tb tps tops (.ret [tv])]) c.nv tv]),
    .mk (fb + (c.nb + 1) * 2)
      (fps.map (mkSubst (defsBlks [Blk.mk fb fps fops (.ret [fv])]) (c.nv * 2)))
      (renameOps
        (mkSubst (defsBlks [Blk.mk fb fps fops (.ret [fv])]) (c.nv * 2))
        (mkSubst (blkIdsBlks [Blk.mk fb fps fops (.ret [fv])]) ((c.nb + 1) * 2))
        (mkSubst (opIdsBlks [Blk.mk fb fps fops (.ret [fv])]) (c.nop * 2)) fops)
      (.br c.nb
        [mkSubst (defsBlks [Blk.mk fb fps fops (.ret [fv])]) (c.nv * 2) fv]),
    .mk c.nb [c.nv * 2 * 2 + 1] [] (.stdRet [c.nv * 2 * 2 + 1])],
   ⟨c.nv * 2 * 2 + 2, (c.nb + 1) * 2 * 2, c.nop * 2 * 2⟩⟩

/-- The canonical function containing one loop: a single block binding the
function inputs, holding exactly the while, and returning its result; the
condition and body regions are single single-parameter blocks ending in an
`xla_hlo::ReturnOp`. -/
def whileCanonF (b0 oid res init cb cp cv bb bp bv : Nat)
    (ps : List Nat) (cops bops : List Op) (c : Counters) : FuncState :=
  ⟨[.mk b0 ps
      [.whileOp oid res init
        [.mk cb [cp] cops (.ret [cv])] [.mk bb [bp] bops (.ret [bv])]]
      (.stdRet [res])], c⟩

/-- What `LowerWhileOp` produces on the canonical loop function: predecessor
branching into the cloned condition entry with the initial argument; the
cloned condition block extended by the predicate extraction and re-terminated
by a conditional branch into the cloned body (true) or the tail (false), both
carrying the condition entry's parameters; the cloned body block
re-terminated by a branch back to the condition entry with its return
operand; and the tail block carrying the new parameter into the function
return. -/
def whileLoweredF (b0 init cb cp cv bb bp bv : Nat)
    (ps : List Nat) (cops bops : List Op) (c : Counters) : FuncState :=
  ⟨[.mk b0 ps [] (.br (cb + (c.nb + 1)) [init]),
    .mk (cb + (c.nb + 1))
      [mkSubst (defsBlks [Blk.mk cb [cp] cops (.ret [cv])]) c.nv cp]
      (renameOps (mkSubst (defsBlks [Blk.mk cb [cp] cops (.ret [cv])]) c.nv)
        (mkSubst (blkIdsBlks [Blk.mk cb [cp] cops (.ret [cv])]) (c.nb + 1))
        (mkSubst (opIdsBlks [Blk.mk cb [cp] cops (.ret [cv])]) c.nop) cops
        ++ [.simple (.extractElementOp (c.nv * 2 * 2)
             (mkSubst (defsBlks [Blk.mk cb [cp] cops (.ret [cv])]) c.nv cv))])
      (.condBr (c.nv * 2 * 2) (bb + (c.nb + 1) * 2)
        [mkSubst (defsBlks [Blk.mk cb [cp] cops (.ret [cv])]) c.nv cp] c.nb
        [mkSubst (defsBlks [Blk.mk cb [cp] cops (.ret [cv])]) c.nv cp]),
    .mk (bb + (c.nb + 1) * 2)
      [mkSubst (defsBlks [Blk.mk bb [bp] bops (.ret [bv])]) (c.nv * 2) bp]
      (renameOps
        (mkSubst (defsBlks [Blk.mk bb [bp] bops (.ret [bv])]) (c.nv * 2))
        (mkSubst (blkIdsBlks [Blk.mk bb [bp] bops (.ret [bv])]) ((c.nb + 1) * 2))
        (mkSubst (opIdsBlks [Blk.mk bb [bp] bops (.ret [bv])]) (c.nop * 2)) bops)
      (.br (cb + (c.nb + 1))
        [mkSubst (defsBlks [Blk.mk bb [bp] bops (.ret [bv])]) (c.nv * 2) bv]),
    .mk c.nb [c.nv * 2 * 2 + 1] [] (.stdRet [c.nv * 2 * 2 + 1])],
   ⟨c.nv * 2 * 2 + 2, (c.nb + 1) * 2 * 2, c.nop * 2 * 2⟩⟩

/-! # Theorems -/

/-- C10: there is a well-formed input — a function containing a Loop whose
body region contains a nested Conditional, every region block ending in a
single-operand Return — on which the pass signals failure: the nested
conditional is collected and lowered first, leaving the loop's body region
headed by a block that no longer ends in a Return, so the subsequent
`LowerWhileOp` fails its Return check, and the whole pass reports failure. -/
theorem C10_nested_conditional_makes_pass_fail :
    wfStructTop func10.body = true ∧
    collectCondsBlks func10.body = [1] ∧
    (runOnFunction func10).isFailed = true ∧
    (match foldLower true (collectCondsBlks func10.body) func10 with
      | .ok F1 =>
          (match firstWhileBodyRegion F1.body with
            | some (bb :: _) => !bb.term.isRet
            | _ => false) && (LowerWhileOp 0 F1).isFailed
      | _ => false) = true :=
  ⟨by decide, by decide, by decide, by decide⟩

/-- C5 counterexample: the claim says a condition-region Return whose operand
count is not exactly one causes failure rather than being accepted.  In
`funcC5` the condition region's only block ends in the two-operand Return
`ret [4, 2]`, yet `LowerWhileOp` succeeds — the operand count is never
checked, only `dyn_cast<ReturnOp>`. -/
theorem C5_two_operand_return_accepted :
    condRC5.map Blk.term = [Term.ret [4, 2]] ∧
    (LowerWhileOp 0 funcC5).isOk = true :=
  ⟨by decide, by decide⟩

/-- C6 counterexample: the claim says each condition block's emitted
conditional branch passes that block's own entry parameters.  In `funcC6` the
condition region's second block (identifier `2`, its clone `7`) has its own
parameter (`9`, cloned to `19`), but the branch emitted in the clone carries
`[12]` — the cloned *entry* block's parameter (`cond_block->args_begin()` in
the C++ always reads the entry block) — not its own `[19]`. -/
theorem C6_non_entry_block_gets_entry_params :
    condRC6.map Blk.params = [[2], [9]] ∧
    (match LowerWhileOp 0 funcC6 with
      | .ok F => (findBlk F.body 7).map (fun b => (b.params, b.term))
      | _ => none) = some ([19], .condBr 41 13 [12] 4 [12]) ∧
    ([12] : List Nat) ≠ [19] :=
  ⟨by decide, by decide, by decide⟩

/-! ## Stability of block lookup under the single-block mutations -/

/-- Lookup after overwriting the terminator of the looked-up block. -/
theorem findBlk_setTermFirst_same (bid : Nat) (t : Term) (RR : List Blk) :
    findBlk (setTermFirst bid t RR) bid =
      (findBlk RR bid).map (fun b => .mk b.bid b.params b.ops t) := by
  induction RR with
  | nil => rfl
  | cons b rest ih =>
      cases b with
      | mk b2 ps ops2 t2 =>
          by_cases h : b2 = bid
          · subst h
            simp [setTermFirst, findBlk, List.find?, Blk.bid, Blk.params, Blk.ops]
          · simp [setTermFirst, findBlk, List.find?, Blk.bid, h]
            exact ih

/-- Overwriting one block's terminator does not affect other lookups. -/
theorem findBlk_setTermFirst_other (bid : Nat) (t : Term) (RR : List Blk)
    (q : Nat) (h : q ≠ bid) :
    findBlk (setTermFirst bid t RR) q = findBlk RR q := by
  induction RR with
  | nil => rfl
  | cons b rest ih =>
      cases b with
      | mk b2 ps ops2 t2 =>
          by_cases hb : b2 = bid
          · subst hb
            have hq : ¬ b2 = q := fun hq => h (hq ▸ rfl)
            simp [setTermFirst, findBlk, List.find?, Blk.bid, Blk.params, Blk.ops, hq]
          · by_cases hq : b2 = q
            · subst hq
              simp [setTermFirst, findBlk, List.find?, Blk.bid, hb]
            · simp [setTermFirst, findBlk, List.find?, Blk.bid, hb, hq]
              exact ih

/-- Lookup after overwriting ops and terminator of the looked-up block. -/
theorem findBlk_setOpsTermFirst_same (bid : Nat) (ops : List Op) (t : Term)
    (RR : List Blk) :
    findBlk (setOpsTermFirst bid ops t RR) bid =
      (findBlk RR bid).map (fun b => .mk b.bid b.params ops t) := by
  induction RR with
  | nil => rfl
  | cons b rest ih =>
      cases b with
      | mk b2 ps ops2 t2 =>
          by_cases h : b2 = bid
          · subst h
            simp [setOpsTermFirst, findBlk, List.find?, Blk.bid, Blk.params, Blk.ops]
          · simp [setOpsTermFirst, findBlk, List.find?, Blk.bid, h]
            exact ih

/-- Overwriting one block's ops and terminator leaves other lookups alone. -/
theorem findBlk_setOpsTermFirst_other (bid : Nat) (ops : List Op) (t : Term)
    (RR : List Blk) (q : Nat) (h : q ≠ bid) :
    findBlk (setOpsTermFirst bid ops t RR) q = findBlk RR q := by
  induction RR with
  | nil => rfl
  | cons b rest ih =>
      cases b with
      | mk b2 ps ops2 t2 =>
          by_cases hb : b2 = bid
          · subst hb
            have hq : ¬ b2 = q := fun hq => h (hq ▸ rfl)
            simp [setOpsTermFirst, findBlk, List.find?, Blk.bid, hq]
          · by_cases hq : b2 = q
            · subst hq
              simp [setOpsTermFirst, findBlk, List.find?, Blk.bid, hb]
            · simp [setOpsTermFirst, findBlk, List.find?, Blk.bid, hb, hq]
              exact ih

/-! ## Characterisation of `ReplaceTerminators` -/

/-- `ReplaceTerminators` only touches the clones of the source blocks: every
other lookup is unchanged, on the success and on the failure path alike. -/
theorem ReplaceTerminators_untouched (src : List Blk) (sb : Nat → Nat)
    (tailId : Nat) (RR : List Blk) (q : Nat)
    (hq : ∀ b ∈ src, sb b.bid ≠ q) :
    findBlk (ReplaceTerminators src sb tailId RR).1 q = findBlk RR q := by
  induction src generalizing RR with
  | nil => rfl
  | cons b rest ih =>
      cases hf : findBlk RR (sb b.bid) with
      | none => simp [ReplaceTerminators, hf]
      | some blk =>
          cases ht : blk.term with
          | ret args =>
              simp only [ReplaceTerminators, hf, ht]
              rw [ih _ (fun b2 hb2 => hq b2 (List.mem_cons_of_mem _ hb2))]
              exact findBlk_setTermFirst_other _ _ _ _
                (Ne.symm (hq b (List.mem_cons_self _ _)))
          | stdRet args => simp [ReplaceTerminators, hf, ht]
          | br t2 args => simp [ReplaceTerminators, hf, ht]
          | condBr c tT tA fT fA => simp [ReplaceTerminators, hf, ht]

/-- `ReplaceTerminators` succeeds exactly when every cloned block's terminator
is an `xla_hlo::ReturnOp` (hypotheses: each clone is present, and distinct
source blocks have distinct clones — pointer identity). -/
theorem ReplaceTerminators_ok_iff (src : List Blk) (sb : Nat → Nat)
    (tailId : Nat) (RR : List Blk)
    (hpres : ∀ b ∈ src, (findBlk RR (sb b.bid)).isSome = true)
    (hinj : (src.map (fun b => sb b.bid)).Nodup) :
    (ReplaceTerminators src sb tailId RR).2 = true ↔
      ∀ b ∈ src, ∀ blk, findBlk RR (sb b.bid) = some blk → blk.term.isRet = true := by
  induction src generalizing RR with
  | nil => simp [ReplaceTerminators]
  | cons b rest ih =>
      obtain ⟨blk, hf⟩ := Option.isSome_iff_exists.mp (hpres b (List.mem_cons_self _ _))
      rw [List.map_cons, List.nodup_cons] at hinj
      have hne : ∀ b2 ∈ rest, sb b2.bid ≠ sb b.bid := by
        intro b2 hb2 hcontra
        exact hinj.1 (List.mem_map.mpr ⟨b2, hb2, hcontra⟩)
      cases ht : blk.term with
      | ret args =>
          have hstep : ∀ b2 ∈ rest,
              findBlk (setTermFirst (sb b.bid) (.br tailId args) RR) (sb b2.bid) =
                findBlk RR (sb b2.bid) := by
            intro b2 hb2
            exact findBlk_setTermFirst_other _ _ _ _ (hne b2 hb2)
          have hpres2 : ∀ b2 ∈ rest,
              (findBlk (setTermFirst (sb b.bid) (.br tailId args) RR) (sb b2.bid)).isSome
                = true := by
            intro b2 hb2
            rw [hstep b2 hb2]
            exact hpres b2 (List.mem_cons_of_mem _ hb2)
          have ihx := ih (setTermFirst (sb b.bid) (.br tailId args) RR) hpres2 hinj.2
          simp only [ReplaceTerminators, hf, ht]
          rw [ihx]
          constructor
          · intro hall b2 hb2 blk2 hf2
            rcases List.mem_cons.mp hb2 with h | h
            · subst h
              rw [hf2] at hf
              cases hf
              rw [ht]
              rfl
            · exact hall b2 h blk2 ((hstep b2 h).symm ▸ hf2)
          · intro hall b2 hb2 blk2 hf2
            rw [hstep b2 hb2] at hf2
            exact hall b2 (List.mem_cons_of_mem _ hb2) blk2 hf2
      | stdRet args =>
          simp only [ReplaceTerminators, hf, ht]
          constructor
          · intro h; cases h
          · intro hall
            have := hall b (List.mem_cons_self _ _) blk hf
            rw [ht] at this
            cases this
      | br t2 args =>
          simp only [ReplaceTerminators, hf, ht]
          constructor
          · intro h; cases h
          · intro hall
            have := hall b (List.mem_cons_self _ _) blk hf
            rw [ht] at this
            cases this
      | condBr c tT tA fT fA =>
          simp only [ReplaceTerminators, hf, ht]
          constructor
          · intro h; cases h
          · intro hall
            have := hall b (List.mem_cons_self _ _) blk hf
            rw [ht] at this
            cases this

/-- On success, `ReplaceTerminators` has deleted every cloned block's Return
and put in its place exactly one unconditional branch to the continuation
block carrying that Return's operands; everything else about the block is
unchanged. -/
theorem ReplaceTerminators_ok_shape (src : List Blk) (sb : Nat → Nat)
    (tailId : Nat) (RR : List Blk)
    (hpres : ∀ b ∈ src, (findBlk RR (sb b.bid)).isSome = true)
    (hinj : (src.map (fun b => sb b.bid)).Nodup)
    (hok : (ReplaceTerminators src sb tailId RR).2 = true) :
    ∀ b ∈ src, ∀ blk, findBlk RR (sb b.bid) = some blk →
      ∃ args, blk.term = .ret args ∧
        findBlk (ReplaceTerminators src sb tailId RR).1 (sb b.bid) =
          some (.mk blk.bid blk.params blk.ops (.br tailId args)) := by
  induction src generalizing RR with
  | nil => intro b hb; cases hb
  | cons b rest ih =>
      obtain ⟨blk, hf⟩ := Option.isSome_iff_exists.mp (hpres b (List.mem_cons_self _ _))
      rw [List.map_cons, List.nodup_cons] at hinj
      have hne : ∀ b2 ∈ rest, sb b2.bid ≠ sb b.bid := by
        intro b2 hb2 hcontra
        exact hinj.1 (List.mem_map.mpr ⟨b2, hb2, hcontra⟩)
      have hret : blk.term.isRet = true := by
        have := (ReplaceTerminators_ok_iff (b :: rest) sb tailId RR hpres
          (by rw [List.map_cons, List.nodup_cons]; exact hinj)).mp hok
        exact this b (List.mem_cons_self _ _) blk hf
      cases ht : blk.term with
      | ret args =>
          have hstep : ∀ b2 ∈ rest,
              findBlk (setTermFirst (sb b.bid) (.br tailId args) RR) (sb b2.bid) =
                findBlk RR (sb b2.bid) := by
            intro b2 hb2
            exact findBlk_setTermFirst_other _ _ _ _ (hne b2 hb2)
          have hpres2 : ∀ b2 ∈ rest,
              (findBlk (setTermFirst (sb b.bid) (.br tailId args) RR) (sb b2.bid)).isSome
                = true := by
            intro b2 hb2
            rw [hstep b2 hb2]
            exact hpres b2 (List.mem_cons_of_mem _ hb2)
          have hok2 : (ReplaceTerminators rest sb tailId
              (setTermFirst (sb b.bid) (.br tailId args) RR)).2 = true := by
            simp only [ReplaceTerminators, hf, ht] at hok
            exact hok
          intro b2 hb2 blk2 hf2
          rcases List.mem_cons.mp hb2 with h | h
          · subst h
            rw [hf2] at hf
            cases hf
            refine ⟨args, ht, ?_⟩
            simp only [ReplaceTerminators, hf2, ht]
            rw [ReplaceTerminators_untouched rest sb tailId _ (sb b2.bid) hne]
            rw [findBlk_setTermFirst_same]
            rw [hf2]
            rfl
          · have := ih (setTermFirst (sb b.bid) (.br tailId args) RR) hpres2 hinj.2 hok2
              b2 h blk2 ((hstep b2 h).symm ▸ hf2)
            rcases this with ⟨args2, hterm2, hfound⟩
            refine ⟨args2, hterm2, ?_⟩
            simp only [ReplaceTerminators, hf, ht]
            exact hfound
      | stdRet args => rw [ht] at hret; cases hret
      | br t2 args => rw [ht] at hret; cases hret
      | condBr c tT tA fT fA => rw [ht] at hret; cases hret

/-- C4: applied to a source region, a continuation block and the clone
mapping, the terminator rewriter fails if and only if some cloned block's
terminator is not a Return; when it succeeds, every cloned block's Return has
been deleted and replaced by exactly one unconditional branch to the
continuation block carrying that Return's operands (the block is otherwise
unchanged).  Hypotheses: every clone is present, and distinct source blocks
have distinct clones (pointer identity in the C++). -/
theorem C4_ReplaceTerminators_fail_iff_nonreturn (src : List Blk)
    (sb : Nat → Nat) (tailId : Nat) (RR : List Blk)
    (hpres : ∀ b ∈ src, (findBlk RR (sb b.bid)).isSome = true)
    (hinj : (src.map (fun b => sb b.bid)).Nodup) :
    ((ReplaceTerminators src sb tailId RR).2 = false ↔
      ∃ b ∈ src, ∃ blk, findBlk RR (sb b.bid) = some blk ∧ blk.term.isRet = false) ∧
    ((ReplaceTerminators src sb tailId RR).2 = true →
      ∀ b ∈ src, ∀ blk, findBlk RR (sb b.bid) = some blk →
        ∃ args, blk.term = .ret args ∧
          findBlk (ReplaceTerminators src sb tailId RR).1 (sb b.bid) =
            some (.mk blk.bid blk.params blk.ops (.br tailId args))) := by
  constructor
  · rw [← Bool.not_eq_true]
    rw [ReplaceTerminators_ok_iff src sb tailId RR hpres hinj]
    constructor
    · intro h
      by_contra hcontra
      apply h
      intro b hb blk hf
      by_contra hr2
      exact hcontra ⟨b, hb, blk, hf, Bool.eq_false_iff.mpr hr2⟩
    · rintro ⟨b, hb, blk, hf, hr⟩ hall
      rw [hall b hb blk hf] at hr
      cases hr
  · exact ReplaceTerminators_ok_shape src sb tailId RR hpres hinj

/-- Witness for C4 at a concrete instance: a one-block source region whose
clone (via offset 10) is present and Return-terminated; the rewriter succeeds
and the clone's Return becomes a branch to the continuation. -/
theorem C4_witness :
    ((∀ b ∈ [Blk.mk 1 [1] [] (.ret [2])],
        (findBlk [Blk.mk 11 [5] [] (.ret [6]), Blk.mk 3 [] [] (.stdRet [])]
          (mkSubst [1] 10 b.bid)).isSome = true) ∧
      (([Blk.mk 1 [1] [] (.ret [2])].map (fun b => mkSubst [1] 10 b.bid)).Nodup)) ∧
    (((ReplaceTerminators [Blk.mk 1 [1] [] (.ret [2])] (mkSubst [1] 10) 3
        [Blk.mk 11 [5] [] (.ret [6]), Blk.mk 3 [] [] (.stdRet [])]).2 = false ↔
      ∃ b ∈ [Blk.mk 1 [1] [] (.ret [2])], ∃ blk,
        findBlk [Blk.mk 11 [5] [] (.ret [6]), Blk.mk 3 [] [] (.stdRet [])]
          (mkSubst [1] 10 b.bid) = some blk ∧ blk.term.isRet = false) ∧
    ((ReplaceTerminators [Blk.mk 1 [1] [] (.ret [2])] (mkSubst [1] 10) 3
        [Blk.mk 11 [5] [] (.ret [6]), Blk.mk 3 [] [] (.stdRet [])]).2 = true →
      ∀ b ∈ [Blk.mk 1 [1] [] (.ret [2])], ∀ blk,
        findBlk [Blk.mk 11 [5] [] (.ret [6]), Blk.mk 3 [] [] (.stdRet [])]
          (mkSubst [1] 10 b.bid) = some blk →
        ∃ args, blk.term = .ret args ∧
          findBlk (ReplaceTerminators [Blk.mk 1 [1] [] (.ret [2])] (mkSubst [1] 10) 3
            [Blk.mk 11 [5] [] (.ret [6]), Blk.mk 3 [] [] (.stdRet [])]).1
            (mkSubst [1] 10 b.bid) =
            some (.mk blk.bid blk.params blk.ops (.br 3 args)))) :=
  ⟨⟨by decide, by decide⟩,
    C4_ReplaceTerminators_fail_iff_nonreturn _ _ _ _ (by decide) (by decide)⟩

/-! ## Characterisation of the while-lowering's condition-block rewrite -/

/-- Overwriting ops/terminator of one block never changes any block's
parameters as seen through lookup. -/
theorem findBlk_params_setOpsTermFirst (bid : Nat) (ops : List Op) (t : Term)
    (RR : List Blk) (q : Nat) :
    (findBlk (setOpsTermFirst bid ops t RR) q).map Blk.params =
      (findBlk RR q).map Blk.params := by
  by_cases h : q = bid
  · rw [h, findBlk_setOpsTermFirst_same]
    cases findBlk RR bid with
    | none => rfl
    | some b => cases b; simp [Blk.params, Blk.bid]
  · rw [findBlk_setOpsTermFirst_other _ _ _ _ _ h]

/-- The condition-block rewrite only touches the clones of the source blocks
(whatever the outcome): any other lookup in the carried region is unchanged. -/
theorem rewriteCondBlocks_untouched (src : List Blk) (sb : Nat → Nat)
    (ceId beId tailId : Nat) (RR : List Blk) (c : Counters) (q : Nat)
    (hq : ∀ b ∈ src, sb b.bid ≠ q) :
    ∀ x, (rewriteCondBlocks src sb ceId beId tailId RR c).payload? = some x →
      findBlk x.1 q = findBlk RR q := by
  induction src generalizing RR c with
  | nil =>
      intro x hx
      simp only [rewriteCondBlocks, LowRes.payload?, Option.some.injEq] at hx
      cases hx
      rfl
  | cons b rest ih =>
      intro x hx
      cases hf : findBlk RR (sb b.bid) with
      | none =>
          simp only [rewriteCondBlocks, hf, LowRes.payload?, Option.some.injEq] at hx
          cases hx
          rfl
      | some blk =>
          cases ht : blk.term with
          | ret args =>
              cases args with
              | nil => simp [rewriteCondBlocks, hf, ht, LowRes.payload?] at hx
              | cons v vs =>
                  cases hce : findBlk RR ceId with
                  | none => simp [rewriteCondBlocks, hf, ht, hce, LowRes.payload?] at hx
                  | some ce =>
                      simp only [rewriteCondBlocks, hf, ht, hce] at hx
                      rw [ih _ _ (fun b2 hb2 => hq b2 (List.mem_cons_of_mem _ hb2)) x hx]
                      exact findBlk_setOpsTermFirst_other _ _ _ _ _
                        (Ne.symm (hq b (List.mem_cons_self _ _)))
          | stdRet args =>
              simp only [rewriteCondBlocks, hf, ht, LowRes.payload?, Option.some.injEq] at hx
              cases hx
              rfl
          | br t2 args =>
              simp only [rewriteCondBlocks, hf, ht, LowRes.payload?, Option.some.injEq] at hx
              cases hx
              rfl
          | condBr cc tT tA fT fA =>
              simp only [rewriteCondBlocks, hf, ht, LowRes.payload?, Option.some.injEq] at hx
              cases hx
              rfl

/-- The condition-block rewrite reports `LogicalResult` failure exactly when
some cloned condition block's terminator is not a Return.  The operand count
of a Return is never compared against one: any Return with at least one
operand is accepted (a zero-operand Return would be the out-of-contract
`getOperand(0)`, excluded here by hypothesis). -/
theorem rewriteCondBlocks_failed_iff (src : List Blk) (sb : Nat → Nat)
    (ceId beId tailId : Nat) (RR : List Blk) (c : Counters)
    (hpres : ∀ b ∈ src, (findBlk RR (sb b.bid)).isSome = true)
    (hinj : (src.map (fun b => sb b.bid)).Nodup)
    (hargs : ∀ b ∈ src, cloneRetNonEmpty sb RR b = true)
    (hce : (findBlk RR ceId).isSome = true) :
    (rewriteCondBlocks src sb ceId beId tailId RR c).isFailed = true ↔
      ∃ b ∈ src, ∃ blk, findBlk RR (sb b.bid) = some blk ∧ blk.term.isRet = false := by
  induction src generalizing RR c with
  | nil => simp [rewriteCondBlocks, LowRes.isFailed]
  | cons b rest ih =>
      obtain ⟨blk, hf⟩ := Option.isSome_iff_exists.mp (hpres b (List.mem_cons_self _ _))
      rw [List.map_cons, List.nodup_cons] at hinj
      have hne : ∀ b2 ∈ rest, sb b2.bid ≠ sb b.bid := by
        intro b2 hb2 hcontra
        exact hinj.1 (List.mem_map.mpr ⟨b2, hb2, hcontra⟩)
      cases ht : blk.term with
      | ret args =>
          cases args with
          | nil =>
              have hx := hargs b (List.mem_cons_self _ _)
              simp [cloneRetNonEmpty, hf, ht] at hx
          | cons v vs =>
              obtain ⟨ce, hcef⟩ := Option.isSome_iff_exists.mp hce
              have htrans : ∀ b2 ∈ rest,
                  findBlk (setOpsTermFirst (sb b.bid)
                      (blk.ops ++ [.simple (.extractElementOp c.nv v)])
                      (.condBr c.nv beId ce.params tailId ce.params) RR) (sb b2.bid) =
                    findBlk RR (sb b2.bid) := by
                intro b2 hb2
                exact findBlk_setOpsTermFirst_other _ _ _ _ _ (hne b2 hb2)
              have hpres2 : ∀ b2 ∈ rest, (findBlk (setOpsTermFirst (sb b.bid)
                  (blk.ops ++ [.simple (.extractElementOp c.nv v)])
                  (.condBr c.nv beId ce.params tailId ce.params) RR) (sb b2.bid)).isSome
                    = true := by
                intro b2 hb2
                rw [htrans b2 hb2]
                exact hpres b2 (List.mem_cons_of_mem _ hb2)
              have hargs2 : ∀ b2 ∈ rest, cloneRetNonEmpty sb (setOpsTermFirst (sb b.bid)
                  (blk.ops ++ [.simple (.extractElementOp c.nv v)])
                  (.condBr c.nv beId ce.params tailId ce.params) RR) b2 = true := by
                intro b2 hb2
                have hx := hargs b2 (List.mem_cons_of_mem _ hb2)
                simp only [cloneRetNonEmpty] at hx ⊢
                rw [htrans b2 hb2]
                exact hx
              have hce2 : (findBlk (setOpsTermFirst (sb b.bid)
                  (blk.ops ++ [.simple (.extractElementOp c.nv v)])
                  (.condBr c.nv beId ce.params tailId ce.params) RR) ceId).isSome = true := by
                have := findBlk_params_setOpsTermFirst (sb b.bid)
                  (blk.ops ++ [.simple (.extractElementOp c.nv v)])
                  (.condBr c.nv beId ce.params tailId ce.params) RR ceId
                cases hx : findBlk (setOpsTermFirst (sb b.bid)
                    (blk.ops ++ [.simple (.extractElementOp c.nv v)])
                    (.condBr c.nv beId ce.params tailId ce.params) RR) ceId with
                | none => rw [hx, hcef] at this; cases this
                | some _ => rfl
              have ihx := ih _ ⟨c.nv + 1, c.nb, c.nop⟩ hpres2 hinj.2 hargs2 hce2
              simp only [rewriteCondBlocks, hf, ht, hcef]
              rw [ihx]
              constructor
              · rintro ⟨b2, hb2, blk2, hf2, hr2⟩
                rw [htrans b2 hb2] at hf2
                exact ⟨b2, List.mem_cons_of_mem _ hb2, blk2, hf2, hr2⟩
              · rintro ⟨b2, hb2, blk2, hf2, hr2⟩
                rcases List.mem_cons.mp hb2 with h | h
                · subst h
                  rw [hf2] at hf
                  cases hf
                  rw [ht] at hr2
                  cases hr2
                · exact ⟨b2, h, blk2, (htrans b2 h).symm ▸ hf2, hr2⟩
      | stdRet args =>
          simp only [rewriteCondBlocks, hf, ht, LowRes.isFailed]
          constructor
          · intro _
            exact ⟨b, List.mem_cons_self _ _, blk, hf, by rw [ht]; rfl⟩
          · intro _; trivial
      | br t2 args =>
          simp only [rewriteCondBlocks, hf, ht, LowRes.isFailed]
          constructor
          · intro _
            exact ⟨b, List.mem_cons_self _ _, blk, hf, by rw [ht]; rfl⟩
          · intro _; trivial
      | condBr cc tT tA fT fA =>
          simp only [rewriteCondBlocks, hf, ht, LowRes.isFailed]
          constructor
          · intro _
            exact ⟨b, List.mem_cons_self _ _, blk, hf, by rw [ht]; rfl⟩
          · intro _; trivial

/-- On success, every cloned condition block keeps its own identifier,
parameters and (extended) operations, gains an `ExtractElementOp` of the
first operand of its Return, and ends in a conditional branch whose true
target is the cloned body entry and false target the tail — both argument
lists being the cloned condition *entry* block's parameters. -/
theorem rewriteCondBlocks_ok_shape (src : List Blk) (sb : Nat → Nat)
    (ceId beId tailId : Nat) (RR : List Blk) (c : Counters)
    (hpres : ∀ b ∈ src, (findBlk RR (sb b.bid)).isSome = true)
    (hinj : (src.map (fun b => sb b.bid)).Nodup)
    (hargs : ∀ b ∈ src, cloneRetNonEmpty sb RR b = true)
    (ceParams : List Nat)
    (hce : (findBlk RR ceId).map Blk.params = some ceParams) :
    ∀ RR2 c2, rewriteCondBlocks src sb ceId beId tailId RR c = .ok (RR2, c2) →
      ∀ b ∈ src, ∀ blk, findBlk RR (sb b.bid) = some blk →
        ∃ v vs e, blk.term = .ret (v :: vs) ∧
          findBlk RR2 (sb b.bid) =
            some (.mk blk.bid blk.params (blk.ops ++ [.simple (.extractElementOp e v)])
              (.condBr e beId ceParams tailId ceParams)) := by
  induction src generalizing RR c with
  | nil =>
      intro RR2 c2 hok b hb
      cases hb
  | cons b rest ih =>
      intro RR2 c2 hok b2 hb2 blk2 hf2
      obtain ⟨blk, hf⟩ := Option.isSome_iff_exists.mp (hpres b (List.mem_cons_self _ _))
      rw [List.map_cons, List.nodup_cons] at hinj
      have hne : ∀ b3 ∈ rest, sb b3.bid ≠ sb b.bid := by
        intro b3 hb3 hcontra
        exact hinj.1 (List.mem_map.mpr ⟨b3, hb3, hcontra⟩)
      cases ht : blk.term with
      | ret args =>
          cases args with
          | nil =>
              have hx := hargs b (List.mem_cons_self _ _)
              simp [cloneRetNonEmpty, hf, ht] at hx
          | cons v vs =>
              obtain ⟨ce, hcef⟩ : ∃ ce, findBlk RR ceId = some ce := by
                cases hx : findBlk RR ceId with
                | none => rw [hx] at hce; cases hce
                | some ce => exact ⟨ce, rfl⟩
              have hcep : ce.params = ceParams := by
                rw [hcef] at hce
                exact Option.some.injEq _ _ ▸ hce
              have htrans : ∀ b3 ∈ rest,
                  findBlk (setOpsTermFirst (sb b.bid)
                      (blk.ops ++ [.simple (.extractElementOp c.nv v)])
                      (.condBr c.nv beId ce.params tailId ce.params) RR) (sb b3.bid) =
                    findBlk RR (sb b3.bid) := by
                intro b3 hb3
                exact findBlk_setOpsTermFirst_other _ _ _ _ _ (hne b3 hb3)
              have hpres2 : ∀ b3 ∈ rest, (findBlk (setOpsTermFirst (sb b.bid)
                  (blk.ops ++ [.simple (.extractElementOp c.nv v)])
                  (.condBr c.nv beId ce.params tailId ce.params) RR) (sb b3.bid)).isSome
                    = true := by
                intro b3 hb3
                rw [htrans b3 hb3]
                exact hpres b3 (List.mem_cons_of_mem _ hb3)
              have hargs2 : ∀ b3 ∈ rest, cloneRetNonEmpty sb (setOpsTermFirst (sb b.bid)
                  (blk.ops ++ [.simple (.extractElementOp c.nv v)])
                  (.condBr c.nv beId ce.params tailId ce.params) RR) b3 = true := by
                intro b3 hb3
                have hx := hargs b3 (List.mem_cons_of_mem _ hb3)
                simp only [cloneRetNonEmpty] at hx ⊢
                rw [htrans b3 hb3]
                exact hx
              have hce2 : (findBlk (setOpsTermFirst (sb b.bid)
                  (blk.ops ++ [.simple (.extractElementOp c.nv v)])
                  (.condBr c.nv beId ce.params tailId ce.params) RR) ceId).map Blk.params
                    = some ceParams := by
                rw [findBlk_params_setOpsTermFirst, hce]
              have hok2 : rewriteCondBlocks rest sb ceId beId tailId
                  (setOpsTermFirst (sb b.bid)
                    (blk.ops ++ [.simple (.extractElementOp c.nv v)])
                    (.condBr c.nv beId ce.params tailId ce.params) RR)
                  ⟨c.nv + 1, c.nb, c.nop⟩ = .ok (RR2, c2) := by
                simp only [rewriteCondBlocks, hf, ht, hcef] at hok
                exact hok
              rcases List.mem_cons.mp hb2 with h | h
              · subst h
                rw [hf2] at hf
                cases hf
                refine ⟨v, vs, c.nv, ht, ?_⟩
                have huntouched := rewriteCondBlocks_untouched rest sb ceId beId tailId
                  (setOpsTermFirst (sb b2.bid)
                    (blk2.ops ++ [.simple (.extractElementOp c.nv v)])
                    (.condBr c.nv beId ce.params tailId ce.params) RR)
                  ⟨c.nv + 1, c.nb, c.nop⟩ (sb b2.bid) hne (RR2, c2)
                    (by rw [hok2]; rfl)
                rw [huntouched, findBlk_setOpsTermFirst_same, hf2, hcep]
                rfl
              · have := ih _ _ hpres2 hinj.2 hargs2 hce2 RR2 c2 hok2 b2 h blk2
                  ((htrans b2 h).symm ▸ hf2)
                exact this
      | stdRet args =>
          simp only [rewriteCondBlocks, hf, ht] at hok
          exact LowRes.noConfusion hok
      | br t2 args =>
          simp only [rewriteCondBlocks, hf, ht] at hok
          exact LowRes.noConfusion hok
      | condBr cc tT tA fT fA =>
          simp only [rewriteCondBlocks, hf, ht] at hok
          exact LowRes.noConfusion hok

/-- C5 amended: when lowering a Loop, for each block of the condition region
the lowering requires only that the cloned block's terminator be a Return,
and reports failure exactly when it is not one; the operand count is never
checked — a Return with more than one operand is accepted, its first operand
used as the condition (a zero-operand Return is the out-of-contract
`getOperand(0)`, excluded by hypothesis). -/
theorem C5_cond_rewrite_fails_iff_nonreturn (src : List Blk) (sb : Nat → Nat)
    (ceId beId tailId : Nat) (RR : List Blk) (c : Counters)
    (hpres : ∀ b ∈ src, (findBlk RR (sb b.bid)).isSome = true)
    (hinj : (src.map (fun b => sb b.bid)).Nodup)
    (hargs : ∀ b ∈ src, cloneRetNonEmpty sb RR b = true)
    (hce : (findBlk RR ceId).isSome = true) :
    (rewriteCondBlocks src sb ceId beId tailId RR c).isFailed = true ↔
      ∃ b ∈ src, ∃ blk, findBlk RR (sb b.bid) = some blk ∧ blk.term.isRet = false :=
  rewriteCondBlocks_failed_iff src sb ceId beId tailId RR c hpres hinj hargs hce

/-- Witness for the amended C5 at `funcC5`'s condition region: the single
condition block's clone ends in the two-operand Return `ret [14, 12]`; the
rewrite does not fail (right side has no witness since the terminator is a
Return), even though the operand count is two. -/
theorem C5_amended_witness :
    ((∀ b ∈ condRC5, (findBlk
        [Blk.mk 5 [12] [.simple (.constOp 13 10), .simple (.ltOp 14 12 13)] (.ret [14, 12])]
        (mkSubst [1] 4 b.bid)).isSome = true) ∧
      ((condRC5.map (fun b => mkSubst [1] 4 b.bid)).Nodup) ∧
      (∀ b ∈ condRC5, cloneRetNonEmpty (mkSubst [1] 4)
        [Blk.mk 5 [12] [.simple (.constOp 13 10), .simple (.ltOp 14 12 13)] (.ret [14, 12])]
        b = true)) ∧
    ((rewriteCondBlocks condRC5 (mkSubst [1] 4) 5 10 3
        [Blk.mk 5 [12] [.simple (.constOp 13 10), .simple (.ltOp 14 12 13)] (.ret [14, 12])]
        ⟨16, 6, 2⟩).isFailed = true ↔
      ∃ b ∈ condRC5, ∃ blk, findBlk
        [Blk.mk 5 [12] [.simple (.constOp 13 10), .simple (.ltOp 14 12 13)] (.ret [14, 12])]
        (mkSubst [1] 4 b.bid) = some blk ∧ blk.term.isRet = false) :=
  ⟨⟨by decide, by decide, by decide⟩,
    C5_cond_rewrite_fails_iff_nonreturn condRC5 (mkSubst [1] 4) 5 10 3 _ ⟨16, 6, 2⟩
      (by decide) (by decide) (by decide) (by decide)⟩

/-- C6 amended: when lowering a Loop, for every block of the condition region
the emitted conditional branch targets the cloned body entry when the
extracted boolean is true and the tail when it is false, and both target
argument lists are the cloned condition *entry* block's parameters — for the
entry block these coincide with its own parameters, but for a non-entry block
they are the entry's, not its own. -/
theorem C6_cond_branch_args_are_entry_params (src : List Blk) (sb : Nat → Nat)
    (ceId beId tailId : Nat) (RR : List Blk) (c : Counters)
    (hpres : ∀ b ∈ src, (findBlk RR (sb b.bid)).isSome = true)
    (hinj : (src.map (fun b => sb b.bid)).Nodup)
    (hargs : ∀ b ∈ src, cloneRetNonEmpty sb RR b = true)
    (ceParams : List Nat)
    (hce : (findBlk RR ceId).map Blk.params = some ceParams) :
    ∀ RR2 c2, rewriteCondBlocks src sb ceId beId tailId RR c = .ok (RR2, c2) →
      ∀ b ∈ src, ∀ blk, findBlk RR (sb b.bid) = some blk →
        ∃ v vs e, blk.term = .ret (v :: vs) ∧
          findBlk RR2 (sb b.bid) =
            some (.mk blk.bid blk.params (blk.ops ++ [.simple (.extractElementOp e v)])
              (.condBr e beId ceParams tailId ceParams)) :=
  rewriteCondBlocks_ok_shape src sb ceId beId tailId RR c hpres hinj hargs ceParams hce

/-- Witness for the amended C6 at `funcC6`'s two-block condition region
(clones `6` and `7`, entry parameters `[12]`): the rewrite succeeds, and the
clone of the non-entry source block `2` — block `7`, own parameters `[19]` —
ends in a conditional branch whose argument lists are the entry's `[12]`. -/
theorem C6_amended_witness :
    ((∀ b ∈ condRC6, (findBlk
        [Blk.mk 6 [12] [.simple (.constOp 13 10), .simple (.ltOp 14 12 13)] (.ret [14]),
         Blk.mk 7 [19] [] (.ret [19])]
        (mkSubst [1, 2] 5 b.bid)).isSome = true) ∧
      ((condRC6.map (fun b => mkSubst [1, 2] 5 b.bid)).Nodup) ∧
      (∀ b ∈ condRC6, cloneRetNonEmpty (mkSubst [1, 2] 5)
        [Blk.mk 6 [12] [.simple (.constOp 13 10), .simple (.ltOp 14 12 13)] (.ret [14]),
         Blk.mk 7 [19] [] (.ret [19])] b = true)) ∧
    (∃ v vs e, (Blk.mk 7 [19] [] (Term.ret [19])).term = Term.ret (v :: vs) ∧
      findBlk
        [Blk.mk 6 [12]
          [.simple (.constOp 13 10), .simple (.ltOp 14 12 13),
            .simple (.extractElementOp 40 14)] (.condBr 40 13 [12] 4 [12]),
         Blk.mk 7 [19] [.simple (.extractElementOp 41 19)] (.condBr 41 13 [12] 4 [12])]
        (mkSubst [1, 2] 5 (Blk.mk 2 [9] [] (Term.ret [9])).bid) =
        some (.mk (Blk.mk 7 [19] [] (Term.ret [19])).bid
          (Blk.mk 7 [19] [] (Term.ret [19])).params
          ((Blk.mk 7 [19] [] (Term.ret [19])).ops ++ [.simple (.extractElementOp e v)])
          (.condBr e 13 [12] 4 [12]))) :=
  ⟨⟨by decide, by decide, by decide⟩,
    C6_cond_branch_args_are_entry_params condRC6 (mkSubst [1, 2] 5) 6 13 4
      [Blk.mk 6 [12] [.simple (.constOp 13 10), .simple (.ltOp 14 12 13)] (.ret [14]),
       Blk.mk 7 [19] [] (.ret [19])] ⟨40, 16, 2⟩
      (by decide) (by decide) (by decide) [12] (by decide)
      [Blk.mk 6 [12]
        [.simple (.constOp 13 10), .simple (.ltOp 14 12 13),
          .simple (.extractElementOp 40 14)] (.condBr 40 13 [12] 4 [12]),
       Blk.mk 7 [19] [.simple (.extractElementOp 41 19)] (.condBr 41 13 [12] 4 [12])]
      ⟨42, 16, 2⟩ rfl (Blk.mk 2 [9] [] (Term.ret [9]))
      (List.Mem.tail _ (List.Mem.head _)) (Blk.mk 7 [19] [] (Term.ret [19])) rfl⟩

/-! ## More lookup stability lemmas -/

/-- Lookup distributes over region concatenation. -/
theorem findBlk_append (l1 l2 : List Blk) (q : Nat) :
    findBlk (l1 ++ l2) q =
      (match findBlk l1 q with
        | some b => some b
        | none => findBlk l2 q) := by
  induction l1 with
  | nil => simp [findBlk]
  | cons b rest ih =>
      by_cases h : b.bid = q
      · simp [findBlk, List.find?, h]
      · simp only [findBlk, List.cons_append, List.find?] at ih ⊢
        simp only [h, decide_eq_false, Bool.false_eq_true, if_false] at ih ⊢
        exact ih

/-- Lookup misses a region none of whose blocks carries the identifier. -/
theorem findBlk_eq_none (l : List Blk) (q : Nat) (h : ∀ b ∈ l, b.bid ≠ q) :
    findBlk l q = none := by
  induction l with
  | nil => rfl
  | cons b rest ih =>
      have hb := h b (List.mem_cons_self _ _)
      simp only [findBlk, List.find?, hb, decide_eq_false, Bool.false_eq_true, if_false]
      exact ih (fun b2 hb2 => h b2 (List.mem_cons_of_mem _ hb2))

/-- A block's identifier occurs among its region's identifiers. -/
theorem bid_mem_blkIds (src : List Blk) (b : Blk) (hb : b ∈ src) :
    b.bid ∈ blkIdsBlks src := by
  induction src with
  | nil => cases hb
  | cons b2 rest ih =>
      rcases List.mem_cons.mp hb with h | h
      · subst h
        cases b with
        | mk bid ps ops t =>
            simp [blkIdsBlks, blkIdsBlk, Blk.bid]
      · cases b2 with
        | mk bid ps ops t =>
            simp only [blkIdsBlks, blkIdsBlk]
            exact List.mem_append_right _ (ih h)

/-- Substitution preserves a block's identifier. -/
theorem substBlk_bid (a b : Nat) (blk : Blk) : (substBlk a b blk).bid = blk.bid := by
  cases blk
  rfl

/-- Lookup after global use-substitution. -/
theorem findBlk_substBlks (a b : Nat) (RR : List Blk) (q : Nat) :
    findBlk (substBlks a b RR) q = (findBlk RR q).map (substBlk a b) := by
  induction RR with
  | nil => rfl
  | cons blk rest ih =>
      by_cases h : blk.bid = q
      · simp [substBlks, findBlk, List.find?, substBlk_bid, h]
      · simp [substBlks, findBlk, List.find?, substBlk_bid, h]
        exact ih

/-- Lookup after adding a parameter to another block. -/
theorem findBlk_addParamFirst_other (bid : Nat) (p : Nat) (RR : List Blk)
    (q : Nat) (h : q ≠ bid) :
    findBlk (addParamFirst bid p RR) q = findBlk RR q := by
  induction RR with
  | nil => rfl
  | cons b rest ih =>
      cases b with
      | mk b2 ps ops2 t2 =>
          by_cases hb : b2 = bid
          · subst hb
            have hq : ¬ b2 = q := fun hq => h (hq ▸ rfl)
            simp [addParamFirst, findBlk, List.find?, Blk.bid, hq]
          · by_cases hq : b2 = q
            · subst hq
              simp [addParamFirst, findBlk, List.find?, Blk.bid, hb]
            · simp [addParamFirst, findBlk, List.find?, Blk.bid, hb, hq]
              exact ih

/-- Lookup after adding a parameter to the looked-up block. -/
theorem findBlk_addParamFirst_same (bid : Nat) (p : Nat) (RR : List Blk) :
    findBlk (addParamFirst bid p RR) bid =
      (findBlk RR bid).map (fun b => .mk b.bid (b.params ++ [p]) b.ops b.term) := by
  induction RR with
  | nil => rfl
  | cons b rest ih =>
      cases b with
      | mk b2 ps ops2 t2 =>
          by_cases h : b2 = bid
          · subst h
            simp [addParamFirst, findBlk, List.find?, Blk.bid, Blk.params, Blk.ops, Blk.term]
          · simp [addParamFirst, findBlk, List.find?, Blk.bid, h]
            exact ih

/-- Lookup after erasing the head op of another block. -/
theorem findBlk_dropHeadOpFirst_other (bid : Nat) (RR : List Blk)
    (q : Nat) (h : q ≠ bid) :
    findBlk (dropHeadOpFirst bid RR) q = findBlk RR q := by
  induction RR with
  | nil => rfl
  | cons b rest ih =>
      cases b with
      | mk b2 ps ops2 t2 =>
          by_cases hb : b2 = bid
          · subst hb
            have hq : ¬ b2 = q := fun hq => h (hq ▸ rfl)
            simp [dropHeadOpFirst, findBlk, List.find?, Blk.bid, hq]
          · by_cases hq : b2 = q
            · subst hq
              simp [dropHeadOpFirst, findBlk, List.find?, Blk.bid, hb]
            · simp [dropHeadOpFirst, findBlk, List.find?, Blk.bid, hb, hq]
              exact ih

/-- Lookup after erasing the head op of the looked-up block. -/
theorem findBlk_dropHeadOpFirst_same (bid : Nat) (RR : List Blk) :
    findBlk (dropHeadOpFirst bid RR) bid =
      (findBlk RR bid).map (fun b => .mk b.bid b.params b.ops.tail b.term) := by
  induction RR with
  | nil => rfl
  | cons b rest ih =>
      cases b with
      | mk b2 ps ops2 t2 =>
          by_cases h : b2 = bid
          · subst h
            simp [dropHeadOpFirst, findBlk, List.find?, Blk.bid, Blk.params, Blk.ops, Blk.term]
          · simp [dropHeadOpFirst, findBlk, List.find?, Blk.bid, h]
            exact ih

/-- Use-substitution distributes over op-list concatenation. -/
theorem substOps_append (a b : Nat) (l1 l2 : List Op) :
    substOps a b (l1 ++ l2) = substOps a b l1 ++ substOps a b l2 := by
  induction l1 with
  | nil => rfl
  | cons o rest ih => simp [substOps, ih]

/-- C7: whenever `LowerConditionalOp` terminates the predecessor block (on
the success path and on the terminator-rewrite failure paths alike, since the
branch is emitted before the rewrite), the predecessor keeps its identifier
and parameters, its operations end with a fresh `ExtractElementOp` reducing
the predicate to a primitive boolean, and its terminator is a conditional
branch on that boolean whose true target is the cloned true-region entry
carrying the true-branch argument and whose false target is the cloned
false-region entry carrying the false-branch argument. -/
theorem C7_predecessor_extract_and_branch (pre : List Blk) (bbid : Nat)
    (bparams : List Nat) (opsPre : List Op) (oid : Nat) (res pred targ farg : Nat)
    (tE : Blk) (tR : List Blk) (fE : Blk) (fR : List Blk)
    (opsPost : List Op) (bterm : Term) (post : List Blk) (c : Counters)
    (hpreNe : ∀ b ∈ pre, b.bid ≠ bbid)
    (hbbid : bbid < c.nb)
    (hresv : res < c.nv)
    (hpred : pred ≠ res) (htarg : targ ≠ res) (hfarg : farg ≠ res) :
    ∀ x, (LowerConditionalOpCore pre bbid bparams opsPre oid res pred targ farg
        (tE :: tR) (fE :: fR) opsPost bterm post c).payload? = some x →
      ∃ opsP, findBlk x.1 bbid = some (.mk bbid bparams
        (opsP ++ [.simple (.extractElementOp (c.nv * 2 * 2) pred)])
        (.condBr (c.nv * 2 * 2) (mkSubst (blkIdsBlks (tE :: tR)) (c.nb + 1) tE.bid) [targ]
          (mkSubst (blkIdsBlks (fE :: fR)) ((c.nb + 1) * 2) fE.bid) [farg])) := by
  intro x hx
  simp only [LowerConditionalOpCore, cloneRegion] at hx
  have hP1 : findBlk (pre ++ [Blk.mk bbid bparams
      (opsPre ++ [.simple (.extractElementOp (c.nv * 2 * 2) pred)])
      (.condBr (c.nv * 2 * 2) (mkSubst (blkIdsBlks (tE :: tR)) (c.nb + 1) tE.bid) [targ]
        (mkSubst (blkIdsBlks (fE :: fR)) ((c.nb + 1) * 2) fE.bid) [farg])] ++
      renameBlks (mkSubst (defsBlks (tE :: tR)) c.nv)
        (mkSubst (blkIdsBlks (tE :: tR)) (c.nb + 1)) (mkSubst (opIdsBlks (tE :: tR)) c.nop)
        (tE :: tR) ++
      renameBlks (mkSubst (defsBlks (fE :: fR)) (c.nv * 2))
        (mkSubst (blkIdsBlks (fE :: fR)) ((c.nb + 1) * 2))
        (mkSubst (opIdsBlks (fE :: fR)) (c.nop * 2)) (fE :: fR) ++
      [Blk.mk c.nb []
        (.conditional oid res pred targ farg (tE :: tR) (fE :: fR) :: opsPost) bterm] ++
      post) bbid = some (Blk.mk bbid bparams
      (opsPre ++ [.simple (.extractElementOp (c.nv * 2 * 2) pred)])
      (.condBr (c.nv * 2 * 2) (mkSubst (blkIdsBlks (tE :: tR)) (c.nb + 1) tE.bid) [targ]
        (mkSubst (blkIdsBlks (fE :: fR)) ((c.nb + 1) * 2) fE.bid) [farg])) := by
    rw [List.append_assoc, List.append_assoc, List.append_assoc, List.append_assoc]
    rw [findBlk_append, findBlk_eq_none pre bbid hpreNe]
    simp [findBlk, List.find?, Blk.bid]
  have htImg : ∀ b ∈ tE :: tR,
      mkSubst (blkIdsBlks (tE :: tR)) (c.nb + 1) b.bid ≠ bbid := by
    intro b hb
    have hm := bid_mem_blkIds _ b hb
    simp only [mkSubst]
    rw [if_pos hm]
    omega
  have hfImg : ∀ b ∈ fE :: fR,
      mkSubst (blkIdsBlks (fE :: fR)) ((c.nb + 1) * 2) b.bid ≠ bbid := by
    intro b hb
    have hm := bid_mem_blkIds _ b hb
    simp only [mkSubst]
    rw [if_pos hm]
    omega
  generalize hgen : (pre ++ [Blk.mk bbid bparams
      (opsPre ++ [.simple (.extractElementOp (c.nv * 2 * 2) pred)])
      (.condBr (c.nv * 2 * 2) (mkSubst (blkIdsBlks (tE :: tR)) (c.nb + 1) tE.bid) [targ]
        (mkSubst (blkIdsBlks (fE :: fR)) ((c.nb + 1) * 2) fE.bid) [farg])] ++
      renameBlks (mkSubst (defsBlks (tE :: tR)) c.nv)
        (mkSubst (blkIdsBlks (tE :: tR)) (c.nb + 1)) (mkSubst (opIdsBlks (tE :: tR)) c.nop)
        (tE :: tR) ++
      renameBlks (mkSubst (defsBlks (fE :: fR)) (c.nv * 2))
        (mkSubst (blkIdsBlks (fE :: fR)) ((c.nb + 1) * 2))
        (mkSubst (opIdsBlks (fE :: fR)) (c.nop * 2)) (fE :: fR) ++
      [Blk.mk c.nb []
        (.conditional oid res pred targ farg (tE :: tR) (fE :: fR) :: opsPost) bterm] ++
      post) = RR1 at hx hP1
  rcases h1 : ReplaceTerminators (tE :: tR) (mkSubst (blkIdsBlks (tE :: tR)) (c.nb + 1))
      c.nb RR1 with ⟨RR2, ok1⟩
  have hRR2 : findBlk RR2 bbid = some (Blk.mk bbid bparams
      (opsPre ++ [.simple (.extractElementOp (c.nv * 2 * 2) pred)])
      (.condBr (c.nv * 2 * 2) (mkSubst (blkIdsBlks (tE :: tR)) (c.nb + 1) tE.bid) [targ]
        (mkSubst (blkIdsBlks (fE :: fR)) ((c.nb + 1) * 2) fE.bid) [farg])) := by
    have huq := ReplaceTerminators_untouched (tE :: tR)
      (mkSubst (blkIdsBlks (tE :: tR)) (c.nb + 1)) c.nb RR1 bbid htImg
    rw [h1] at huq
    rw [← hP1]
    exact huq
  rw [h1] at hx
  cases ok1 with
  | false =>
      simp only [LowRes.payload?, Option.some.injEq] at hx
      cases hx
      exact ⟨opsPre, hRR2⟩
  | true =>
      dsimp only at hx
      rcases h2 : ReplaceTerminators (fE :: fR)
          (mkSubst (blkIdsBlks (fE :: fR)) ((c.nb + 1) * 2)) c.nb RR2 with ⟨RR3, ok2⟩
      have hRR3 : findBlk RR3 bbid = some (Blk.mk bbid bparams
          (opsPre ++ [.simple (.extractElementOp (c.nv * 2 * 2) pred)])
          (.condBr (c.nv * 2 * 2) (mkSubst (blkIdsBlks (tE :: tR)) (c.nb + 1) tE.bid) [targ]
            (mkSubst (blkIdsBlks (fE :: fR)) ((c.nb + 1) * 2) fE.bid) [farg])) := by
        have huq := ReplaceTerminators_untouched (fE :: fR)
          (mkSubst (blkIdsBlks (fE :: fR)) ((c.nb + 1) * 2)) c.nb RR2 bbid hfImg
        rw [h2] at huq
        rw [← hRR2]
        exact huq
      rw [h2] at hx
      cases ok2 with
      | false =>
          simp only [LowRes.payload?, Option.some.injEq] at hx
          cases hx
          exact ⟨opsPre, hRR3⟩
      | true =>
          simp only [LowRes.payload?, Option.some.injEq] at hx
          cases hx
          refine ⟨substOps res (c.nv * 2 * 2 + 1) opsPre, ?_⟩
          rw [findBlk_dropHeadOpFirst_other _ _ _ (by omega), findBlk_substBlks,
            findBlk_addParamFirst_other _ _ _ _ (by omega), hRR3]
          have he : ¬ c.nv * 2 * 2 = res := by omega
          simp [substBlk, substOps_append, substOps, substOp, substSimple, substTerm,
            renameTerm, he, hpred, htarg, hfarg]

/-- Witness for C7 at scenario A's conditional: in the lowered output the
predecessor block `0` ends with `extract_element 24, %0` followed by
`cond_br 24, ^5(%0), ^10(%0)` — the cloned true and false entries with the
respective branch arguments. -/
theorem C7_witness :
    ((∀ b ∈ ([] : List Blk), b.bid ≠ 0) ∧ 0 < (3 : Nat) ∧ 5 < (6 : Nat) ∧
      (0 : Nat) ≠ 5 ∧ (0 : Nat) ≠ 5 ∧ (0 : Nat) ≠ 5) ∧
    (∃ opsP, findBlk ([Blk.mk 0 [0] [.simple (.extractElementOp 24 0)] (.condBr 24 5 [0] 10 [0]),
        Blk.mk 5 [7] [.simple (.constOp 8 5)] (.br 3 [8]),
        Blk.mk 10 [15] [.simple (.constOp 16 7)] (.br 3 [16]),
        Blk.mk 3 [25] [] (.stdRet [25])],
        ({ nv := 26, nb := 16, nop := 4 } : Counters)).1 0 = some (.mk 0 [0]
      (opsP ++ [.simple (.extractElementOp ((6 : Nat) * 2 * 2) 0)])
      (.condBr ((6 : Nat) * 2 * 2) (mkSubst (blkIdsBlks trueRA) ((3 : Nat) + 1) (Blk.mk 1 [1] [.simple (.constOp 2 5)] (.ret [2])).bid) [0]
        (mkSubst (blkIdsBlks falseRA) (((3 : Nat) + 1) * 2) (Blk.mk 2 [3] [.simple (.constOp 4 7)] (.ret [4])).bid) [0]))) :=
  ⟨⟨by decide, by decide, by decide, by decide, by decide, by decide⟩,
    C7_predecessor_extract_and_branch [] 0 [0] [] 0 5 0 0 0
      (Blk.mk 1 [1] [.simple (.constOp 2 5)] (.ret [2])) []
      (Blk.mk 2 [3] [.simple (.constOp 4 7)] (.ret [4])) []
      [] (.stdRet [5]) [] ⟨6, 3, 1⟩
      (by decide) (by decide) (by decide) (by decide) (by decide) (by decide)
      ([Blk.mk 0 [0] [.simple (.extractElementOp 24 0)] (.condBr 24 5 [0] 10 [0]),
        Blk.mk 5 [7] [.simple (.constOp 8 5)] (.br 3 [8]),
        Blk.mk 10 [15] [.simple (.constOp 16 7)] (.br 3 [16]),
        Blk.mk 3 [25] [] (.stdRet [25])],
        ({ nv := 26, nb := 16, nop := 4 } : Counters)) rfl⟩

/-! ## The driver: collection completeness and phase structure -/

mutual
/-- The post-order walk collects exactly the conditionals present in an op. -/
theorem collectConds_complete_op (o : Nat) :
    ∀ op : Op, o ∈ collectCondsOp op ↔ o ∈ condIdsOp op
  | .simple s => by simp [collectCondsOp, condIdsOp]
  | .conditional oid res p t f tr fr => by
      simp only [collectCondsOp, condIdsOp, List.mem_append, List.mem_cons,
        List.mem_singleton, List.not_mem_nil,
        collectConds_complete_blks o tr, collectConds_complete_blks o fr]
      tauto
  | .whileOp oid res init cr bd => by
      simp only [collectCondsOp, condIdsOp, List.mem_append,
        collectConds_complete_blks o cr, collectConds_complete_blks o bd]

/-- Collection completeness over op lists. -/
theorem collectConds_complete_ops (o : Nat) :
    ∀ ops : List Op, o ∈ collectCondsOps ops ↔ o ∈ condIdsOps ops
  | [] => by simp [collectCondsOps, condIdsOps]
  | op :: rest => by
      simp only [collectCondsOps, condIdsOps, List.mem_append,
        collectConds_complete_op o op, collectConds_complete_ops o rest]

/-- Collection completeness over a block. -/
theorem collectConds_complete_blk (o : Nat) :
    ∀ b : Blk, o ∈ collectCondsBlk b ↔ o ∈ condIdsBlk b
  | .mk bid ps ops t => by
      simp only [collectCondsBlk, condIdsBlk, collectConds_complete_ops o ops]

/-- Collection completeness over a region. -/
theorem collectConds_complete_blks (o : Nat) :
    ∀ R : List Blk, o ∈ collectCondsBlks R ↔ o ∈ condIdsBlks R
  | [] => by simp [collectCondsBlks, condIdsBlks]
  | b :: rest => by
      simp only [collectCondsBlks, condIdsBlks, List.mem_append,
        collectConds_complete_blk o b, collectConds_complete_blks o rest]
end

mutual
/-- The post-order walk collects exactly the whiles present in an op. -/
theorem collectWhiles_complete_op (o : Nat) :
    ∀ op : Op, o ∈ collectWhilesOp op ↔ o ∈ whileIdsOp op
  | .simple s => by simp [collectWhilesOp, whileIdsOp]
  | .conditional oid res p t f tr fr => by
      simp only [collectWhilesOp, whileIdsOp, List.mem_append,
        collectWhiles_complete_blks o tr, collectWhiles_complete_blks o fr]
  | .whileOp oid res init cr bd => by
      simp only [collectWhilesOp, whileIdsOp, List.mem_append, List.mem_cons,
        List.mem_singleton, List.not_mem_nil,
        collectWhiles_complete_blks o cr, collectWhiles_complete_blks o bd]
      tauto

/-- While-collection completeness over op lists. -/
theorem collectWhiles_complete_ops (o : Nat) :
    ∀ ops : List Op, o ∈ collectWhilesOps ops ↔ o ∈ whileIdsOps ops
  | [] => by simp [collectWhilesOps, whileIdsOps]
  | op :: rest => by
      simp only [collectWhilesOps, whileIdsOps, List.mem_append,
        collectWhiles_complete_op o op, collectWhiles_complete_ops o rest]

/-- While-collection completeness over a block. -/
theorem collectWhiles_complete_blk (o : Nat) :
    ∀ b : Blk, o ∈ collectWhilesBlk b ↔ o ∈ whileIdsBlk b
  | .mk bid ps ops t => by
      simp only [collectWhilesBlk, whileIdsBlk, collectWhiles_complete_ops o ops]

/-- While-collection completeness over a region. -/
theorem collectWhiles_complete_blks (o : Nat) :
    ∀ R : List Blk, o ∈ collectWhilesBlks R ↔ o ∈ whileIdsBlks R
  | [] => by simp [collectWhilesBlks, whileIdsBlks]
  | b :: rest => by
      simp only [collectWhilesBlks, whileIdsBlks, List.mem_append,
        collectWhiles_complete_blk o b, collectWhiles_complete_blks o rest]
end

/-- A failing lowering aborts the fold: whatever collected operations remain
after the failing one are never processed, and the failure state is returned
as-is. -/
theorem foldLower_abort (isCond : Bool) (os1 : List Nat) (o : Nat) (os2 : List Nat)
    (F F1 F2 : FuncState)
    (hok : foldLower isCond os1 F = .ok F1)
    (hfail : lowerStructAt isCond o F1 = .failed F2) :
    foldLower isCond (os1 ++ o :: os2) F = .failed F2 := by
  induction os1 generalizing F with
  | nil =>
      simp only [foldLower] at hok
      cases hok
      simp only [List.nil_append, foldLower, hfail]
  | cons o1 rest ih =>
      simp only [foldLower] at hok ⊢
      cases h1 : lowerStructAt isCond o1 F with
      | ok F3 =>
          rw [h1] at hok
          exact ih F3 hok
      | failed F3 => rw [h1] at hok; cases hok
      | crash => rw [h1] at hok; cases hok

/-- C9: the pass driver collects every conditional present in the function in
one upfront post-order traversal (completeness of the walk), lowers all of
them before collecting or lowering any while — the whiles are collected from
the state after the whole conditional phase — and a failing lowering aborts
the remaining collected work, the whole pass reporting that failure. -/
theorem C9_driver_collects_then_lowers_in_phases :
    (∀ (R : List Blk) (o : Nat), o ∈ collectCondsBlks R ↔ o ∈ condIdsBlks R) ∧
    (∀ (R : List Blk) (o : Nat), o ∈ collectWhilesBlks R ↔ o ∈ whileIdsBlks R) ∧
    (∀ (isCond : Bool) (os1 : List Nat) (o : Nat) (os2 : List Nat) (F F1 F2 : FuncState),
      foldLower isCond os1 F = .ok F1 → lowerStructAt isCond o F1 = .failed F2 →
        foldLower isCond (os1 ++ o :: os2) F = .failed F2) ∧
    (∀ F F2 : FuncState, foldLower true (collectCondsBlks F.body) F = .failed F2 →
      runOnFunction F = .failed F2) ∧
    (∀ F F1 : FuncState, foldLower true (collectCondsBlks F.body) F = .ok F1 →
      runOnFunction F = foldLower false (collectWhilesBlks F1.body) F1) := by
  refine ⟨fun R o => collectConds_complete_blks o R,
    fun R o => collectWhiles_complete_blks o R,
    fun isCond os1 o os2 F F1 F2 hok hfail => foldLower_abort isCond os1 o os2 F F1 F2 hok hfail,
    ?_, ?_⟩
  · intro F F2 h
    simp only [runOnFunction, h]
  · intro F F1 h
    simp only [runOnFunction, h]

/-- Witness for C9: lowering the malformed conditional of `funcBadCond`
fails, so the fold over `[] ++ 0 :: [99]` stops before ever touching the
dangling identifier `99`, returning the failure state. -/
theorem C9_witness :
    (foldLower true [] funcBadCond = .ok funcBadCond ∧
      lowerStructAt true 0 funcBadCond = .failed
        ⟨[Blk.mk 0 [0] [.simple (.extractElementOp 24 0)] (.condBr 24 5 [0] 10 [0]),
          Blk.mk 5 [7] [] (.br 5 [7]),
          Blk.mk 10 [15] [.simple (.constOp 16 7)] (.ret [16]),
          Blk.mk 3 [] [.conditional 0 5 0 0 0 [Blk.mk 1 [1] [] (.br 1 [1])]
            [Blk.mk 2 [3] [.simple (.constOp 4 7)] (.ret [4])]] (.stdRet [5])],
          ⟨25, 16, 4⟩⟩) ∧
    foldLower true ([] ++ 0 :: [99]) funcBadCond = .failed
      ⟨[Blk.mk 0 [0] [.simple (.extractElementOp 24 0)] (.condBr 24 5 [0] 10 [0]),
        Blk.mk 5 [7] [] (.br 5 [7]),
        Blk.mk 10 [15] [.simple (.constOp 16 7)] (.ret [16]),
        Blk.mk 3 [] [.conditional 0 5 0 0 0 [Blk.mk 1 [1] [] (.br 1 [1])]
          [Blk.mk 2 [3] [.simple (.constOp 4 7)] (.ret [4])]] (.stdRet [5])],
        ⟨25, 16, 4⟩⟩ :=
  ⟨⟨rfl, rfl⟩,
    C9_driver_collects_then_lowers_in_phases.2.2.1 true [] 0 [99] funcBadCond funcBadCond _
      rfl rfl⟩

/-! ## Failure of a conditional lowering: the partial state -/

/-- Renaming preserves the block-identifier position: the clone's identifier
is the mapping applied to the original's. -/
theorem renameBlk_bid (sv sb : Nat → Nat) (so : Nat → Nat) (b : Blk) :
    (renameBlk sv sb so b).bid = sb b.bid := by
  cases b
  rfl

/-- Every member of a cloned region is the clone of a member of the source. -/
theorem mem_renameBlks (sv sb : Nat → Nat) (so : Nat → Nat) (R : List Blk) :
    ∀ b2 ∈ renameBlks sv sb so R, ∃ b ∈ R, b2 = renameBlk sv sb so b := by
  induction R with
  | nil => intro b2 hb2; cases hb2
  | cons b rest ih =>
      intro b2 hb2
      rcases List.mem_cons.mp hb2 with h | h
      · exact ⟨b, List.mem_cons_self _ _, h⟩
      · obtain ⟨b3, hb3, hb3e⟩ := ih b2 h
        exact ⟨b3, List.mem_cons_of_mem _ hb3, hb3e⟩

/-- When terminator rewriting fails inside `LowerConditionalOp`, the returned
(partial) state still holds the Tail block exactly as the split left it: no
parameter was added, the conditional operation was not erased (it still heads
the Tail's operations, regions intact), and no use of its result was rewired
(operations and terminator are the unsubstituted originals). -/
theorem LowerConditionalOpCore_failed_tail (pre : List Blk) (bbid : Nat)
    (bparams : List Nat) (opsPre : List Op) (oid : Nat) (res pred targ farg : Nat)
    (tE : Blk) (tR : List Blk) (fE : Blk) (fR : List Blk)
    (opsPost : List Op) (bterm : Term) (post : List Blk) (c : Counters)
    (hpreNe : ∀ b ∈ pre, b.bid ≠ c.nb) (hbbid : bbid ≠ c.nb) :
    ∀ RR2 c2, LowerConditionalOpCore pre bbid bparams opsPre oid res pred targ farg
        (tE :: tR) (fE :: fR) opsPost bterm post c = .failed (RR2, c2) →
      findBlk RR2 c.nb = some (.mk c.nb []
        (.conditional oid res pred targ farg (tE :: tR) (fE :: fR) :: opsPost) bterm) := by
  intro RR2x c2x hx
  simp only [LowerConditionalOpCore, cloneRegion] at hx
  have hT1 : findBlk (pre ++ [Blk.mk bbid bparams
      (opsPre ++ [.simple (.extractElementOp (c.nv * 2 * 2) pred)])
      (.condBr (c.nv * 2 * 2) (mkSubst (blkIdsBlks (tE :: tR)) (c.nb + 1) tE.bid) [targ]
        (mkSubst (blkIdsBlks (fE :: fR)) ((c.nb + 1) * 2) fE.bid) [farg])] ++
      renameBlks (mkSubst (defsBlks (tE :: tR)) c.nv)
        (mkSubst (blkIdsBlks (tE :: tR)) (c.nb + 1)) (mkSubst (opIdsBlks (tE :: tR)) c.nop)
        (tE :: tR) ++
      renameBlks (mkSubst (defsBlks (fE :: fR)) (c.nv * 2))
        (mkSubst (blkIdsBlks (fE :: fR)) ((c.nb + 1) * 2))
        (mkSubst (opIdsBlks (fE :: fR)) (c.nop * 2)) (fE :: fR) ++
      [Blk.mk c.nb []
        (.conditional oid res pred targ farg (tE :: tR) (fE :: fR) :: opsPost) bterm] ++
      post) c.nb = some (Blk.mk c.nb []
        (.conditional oid res pred targ farg (tE :: tR) (fE :: fR) :: opsPost) bterm) := by
    have hTmiss : ∀ b2 ∈ renameBlks (mkSubst (defsBlks (tE :: tR)) c.nv)
        (mkSubst (blkIdsBlks (tE :: tR)) (c.nb + 1)) (mkSubst (opIdsBlks (tE :: tR)) c.nop)
        (tE :: tR), b2.bid ≠ c.nb := by
      intro b2 hb2
      obtain ⟨b, hb, rfl⟩ := mem_renameBlks _ _ _ _ b2 hb2
      rw [renameBlk_bid]
      have hm := bid_mem_blkIds _ b hb
      simp only [mkSubst]
      rw [if_pos hm]
      omega
    have hFmiss : ∀ b2 ∈ renameBlks (mkSubst (defsBlks (fE :: fR)) (c.nv * 2))
        (mkSubst (blkIdsBlks (fE :: fR)) ((c.nb + 1) * 2))
        (mkSubst (opIdsBlks (fE :: fR)) (c.nop * 2)) (fE :: fR), b2.bid ≠ c.nb := by
      intro b2 hb2
      obtain ⟨b, hb, rfl⟩ := mem_renameBlks _ _ _ _ b2 hb2
      rw [renameBlk_bid]
      have hm := bid_mem_blkIds _ b hb
      simp only [mkSubst]
      rw [if_pos hm]
      omega
    have hPmiss : ∀ b2 ∈ [Blk.mk bbid bparams
        (opsPre ++ [Op.simple (SimpleOp.extractElementOp (c.nv * 2 * 2) pred)])
        (Term.condBr (c.nv * 2 * 2) (mkSubst (blkIdsBlks (tE :: tR)) (c.nb + 1) tE.bid) [targ]
          (mkSubst (blkIdsBlks (fE :: fR)) ((c.nb + 1) * 2) fE.bid) [farg])],
        b2.bid ≠ c.nb := by
      intro b2 hb2
      rcases List.mem_singleton.mp hb2 with rfl
      simpa [Blk.bid] using hbbid
    rw [List.append_assoc, List.append_assoc, List.append_assoc, List.append_assoc]
    rw [findBlk_append, findBlk_eq_none pre c.nb hpreNe]
    dsimp only
    rw [findBlk_append, findBlk_eq_none _ _ hPmiss]
    dsimp only
    rw [findBlk_append, findBlk_eq_none _ _ hTmiss]
    dsimp only
    rw [findBlk_append, findBlk_eq_none _ _ hFmiss]
    dsimp only
    rw [findBlk_append]
    simp [findBlk, List.find?, Blk.bid]
  have htImg : ∀ b ∈ tE :: tR,
      mkSubst (blkIdsBlks (tE :: tR)) (c.nb + 1) b.bid ≠ c.nb := by
    intro b hb
    have hm := bid_mem_blkIds _ b hb
    simp only [mkSubst]
    rw [if_pos hm]
    omega
  have hfImg : ∀ b ∈ fE :: fR,
      mkSubst (blkIdsBlks (fE :: fR)) ((c.nb + 1) * 2) b.bid ≠ c.nb := by
    intro b hb
    have hm := bid_mem_blkIds _ b hb
    simp only [mkSubst]
    rw [if_pos hm]
    omega
  generalize hgen : (pre ++ [Blk.mk bbid bparams
      (opsPre ++ [.simple (.extractElementOp (c.nv * 2 * 2) pred)])
      (.condBr (c.nv * 2 * 2) (mkSubst (blkIdsBlks (tE :: tR)) (c.nb + 1) tE.bid) [targ]
        (mkSubst (blkIdsBlks (fE :: fR)) ((c.nb + 1) * 2) fE.bid) [farg])] ++
      renameBlks (mkSubst (defsBlks (tE :: tR)) c.nv)
        (mkSubst (blkIdsBlks (tE :: tR)) (c.nb + 1)) (mkSubst (opIdsBlks (tE :: tR)) c.nop)
        (tE :: tR) ++
      renameBlks (mkSubst (defsBlks (fE :: fR)) (c.nv * 2))
        (mkSubst (blkIdsBlks (fE :: fR)) ((c.nb + 1) * 2))
        (mkSubst (opIdsBlks (fE :: fR)) (c.nop * 2)) (fE :: fR) ++
      [Blk.mk c.nb []
        (.conditional oid res pred targ farg (tE :: tR) (fE :: fR) :: opsPost) bterm] ++
      post) = RR1 at hx hT1
  rcases h1 : ReplaceTerminators (tE :: tR) (mkSubst (blkIdsBlks (tE :: tR)) (c.nb + 1))
      c.nb RR1 with ⟨RR2, ok1⟩
  have hRR2 : findBlk RR2 c.nb = some (Blk.mk c.nb []
      (.conditional oid res pred targ farg (tE :: tR) (fE :: fR) :: opsPost) bterm) := by
    have huq := ReplaceTerminators_untouched (tE :: tR)
      (mkSubst (blkIdsBlks (tE :: tR)) (c.nb + 1)) c.nb RR1 c.nb htImg
    rw [h1] at huq
    rw [← hT1]
    exact huq
  rw [h1] at hx
  cases ok1 with
  | false =>
      simp only [LowRes.failed.injEq, Prod.mk.injEq] at hx
      rw [← hx.1]
      exact hRR2
  | true =>
      dsimp only at hx
      rcases h2 : ReplaceTerminators (fE :: fR)
          (mkSubst (blkIdsBlks (fE :: fR)) ((c.nb + 1) * 2)) c.nb RR2 with ⟨RR3, ok2⟩
      have hRR3 : findBlk RR3 c.nb = some (Blk.mk c.nb []
          (.conditional oid res pred targ farg (tE :: tR) (fE :: fR) :: opsPost) bterm) := by
        have huq := ReplaceTerminators_untouched (fE :: fR)
          (mkSubst (blkIdsBlks (fE :: fR)) ((c.nb + 1) * 2)) c.nb RR2 c.nb hfImg
        rw [h2] at huq
        rw [← hRR2]
        exact huq
      rw [h2] at hx
      cases ok2 with
      | false =>
          simp only [LowRes.failed.injEq, Prod.mk.injEq] at hx
          rw [← hx.1]
          exact hRR3
      | true => simp at hx

/-- C8: if terminator rewriting fails while lowering a Conditional, the
lowering returns failure and the partial state still holds the Tail block
as split: no Tail parameter added, the Conditional not erased (it heads the
Tail's operations with its regions intact) and its result not rewired; at
the driver level, when that Conditional sits in the collected list after
successfully lowered ones, the whole pass reports failure with exactly that
partial state — the earlier lowerings' mutations are kept, with no rollback. -/
theorem C8_conditional_failure_no_rollback :
    (∀ (pre : List Blk) (bbid : Nat) (bparams : List Nat) (opsPre : List Op)
        (oid res pred targ farg : Nat) (tE : Blk) (tR : List Blk) (fE : Blk) (fR : List Blk)
        (opsPost : List Op) (bterm : Term) (post : List Blk) (c : Counters),
      (∀ b ∈ pre, b.bid ≠ c.nb) → bbid ≠ c.nb →
      ∀ RR2 c2, LowerConditionalOpCore pre bbid bparams opsPre oid res pred targ farg
          (tE :: tR) (fE :: fR) opsPost bterm post c = .failed (RR2, c2) →
        findBlk RR2 c.nb = some (.mk c.nb []
          (.conditional oid res pred targ farg (tE :: tR) (fE :: fR) :: opsPost) bterm)) ∧
    (∀ (F : FuncState) (os1 : List Nat) (o : Nat) (os2 : List Nat) (F1 F2 : FuncState),
      collectCondsBlks F.body = os1 ++ o :: os2 →
      foldLower true os1 F = .ok F1 → LowerConditionalOp o F1 = .failed F2 →
      runOnFunction F = .failed F2) := by
  refine ⟨?_, ?_⟩
  · intro pre bbid bparams opsPre oid res pred targ farg tE tR fE fR opsPost bterm post c
      h1 h2 RR2 c2 hx
    exact LowerConditionalOpCore_failed_tail pre bbid bparams opsPre oid res pred targ farg
      tE tR fE fR opsPost bterm post c h1 h2 RR2 c2 hx
  · intro F os1 o os2 F1 F2 hcollect hok hfail
    have := foldLower_abort true os1 o os2 F F1 F2 hok hfail
    simp only [runOnFunction, hcollect, this]

/-- Witness for C8 at `funcBadCond`: the malformed true region makes the
terminator rewrite fail; in the returned partial state the Tail block `3`
still has no parameters and still holds the intact Conditional at its head;
the driver returns exactly that partial state. -/
theorem C8_witness :
    ((∀ b ∈ ([] : List Blk), b.bid ≠ (3 : Nat)) ∧ (0 : Nat) ≠ 3 ∧
      collectCondsBlks funcBadCond.body = [] ++ 0 :: [] ∧
      foldLower true [] funcBadCond = .ok funcBadCond) ∧
    findBlk [Blk.mk 0 [0] [.simple (.extractElementOp 24 0)] (.condBr 24 5 [0] 10 [0]),
        Blk.mk 5 [7] [] (.br 5 [7]),
        Blk.mk 10 [15] [.simple (.constOp 16 7)] (.ret [16]),
        Blk.mk 3 [] [.conditional 0 5 0 0 0 [Blk.mk 1 [1] [] (.br 1 [1])]
          [Blk.mk 2 [3] [.simple (.constOp 4 7)] (.ret [4])]] (.stdRet [5])]
      ((⟨6, 3, 1⟩ : Counters)).nb = some (.mk (⟨6, 3, 1⟩ : Counters).nb []
        (.conditional 0 5 0 0 0 (Blk.mk 1 [1] [] (.br 1 [1]) :: [])
          (Blk.mk 2 [3] [.simple (.constOp 4 7)] (.ret [4]) :: []) :: []) (.stdRet [5])) ∧
    runOnFunction funcBadCond = .failed
      ⟨[Blk.mk 0 [0] [.simple (.extractElementOp 24 0)] (.condBr 24 5 [0] 10 [0]),
        Blk.mk 5 [7] [] (.br 5 [7]),
        Blk.mk 10 [15] [.simple (.constOp 16 7)] (.ret [16]),
        Blk.mk 3 [] [.conditional 0 5 0 0 0 [Blk.mk 1 [1] [] (.br 1 [1])]
          [Blk.mk 2 [3] [.simple (.constOp 4 7)] (.ret [4])]] (.stdRet [5])],
        ⟨25, 16, 4⟩⟩ :=
  ⟨⟨by decide, by decide, rfl, rfl⟩,
    C8_conditional_failure_no_rollback.1 [] 0 [0] [] 0 5 0 0 0
      (Blk.mk 1 [1] [] (.br 1 [1])) [] (Blk.mk 2 [3] [.simple (.constOp 4 7)] (.ret [4])) []
      [] (.stdRet [5]) [] ⟨6, 3, 1⟩ (by decide) (by decide)
      [Blk.mk 0 [0] [.simple (.extractElementOp 24 0)] (.condBr 24 5 [0] 10 [0]),
        Blk.mk 5 [7] [] (.br 5 [7]),
        Blk.mk 10 [15] [.simple (.constOp 16 7)] (.ret [16]),
        Blk.mk 3 [] [.conditional 0 5 0 0 0 [Blk.mk 1 [1] [] (.br 1 [1])]
          [Blk.mk 2 [3] [.simple (.constOp 4 7)] (.ret [4])]] (.stdRet [5])]
      ⟨25, 16, 4⟩ rfl,
    C8_conditional_failure_no_rollback.2 funcBadCond [] 0 [] funcBadCond _ rfl rfl rfl⟩

/-! ## Counting machinery for the terminal property -/

/-- Conditional count over op-list concatenation. -/
theorem condCountOps_append (l1 l2 : List Op) :
    condCountOps (l1 ++ l2) = condCountOps l1 + condCountOps l2 := by
  induction l1 with
  | nil => simp [condCountOps]
  | cons o rest ih => simp [condCountOps, ih]; omega

/-- Conditional count over region concatenation. -/
theorem condCountBlks_append (l1 l2 : List Blk) :
    condCountBlks (l1 ++ l2) = condCountBlks l1 + condCountBlks l2 := by
  induction l1 with
  | nil => simp [condCountBlks]
  | cons b rest ih => simp [condCountBlks, ih]; omega

/-- While count over op-list concatenation. -/
theorem whileCountOps_append (l1 l2 : List Op) :
    whileCountOps (l1 ++ l2) = whileCountOps l1 + whileCountOps l2 := by
  induction l1 with
  | nil => simp [whileCountOps]
  | cons o rest ih => simp [whileCountOps, ih]; omega

/-- While count over region concatenation. -/
theorem whileCountBlks_append (l1 l2 : List Blk) :
    whileCountBlks (l1 ++ l2) = whileCountBlks l1 + whileCountBlks l2 := by
  induction l1 with
  | nil => simp [whileCountBlks]
  | cons b rest ih => simp [whileCountBlks, ih]; omega

/-- Top-level Return count over region concatenation. -/
theorem topRetCount_append (l1 l2 : List Blk) :
    topRetCount (l1 ++ l2) = topRetCount l1 + topRetCount l2 := by
  induction l1 with
  | nil => simp [topRetCount]
  | cons b rest ih => simp [topRetCount, ih]; omega

mutual
/-- Cloning preserves the number of conditionals in an operation. -/
theorem condCount_renameOp (sv sb so : Nat → Nat) :
    ∀ op : Op, condCountOp (renameOp sv sb so op) = condCountOp op
  | .simple s => rfl
  | .conditional oid res p t f tr fr => by
      simp only [renameOp, condCountOp, condCount_renameBlks sv sb so tr,
        condCount_renameBlks sv sb so fr]
  | .whileOp oid res init cr bd => by
      simp only [renameOp, condCountOp, condCount_renameBlks sv sb so cr,
        condCount_renameBlks sv sb so bd]

/-- Cloning preserves the conditional count of an op list. -/
theorem condCount_renameOps (sv sb so : Nat → Nat) :
    ∀ ops : List Op, condCountOps (renameOps sv sb so ops) = condCountOps ops
  | [] => rfl
  | o :: rest => by
      simp only [renameOps, condCountOps, condCount_renameOp sv sb so o,
        condCount_renameOps sv sb so rest]

/-- Cloning preserves the conditional count of a block. -/
theorem condCount_renameBlk (sv sb so : Nat → Nat) :
    ∀ b : Blk, condCountBlk (renameBlk sv sb so b) = condCountBlk b
  | .mk bid ps ops t => by
      simp only [renameBlk, condCountBlk, condCount_renameOps sv sb so ops]

/-- Cloning preserves the conditional count of a region. -/
theorem condCount_renameBlks (sv sb so : Nat → Nat) :
    ∀ R : List Blk, condCountBlks (renameBlks sv sb so R) = condCountBlks R
  | [] => rfl
  | b :: rest => by
      simp only [renameBlks, condCountBlks, condCount_renameBlk sv sb so b,
        condCount_renameBlks sv sb so rest]
end

mutual
/-- Cloning preserves the number of whiles in an operation. -/
theorem whileCount_renameOp (sv sb so : Nat → Nat) :
    ∀ op : Op, whileCountOp (renameOp sv sb so op) = whileCountOp op
  | .simple s => rfl
  | .conditional oid res p t f tr fr => by
      simp only [renameOp, whileCountOp, whileCount_renameBlks sv sb so tr,
        whileCount_renameBlks sv sb so fr]
  | .whileOp oid res init cr bd => by
      simp only [renameOp, whileCountOp, whileCount_renameBlks sv sb so cr,
        whileCount_renameBlks sv sb so bd]

/-- Cloning preserves the while count of an op list. -/
theorem whileCount_renameOps (sv sb so : Nat → Nat) :
    ∀ ops : List Op, whileCountOps (renameOps sv sb so ops) = whileCountOps ops
  | [] => rfl
  | o :: rest => by
      simp only [renameOps, whileCountOps, whileCount_renameOp sv sb so o,
        whileCount_renameOps sv sb so rest]

/-- Cloning preserves the while count of a block. -/
theorem whileCount_renameBlk (sv sb so : Nat → Nat) :
    ∀ b : Blk, whileCountBlk (renameBlk sv sb so b) = whileCountBlk b
  | .mk bid ps ops t => by
      simp only [renameBlk, whileCountBlk, whileCount_renameOps sv sb so ops]

/-- Cloning preserves the while count of a region. -/
theorem whileCount_renameBlks (sv sb so : Nat → Nat) :
    ∀ R : List Blk, whileCountBlks (renameBlks sv sb so R) = whileCountBlks R
  | [] => rfl
  | b :: rest => by
      simp only [renameBlks, whileCountBlks, whileCount_renameBlk sv sb so b,
        whileCount_renameBlks sv sb so rest]
end

mutual
/-- Use-substitution preserves the number of conditionals in an operation. -/
theorem condCount_substOp (a bb : Nat) :
    ∀ op : Op, condCountOp (substOp a bb op) = condCountOp op
  | .simple s => rfl
  | .conditional oid res p t f tr fr => by
      simp only [substOp, condCountOp, condCount_substBlks a bb tr,
        condCount_substBlks a bb fr]
  | .whileOp oid res init cr bd => by
      simp only [substOp, condCountOp, condCount_substBlks a bb cr,
        condCount_substBlks a bb bd]

/-- Use-substitution preserves the conditional count of an op list. -/
theorem condCount_substOps (a bb : Nat) :
    ∀ ops : List Op, condCountOps (substOps a bb ops) = condCountOps ops
  | [] => rfl
  | o :: rest => by
      simp only [substOps, condCountOps, condCount_substOp a bb o,
        condCount_substOps a bb rest]

/-- Use-substitution preserves the conditional count of a block. -/
theorem condCount_substBlk (a bb : Nat) :
    ∀ b : Blk, condCountBlk (substBlk a bb b) = condCountBlk b
  | .mk bid ps ops t => by
      simp only [substBlk, condCountBlk, condCount_substOps a bb ops]

/-- Use-substitution preserves the conditional count of a region. -/
theorem condCount_substBlks (a bb : Nat) :
    ∀ R : List Blk, condCountBlks (substBlks a bb R) = condCountBlks R
  | [] => rfl
  | b :: rest => by
      simp only [substBlks, condCountBlks, condCount_substBlk a bb b,
        condCount_substBlks a bb rest]
end

mutual
/-- Use-substitution preserves the number of whiles in an operation. -/
theorem whileCount_substOp (a bb : Nat) :
    ∀ op : Op, whileCountOp (substOp a bb op) = whileCountOp op
  | .simple s => rfl
  | .conditional oid res p t f tr fr => by
      simp only [substOp, whileCountOp, whileCount_substBlks a bb tr,
        whileCount_substBlks a bb fr]
  | .whileOp oid res init cr bd => by
      simp only [substOp, whileCountOp, whileCount_substBlks a bb cr,
        whileCount_substBlks a bb bd]

/-- Use-substitution preserves the while count of an op list. -/
theorem whileCount_substOps (a bb : Nat) :
    ∀ ops : List Op, whileCountOps (substOps a bb ops) = whileCountOps ops
  | [] => rfl
  | o :: rest => by
      simp only [substOps, whileCountOps, whileCount_substOp a bb o,
        whileCount_substOps a bb rest]

/-- Use-substitution preserves the while count of a block. -/
theorem whileCount_substBlk (a bb : Nat) :
    ∀ b : Blk, whileCountBlk (substBlk a bb b) = whileCountBlk b
  | .mk bid ps ops t => by
      simp only [substBlk, whileCountBlk, whileCount_substOps a bb ops]

/-- Use-substitution preserves the while count of a region. -/
theorem whileCount_substBlks (a bb : Nat) :
    ∀ R : List Blk, whileCountBlks (substBlks a bb R) = whileCountBlks R
  | [] => rfl
  | b :: rest => by
      simp only [substBlks, whileCountBlks, whileCount_substBlk a bb b,
        whileCount_substBlks a bb rest]
end

/-- Use-substitution preserves the terminator kind. -/
theorem substTerm_isRet (a bb : Nat) (t : Term) :
    (substTerm a bb t).isRet = t.isRet := by
  cases t <;> rfl

/-- Use-substitution preserves the top-level Return count. -/
theorem topRetCount_substBlks (a bb : Nat) (R : List Blk) :
    topRetCount (substBlks a bb R) = topRetCount R := by
  induction R with
  | nil => rfl
  | cons b rest ih =>
      cases b with
      | mk bid ps ops t =>
          simp only [substBlks, topRetCount, substBlk, ih, Blk.term, substTerm_isRet]

/-- Lookup at a cons whose head carries the identifier. -/
theorem findBlk_cons_self (bid : Nat) (ps : List Nat) (ops : List Op) (t : Term)
    (rest : List Blk) :
    findBlk (Blk.mk bid ps ops t :: rest) bid = some (Blk.mk bid ps ops t) := by
  simp [findBlk, List.find?, Blk.bid]

/-- Lookup at a cons whose head carries a different identifier. -/
theorem findBlk_cons_ne (b2 bid : Nat) (ps : List Nat) (ops : List Op) (t : Term)
    (rest : List Blk) (h : ¬ b2 = bid) :
    findBlk (Blk.mk b2 ps ops t :: rest) bid = findBlk rest bid := by
  simp [findBlk, List.find?, Blk.bid, h]

/-- Cloning preserves the terminator kind. -/
theorem renameTerm_isRet (sv sb : Nat → Nat) (t : Term) :
    (renameTerm sv sb t).isRet = t.isRet := by
  cases t <;> rfl

/-- Cloning preserves the top-level Return count of a region. -/
theorem topRetCount_renameBlks (sv sb so : Nat → Nat) (R : List Blk) :
    topRetCount (renameBlks sv sb so R) = topRetCount R := by
  induction R with
  | nil => rfl
  | cons b rest ih =>
      cases b with
      | mk bid ps ops t =>
          simp only [renameBlks, topRetCount, renameBlk, ih, Blk.term, renameTerm_isRet]

/-- Every region has at most as many top-level Returns as blocks. -/
theorem topRetCount_le_length (R : List Blk) : topRetCount R ≤ R.length := by
  induction R with
  | nil => simp [topRetCount]
  | cons b rest ih =>
      simp only [topRetCount, List.length_cons]
      by_cases h : b.term.isRet <;> simp [h] <;> omega

/-- Rewriting one terminator does not change the conditional count. -/
theorem condCount_setTermFirst (bid : Nat) (t : Term) (RR : List Blk) :
    condCountBlks (setTermFirst bid t RR) = condCountBlks RR := by
  induction RR with
  | nil => rfl
  | cons b rest ih =>
      cases b with
      | mk b2 ps ops2 t2 =>
          by_cases h : b2 = bid
          · simp [setTermFirst, Blk.bid, h, condCountBlks, condCountBlk, Blk.params, Blk.ops]
          · simp [setTermFirst, Blk.bid, h, condCountBlks, ih]

/-- Rewriting one terminator does not change the while count. -/
theorem whileCount_setTermFirst (bid : Nat) (t : Term) (RR : List Blk) :
    whileCountBlks (setTermFirst bid t RR) = whileCountBlks RR := by
  induction RR with
  | nil => rfl
  | cons b rest ih =>
      cases b with
      | mk b2 ps ops2 t2 =>
          by_cases h : b2 = bid
          · simp [setTermFirst, Blk.bid, h, whileCountBlks, whileCountBlk, Blk.params, Blk.ops]
          · simp [setTermFirst, Blk.bid, h, whileCountBlks, ih]

/-- Replacing a Return terminator by a non-Return one removes exactly one
top-level Return. -/
theorem topRet_setTermFirst (bid : Nat) (t : Term) (RR : List Blk) (blk : Blk)
    (hf : findBlk RR bid = some blk) (hret : blk.term.isRet = true)
    (ht : t.isRet = false) :
    topRetCount (setTermFirst bid t RR) + 1 = topRetCount RR := by
  induction RR with
  | nil => simp [findBlk] at hf
  | cons b rest ih =>
      cases b with
      | mk b2 ps ops2 t2 =>
          by_cases h : b2 = bid
          · subst h
            rw [findBlk_cons_self] at hf
            simp only [Option.some.injEq] at hf
            subst hf
            simp only [Blk.term] at hret
            simp [setTermFirst, Blk.bid, topRetCount, Blk.term, Blk.params, Blk.ops, ht, hret]
            omega
          · rw [findBlk_cons_ne b2 bid ps ops2 t2 rest h] at hf
            have ih2 := ih hf
            simp only [setTermFirst, Blk.bid, if_neg h, topRetCount]
            omega

/-- Overwriting the Return-terminated looked-up block with extended
operations and a non-Return terminator removes exactly one top-level
Return. -/
theorem topRet_setOpsTermFirst (bid : Nat) (ops : List Op) (t : Term)
    (RR : List Blk) (blk : Blk) (hf : findBlk RR bid = some blk)
    (hret : blk.term.isRet = true) (ht : t.isRet = false) :
    topRetCount (setOpsTermFirst bid ops t RR) + 1 = topRetCount RR := by
  induction RR with
  | nil => simp [findBlk] at hf
  | cons b rest ih =>
      cases b with
      | mk b2 ps ops2 t2 =>
          by_cases h : b2 = bid
          · subst h
            rw [findBlk_cons_self] at hf
            simp only [Option.some.injEq] at hf
            subst hf
            simp only [Blk.term] at hret
            simp [setOpsTermFirst, Blk.bid, topRetCount, Blk.term, Blk.params, ht, hret]
            omega
          · rw [findBlk_cons_ne b2 bid ps ops2 t2 rest h] at hf
            have ih2 := ih hf
            simp only [setOpsTermFirst, Blk.bid, if_neg h, topRetCount]
            omega

/-- Overwriting the looked-up block's operations exchanges their conditional
counts. -/
theorem condCount_setOpsTermFirst (bid : Nat) (ops : List Op) (t : Term)
    (RR : List Blk) (blk : Blk) (hf : findBlk RR bid = some blk) :
    condCountBlks (setOpsTermFirst bid ops t RR) + condCountOps blk.ops
      = condCountBlks RR + condCountOps ops := by
  induction RR with
  | nil => simp [findBlk] at hf
  | cons b rest ih =>
      cases b with
      | mk b2 ps ops2 t2 =>
          by_cases h : b2 = bid
          · subst h
            rw [findBlk_cons_self] at hf
            simp only [Option.some.injEq] at hf
            subst hf
            simp [setOpsTermFirst, Blk.bid, condCountBlks, condCountBlk, Blk.ops, Blk.params]
            omega
          · rw [findBlk_cons_ne b2 bid ps ops2 t2 rest h] at hf
            have ih2 := ih hf
            simp only [setOpsTermFirst, Blk.bid, if_neg h, condCountBlks]
            omega

/-- Overwriting the looked-up block's operations exchanges their while
counts. -/
theorem whileCount_setOpsTermFirst (bid : Nat) (ops : List Op) (t : Term)
    (RR : List Blk) (blk : Blk) (hf : findBlk RR bid = some blk) :
    whileCountBlks (setOpsTermFirst bid ops t RR) + whileCountOps blk.ops
      = whileCountBlks RR + whileCountOps ops := by
  induction RR with
  | nil => simp [findBlk] at hf
  | cons b rest ih =>
      cases b with
      | mk b2 ps ops2 t2 =>
          by_cases h : b2 = bid
          · subst h
            rw [findBlk_cons_self] at hf
            simp only [Option.some.injEq] at hf
            subst hf
            simp [setOpsTermFirst, Blk.bid, whileCountBlks, whileCountBlk, Blk.ops, Blk.params]
            omega
          · rw [findBlk_cons_ne b2 bid ps ops2 t2 rest h] at hf
            have ih2 := ih hf
            simp only [setOpsTermFirst, Blk.bid, if_neg h, whileCountBlks]
            omega

/-- Adding a block parameter does not change the conditional count. -/
theorem condCount_addParamFirst (bid : Nat) (p : Nat) (RR : List Blk) :
    condCountBlks (addParamFirst bid p RR) = condCountBlks RR := by
  induction RR with
  | nil => rfl
  | cons b rest ih =>
      cases b with
      | mk b2 ps ops2 t2 =>
          by_cases h : b2 = bid
          · simp [addParamFirst, Blk.bid, h, condCountBlks, condCountBlk, Blk.params,
              Blk.ops, Blk.term]
          · simp [addParamFirst, Blk.bid, h, condCountBlks, ih]

/-- Adding a block parameter does not change the while count. -/
theorem whileCount_addParamFirst (bid : Nat) (p : Nat) (RR : List Blk) :
    whileCountBlks (addParamFirst bid p RR) = whileCountBlks RR := by
  induction RR with
  | nil => rfl
  | cons b rest ih =>
      cases b with
      | mk b2 ps ops2 t2 =>
          by_cases h : b2 = bid
          · simp [addParamFirst, Blk.bid, h, whileCountBlks, whileCountBlk, Blk.params,
              Blk.ops, Blk.term]
          · simp [addParamFirst, Blk.bid, h, whileCountBlks, ih]

/-- Adding a block parameter does not change the top-level Return count. -/
theorem topRet_addParamFirst (bid : Nat) (p : Nat) (RR : List Blk) :
    topRetCount (addParamFirst bid p RR) = topRetCount RR := by
  induction RR with
  | nil => rfl
  | cons b rest ih =>
      cases b with
      | mk b2 ps ops2 t2 =>
          by_cases h : b2 = bid
          · simp [addParamFirst, Blk.bid, h, topRetCount, Blk.term]
          · simp [addParamFirst, Blk.bid, h, topRetCount, ih]

/-- Erasing the leading operation of the looked-up block removes exactly its
conditional count. -/
theorem condCount_dropHeadOpFirst (bid : Nat) (RR : List Blk) (blk : Blk)
    (o : Op) (rest2 : List Op) (hf : findBlk RR bid = some blk)
    (hops : blk.ops = o :: rest2) :
    condCountBlks (dropHeadOpFirst bid RR) + condCountOp o = condCountBlks RR := by
  induction RR with
  | nil => simp [findBlk] at hf
  | cons b rest ih =>
      cases b with
      | mk b2 ps ops2 t2 =>
          by_cases h : b2 = bid
          · subst h
            rw [findBlk_cons_self] at hf
            simp only [Option.some.injEq] at hf
            subst hf
            simp only [Blk.ops] at hops
            subst hops
            simp [dropHeadOpFirst, Blk.bid, condCountBlks, condCountBlk, Blk.ops,
              Blk.params, Blk.term, condCountOps]
            omega
          · rw [findBlk_cons_ne b2 bid ps ops2 t2 rest h] at hf
            have ih2 := ih hf
            simp only [dropHeadOpFirst, Blk.bid, if_neg h, condCountBlks]
            omega

/-- Erasing the leading operation of the looked-up block removes exactly its
while count. -/
theorem whileCount_dropHeadOpFirst (bid : Nat) (RR : List Blk) (blk : Blk)
    (o : Op) (rest2 : List Op) (hf : findBlk RR bid = some blk)
    (hops : blk.ops = o :: rest2) :
    whileCountBlks (dropHeadOpFirst bid RR) + whileCountOp o = whileCountBlks RR := by
  induction RR with
  | nil => simp [findBlk] at hf
  | cons b rest ih =>
      cases b with
      | mk b2 ps ops2 t2 =>
          by_cases h : b2 = bid
          · subst h
            rw [findBlk_cons_self] at hf
            simp only [Option.some.injEq] at hf
            subst hf
            simp only [Blk.ops] at hops
            subst hops
            simp [dropHeadOpFirst, Blk.bid, whileCountBlks, whileCountBlk, Blk.ops,
              Blk.params, Blk.term, whileCountOps]
            omega
          · rw [findBlk_cons_ne b2 bid ps ops2 t2 rest h] at hf
            have ih2 := ih hf
            simp only [dropHeadOpFirst, Blk.bid, if_neg h, whileCountBlks]
            omega

/-- Erasing a leading operation does not change the top-level Return count. -/
theorem topRet_dropHeadOpFirst (bid : Nat) (RR : List Blk) :
    topRetCount (dropHeadOpFirst bid RR) = topRetCount RR := by
  induction RR with
  | nil => rfl
  | cons b rest ih =>
      cases b with
      | mk b2 ps ops2 t2 =>
          by_cases h : b2 = bid
          · simp [dropHeadOpFirst, Blk.bid, h, topRetCount, Blk.term]
          · simp [dropHeadOpFirst, Blk.bid, h, topRetCount, ih]

/-- Terminator rewriting never changes the conditional count (branches for
returns; operations untouched), whatever its outcome. -/
theorem RT_condCount (src : List Blk) (sb : Nat → Nat) (tailId : Nat)
    (RR : List Blk) :
    condCountBlks (ReplaceTerminators src sb tailId RR).1 = condCountBlks RR := by
  induction src generalizing RR with
  | nil => rfl
  | cons b rest ih =>
      cases hf : findBlk RR (sb b.bid) with
      | none => simp [ReplaceTerminators, hf]
      | some blk =>
          cases ht : blk.term with
          | ret args =>
              simp only [ReplaceTerminators, hf, ht]
              rw [ih]
              exact condCount_setTermFirst _ _ _
          | stdRet args => simp [ReplaceTerminators, hf, ht]
          | br t2 args => simp [ReplaceTerminators, hf, ht]
          | condBr c tT tA fT fA => simp [ReplaceTerminators, hf, ht]

/-- Terminator rewriting never changes the while count. -/
theorem RT_whileCount (src : List Blk) (sb : Nat → Nat) (tailId : Nat)
    (RR : List Blk) :
    whileCountBlks (ReplaceTerminators src sb tailId RR).1 = whileCountBlks RR := by
  induction src generalizing RR with
  | nil => rfl
  | cons b rest ih =>
      cases hf : findBlk RR (sb b.bid) with
      | none => simp [ReplaceTerminators, hf]
      | some blk =>
          cases ht : blk.term with
          | ret args =>
              simp only [ReplaceTerminators, hf, ht]
              rw [ih]
              exact whileCount_setTermFirst _ _ _
          | stdRet args => simp [ReplaceTerminators, hf, ht]
          | br t2 args => simp [ReplaceTerminators, hf, ht]
          | condBr c tT tA fT fA => simp [ReplaceTerminators, hf, ht]

/-- On success, terminator rewriting removes exactly one top-level Return per
source block. -/
theorem RT_topRet (src : List Blk) (sb : Nat → Nat) (tailId : Nat)
    (RR : List Blk) (hok : (ReplaceTerminators src sb tailId RR).2 = true) :
    topRetCount (ReplaceTerminators src sb tailId RR).1 + src.length
      = topRetCount RR := by
  induction src generalizing RR with
  | nil => rfl
  | cons b rest ih =>
      cases hf : findBlk RR (sb b.bid) with
      | none => rw [ReplaceTerminators] at hok; simp [hf] at hok
      | some blk =>
          cases ht : blk.term with
          | ret args =>
              rw [ReplaceTerminators] at hok
              simp only [hf, ht] at hok
              simp only [ReplaceTerminators, hf, ht, List.length_cons]
              have h1 := topRet_setTermFirst (sb b.bid) (.br tailId args) RR blk hf
                (by rw [ht]; rfl) rfl
              have h2 := ih _ hok
              omega
          | stdRet args => rw [ReplaceTerminators] at hok; simp [hf, ht] at hok
          | br t2 args => rw [ReplaceTerminators] at hok; simp [hf, ht] at hok
          | condBr c tT tA fT fA => rw [ReplaceTerminators] at hok; simp [hf, ht] at hok

/-- The body-block rewrite never changes the conditional count. -/
theorem rbb_condCount (src : List Blk) (sb : Nat → Nat) (condEntryId : Nat)
    (RR : List Blk) :
    condCountBlks (rewriteBodyBlocks src sb condEntryId RR).1 = condCountBlks RR := by
  induction src generalizing RR with
  | nil => rfl
  | cons b rest ih =>
      cases hf : findBlk RR (sb b.bid) with
      | none => simp [rewriteBodyBlocks, hf]
      | some blk =>
          cases ht : blk.term with
          | ret args =>
              simp only [rewriteBodyBlocks, hf, ht]
              rw [ih]
              exact condCount_setTermFirst _ _ _
          | stdRet args => simp [rewriteBodyBlocks, hf, ht]
          | br t2 args => simp [rewriteBodyBlocks, hf, ht]
          | condBr c tT tA fT fA => simp [rewriteBodyBlocks, hf, ht]

/-- The body-block rewrite never changes the while count. -/
theorem rbb_whileCount (src : List Blk) (sb : Nat → Nat) (condEntryId : Nat)
    (RR : List Blk) :
    whileCountBlks (rewriteBodyBlocks src sb condEntryId RR).1 = whileCountBlks RR := by
  induction src generalizing RR with
  | nil => rfl
  | cons b rest ih =>
      cases hf : findBlk RR (sb b.bid) with
      | none => simp [rewriteBodyBlocks, hf]
      | some blk =>
          cases ht : blk.term with
          | ret args =>
              simp only [rewriteBodyBlocks, hf, ht]
              rw [ih]
              exact whileCount_setTermFirst _ _ _
          | stdRet args => simp [rewriteBodyBlocks, hf, ht]
          | br t2 args => simp [rewriteBodyBlocks, hf, ht]
          | condBr c tT tA fT fA => simp [rewriteBodyBlocks, hf, ht]

/-- On success, the body-block rewrite removes exactly one top-level Return
per source block. -/
theorem rbb_topRet (src : List Blk) (sb : Nat → Nat) (condEntryId : Nat)
    (RR : List Blk) (hok : (rewriteBodyBlocks src sb condEntryId RR).2 = true) :
    topRetCount (rewriteBodyBlocks src sb condEntryId RR).1 + src.length
      = topRetCount RR := by
  induction src generalizing RR with
  | nil => rfl
  | cons b rest ih =>
      cases hf : findBlk RR (sb b.bid) with
      | none => rw [rewriteBodyBlocks] at hok; simp [hf] at hok
      | some blk =>
          cases ht : blk.term with
          | ret args =>
              rw [rewriteBodyBlocks] at hok
              simp only [hf, ht] at hok
              simp only [rewriteBodyBlocks, hf, ht, List.length_cons]
              have h1 := topRet_setTermFirst (sb b.bid) (.br condEntryId args) RR blk hf
                (by rw [ht]; rfl) rfl
              have h2 := ih _ hok
              omega
          | stdRet args => rw [rewriteBodyBlocks] at hok; simp [hf, ht] at hok
          | br t2 args => rw [rewriteBodyBlocks] at hok; simp [hf, ht] at hok
          | condBr c tT tA fT fA => rw [rewriteBodyBlocks] at hok; simp [hf, ht] at hok

/-- The body-block rewrite does not affect lookups of other identifiers. -/
theorem rewriteBodyBlocks_untouched (src : List Blk) (sb : Nat → Nat)
    (condEntryId : Nat) (RR : List Blk) (q : Nat)
    (hq : ∀ b ∈ src, sb b.bid ≠ q) :
    findBlk (rewriteBodyBlocks src sb condEntryId RR).1 q = findBlk RR q := by
  induction src generalizing RR with
  | nil => rfl
  | cons b rest ih =>
      cases hf : findBlk RR (sb b.bid) with
      | none => simp [rewriteBodyBlocks, hf]
      | some blk =>
          cases ht : blk.term with
          | ret args =>
              simp only [rewriteBodyBlocks, hf, ht]
              rw [ih _ (fun b2 hb2 => hq b2 (List.mem_cons_of_mem _ hb2))]
              exact findBlk_setTermFirst_other _ _ _ _
                (Ne.symm (hq b (List.mem_cons_self _ _)))
          | stdRet args => simp [rewriteBodyBlocks, hf, ht]
          | br t2 args => simp [rewriteBodyBlocks, hf, ht]
          | condBr c tT tA fT fA => simp [rewriteBodyBlocks, hf, ht]

/-- The condition-block rewrite never changes the conditional count of any
carried-out state (the appended extraction is a simple operation). -/
theorem rcb_condCount (src : List Blk) (sb : Nat → Nat)
    (condEntryId bodyEntryId tailId : Nat) (RR : List Blk) (c : Counters)
    (RR2 : List Blk) (c2 : Counters)
    (hp : (rewriteCondBlocks src sb condEntryId bodyEntryId tailId RR c).payload?
      = some (RR2, c2)) :
    condCountBlks RR2 = condCountBlks RR := by
  induction src generalizing RR c with
  | nil =>
      simp only [rewriteCondBlocks, LowRes.payload?, Option.some.injEq,
        Prod.mk.injEq] at hp
      rw [hp.1]
  | cons b rest ih =>
      cases hf : findBlk RR (sb b.bid) with
      | none =>
          simp only [rewriteCondBlocks, hf, LowRes.payload?, Option.some.injEq,
            Prod.mk.injEq] at hp
          rw [hp.1]
      | some blk =>
          cases ht : blk.term with
          | ret args =>
              cases args with
              | nil => simp [rewriteCondBlocks, hf, ht, LowRes.payload?] at hp
              | cons v vs =>
                  cases hce : findBlk RR condEntryId with
                  | none => simp [rewriteCondBlocks, hf, ht, hce, LowRes.payload?] at hp
                  | some condEntry =>
                      rw [rewriteCondBlocks] at hp
                      simp only [hf, ht, hce] at hp
                      have h1 := ih (setOpsTermFirst (sb b.bid) (blk.ops ++ [.simple (.extractElementOp c.nv v)])
                        (.condBr c.nv bodyEntryId condEntry.params tailId condEntry.params) RR)
                        ⟨c.nv + 1, c.nb, c.nop⟩ hp
                      have h2 := condCount_setOpsTermFirst (sb b.bid)
                        (blk.ops ++ [.simple (.extractElementOp c.nv v)])
                        (.condBr c.nv bodyEntryId condEntry.params tailId condEntry.params)
                        RR blk hf
                      rw [condCountOps_append] at h2
                      simp only [condCountOps, condCountOp] at h2
                      omega
          | stdRet args =>
              simp only [rewriteCondBlocks, hf, ht, LowRes.payload?, Option.some.injEq,
                Prod.mk.injEq] at hp
              rw [hp.1]
          | br t2 args =>
              simp only [rewriteCondBlocks, hf, ht, LowRes.payload?, Option.some.injEq,
                Prod.mk.injEq] at hp
              rw [hp.1]
          | condBr cc tT tA fT fA =>
              simp only [rewriteCondBlocks, hf, ht, LowRes.payload?, Option.some.injEq,
                Prod.mk.injEq] at hp
              rw [hp.1]

/-- The condition-block rewrite never changes the while count. -/
theorem rcb_whileCount (src : List Blk) (sb : Nat → Nat)
    (condEntryId bodyEntryId tailId : Nat) (RR : List Blk) (c : Counters)
    (RR2 : List Blk) (c2 : Counters)
    (hp : (rewriteCondBlocks src sb condEntryId bodyEntryId tailId RR c).payload?
      = some (RR2, c2)) :
    whileCountBlks RR2 = whileCountBlks RR := by
  induction src generalizing RR c with
  | nil =>
      simp only [rewriteCondBlocks, LowRes.payload?, Option.some.injEq,
        Prod.mk.injEq] at hp
      rw [hp.1]
  | cons b rest ih =>
      cases hf : findBlk RR (sb b.bid) with
      | none =>
          simp only [rewriteCondBlocks, hf, LowRes.payload?, Option.some.injEq,
            Prod.mk.injEq] at hp
          rw [hp.1]
      | some blk =>
          cases ht : blk.term with
          | ret args =>
              cases args with
              | nil => simp [rewriteCondBlocks, hf, ht, LowRes.payload?] at hp
              | cons v vs =>
                  cases hce : findBlk RR condEntryId with
                  | none => simp [rewriteCondBlocks, hf, ht, hce, LowRes.payload?] at hp
                  | some condEntry =>
                      rw [rewriteCondBlocks] at hp
                      simp only [hf, ht, hce] at hp
                      have h1 := ih (setOpsTermFirst (sb b.bid) (blk.ops ++ [.simple (.extractElementOp c.nv v)])
                        (.condBr c.nv bodyEntryId condEntry.params tailId condEntry.params) RR)
                        ⟨c.nv + 1, c.nb, c.nop⟩ hp
                      have h2 := whileCount_setOpsTermFirst (sb b.bid)
                        (blk.ops ++ [.simple (.extractElementOp c.nv v)])
                        (.condBr c.nv bodyEntryId condEntry.params tailId condEntry.params)
                        RR blk hf
                      rw [whileCountOps_append] at h2
                      simp only [whileCountOps, whileCountOp] at h2
                      omega
          | stdRet args =>
              simp only [rewriteCondBlocks, hf, ht, LowRes.payload?, Option.some.injEq,
                Prod.mk.injEq] at hp
              rw [hp.1]
          | br t2 args =>
              simp only [rewriteCondBlocks, hf, ht, LowRes.payload?, Option.some.injEq,
                Prod.mk.injEq] at hp
              rw [hp.1]
          | condBr cc tT tA fT fA =>
              simp only [rewriteCondBlocks, hf, ht, LowRes.payload?, Option.some.injEq,
                Prod.mk.injEq] at hp
              rw [hp.1]

/-- On success, the condition-block rewrite removes exactly one top-level
Return per source block. -/
theorem rcb_topRet (src : List Blk) (sb : Nat → Nat)
    (condEntryId bodyEntryId tailId : Nat) (RR : List Blk) (c : Counters)
    (RR2 : List Blk) (c2 : Counters)
    (hok : rewriteCondBlocks src sb condEntryId bodyEntryId tailId RR c
      = .ok (RR2, c2)) :
    topRetCount RR2 + src.length = topRetCount RR := by
  induction src generalizing RR c with
  | nil =>
      simp only [rewriteCondBlocks, LowRes.ok.injEq, Prod.mk.injEq] at hok
      rw [hok.1]
      rfl
  | cons b rest ih =>
      cases hf : findBlk RR (sb b.bid) with
      | none => rw [rewriteCondBlocks] at hok; simp [hf] at hok
      | some blk =>
          cases ht : blk.term with
          | ret args =>
              cases args with
              | nil => simp [rewriteCondBlocks, hf, ht] at hok
              | cons v vs =>
                  cases hce : findBlk RR condEntryId with
                  | none => simp [rewriteCondBlocks, hf, ht, hce] at hok
                  | some condEntry =>
                      rw [rewriteCondBlocks] at hok
                      simp only [hf, ht, hce] at hok
                      have h1 := ih (setOpsTermFirst (sb b.bid) (blk.ops ++ [.simple (.extractElementOp c.nv v)])
                        (.condBr c.nv bodyEntryId condEntry.params tailId condEntry.params) RR)
                        ⟨c.nv + 1, c.nb, c.nop⟩ hok
                      have h2 := topRet_setOpsTermFirst (sb b.bid)
                        (blk.ops ++ [.simple (.extractElementOp c.nv v)])
                        (.condBr c.nv bodyEntryId condEntry.params tailId condEntry.params)
                        RR blk hf (by rw [ht]; rfl) rfl
                      simp only [List.length_cons]
                      omega
          | stdRet args => rw [rewriteCondBlocks] at hok; simp [hf, ht] at hok
          | br t2 args => rw [rewriteCondBlocks] at hok; simp [hf, ht] at hok
          | condBr cc tT tA fT fA => rw [rewriteCondBlocks] at hok; simp [hf, ht] at hok

/-- The condition-block rewrite only advances the value counter. -/
theorem rcb_nb (src : List Blk) (sb : Nat → Nat)
    (condEntryId bodyEntryId tailId : Nat) (RR : List Blk) (c : Counters)
    (RR2 : List Blk) (c2 : Counters)
    (hp : (rewriteCondBlocks src sb condEntryId bodyEntryId tailId RR c).payload?
      = some (RR2, c2)) :
    c2.nb = c.nb := by
  induction src generalizing RR c with
  | nil =>
      simp only [rewriteCondBlocks, LowRes.payload?, Option.some.injEq,
        Prod.mk.injEq] at hp
      rw [hp.2]
  | cons b rest ih =>
      cases hf : findBlk RR (sb b.bid) with
      | none =>
          simp only [rewriteCondBlocks, hf, LowRes.payload?, Option.some.injEq,
            Prod.mk.injEq] at hp
          rw [hp.2]
      | some blk =>
          cases ht : blk.term with
          | ret args =>
              cases args with
              | nil => simp [rewriteCondBlocks, hf, ht, LowRes.payload?] at hp
              | cons v vs =>
                  cases hce : findBlk RR condEntryId with
                  | none => simp [rewriteCondBlocks, hf, ht, hce, LowRes.payload?] at hp
                  | some condEntry =>
                      rw [rewriteCondBlocks] at hp
                      simp only [hf, ht, hce] at hp
                      exact ih (setOpsTermFirst (sb b.bid) (blk.ops ++ [.simple (.extractElementOp c.nv v)])
                        (.condBr c.nv bodyEntryId condEntry.params tailId condEntry.params) RR)
                        ⟨c.nv + 1, c.nb, c.nop⟩ hp
          | stdRet args =>
              simp only [rewriteCondBlocks, hf, ht, LowRes.payload?, Option.some.injEq,
                Prod.mk.injEq] at hp
              rw [hp.2]
          | br t2 args =>
              simp only [rewriteCondBlocks, hf, ht, LowRes.payload?, Option.some.injEq,
                Prod.mk.injEq] at hp
              rw [hp.2]
          | condBr cc tT tA fT fA =>
              simp only [rewriteCondBlocks, hf, ht, LowRes.payload?, Option.some.injEq,
                Prod.mk.injEq] at hp
              rw [hp.2]

/-- Block identifiers over op-list concatenation. -/
theorem blkIdsOps_append (l1 l2 : List Op) :
    blkIdsOps (l1 ++ l2) = blkIdsOps l1 ++ blkIdsOps l2 := by
  induction l1 with
  | nil => simp [blkIdsOps]
  | cons o rest ih => simp [blkIdsOps, ih]

/-- Block identifiers over region concatenation. -/
theorem blkIdsBlks_append (l1 l2 : List Blk) :
    blkIdsBlks (l1 ++ l2) = blkIdsBlks l1 ++ blkIdsBlks l2 := by
  induction l1 with
  | nil => simp [blkIdsBlks]
  | cons b rest ih => simp [blkIdsBlks, ih]

mutual
/-- The identifier bound holds of an operation iff every collected block
identifier is below the bound. -/
theorem blkIdsBelowOp_iff (n : Nat) :
    ∀ op : Op, blkIdsBelowOp n op = true ↔ ∀ x ∈ blkIdsOp op, x < n
  | .simple s => by simp [blkIdsBelowOp, blkIdsOp]
  | .conditional oid res p t f tr fr => by
      simp [blkIdsBelowOp, blkIdsOp, Bool.and_eq_true, blkIdsBelowBlks_iff n tr,
        blkIdsBelowBlks_iff n fr, List.forall_mem_append]
      exact ⟨fun h x hx => hx.elim (h.1 x) (h.2 x),
        fun h => ⟨fun x hx => h x (Or.inl hx), fun x hx => h x (Or.inr hx)⟩⟩
  | .whileOp oid res init cr bd => by
      simp [blkIdsBelowOp, blkIdsOp, Bool.and_eq_true, blkIdsBelowBlks_iff n cr,
        blkIdsBelowBlks_iff n bd, List.forall_mem_append]
      exact ⟨fun h x hx => hx.elim (h.1 x) (h.2 x),
        fun h => ⟨fun x hx => h x (Or.inl hx), fun x hx => h x (Or.inr hx)⟩⟩

/-- The identifier bound over an op list, as a membership statement. -/
theorem blkIdsBelowOps_iff (n : Nat) :
    ∀ ops : List Op, blkIdsBelowOps n ops = true ↔ ∀ x ∈ blkIdsOps ops, x < n
  | [] => by simp [blkIdsBelowOps, blkIdsOps]
  | o :: rest => by
      simp [blkIdsBelowOps, blkIdsOps, Bool.and_eq_true, blkIdsBelowOp_iff n o,
        blkIdsBelowOps_iff n rest, List.forall_mem_append]
      exact ⟨fun h x hx => hx.elim (h.1 x) (h.2 x),
        fun h => ⟨fun x hx => h x (Or.inl hx), fun x hx => h x (Or.inr hx)⟩⟩

/-- The identifier bound over a block, as a membership statement. -/
theorem blkIdsBelowBlk_iff (n : Nat) :
    ∀ b : Blk, blkIdsBelowBlk n b = true ↔ ∀ x ∈ blkIdsBlk b, x < n
  | .mk bid ps ops t => by
      simp [blkIdsBelowBlk, blkIdsBlk, Bool.and_eq_true, blkIdsBelowOps_iff n ops,
        List.forall_mem_cons]

/-- The identifier bound over a region, as a membership statement. -/
theorem blkIdsBelowBlks_iff (n : Nat) :
    ∀ R : List Blk, blkIdsBelowBlks n R = true ↔ ∀ x ∈ blkIdsBlks R, x < n
  | [] => by simp [blkIdsBelowBlks, blkIdsBlks]
  | b :: rest => by
      simp [blkIdsBelowBlks, blkIdsBlks, Bool.and_eq_true, blkIdsBelowBlk_iff n b,
        blkIdsBelowBlks_iff n rest, List.forall_mem_append]
      exact ⟨fun h x hx => hx.elim (h.1 x) (h.2 x),
        fun h => ⟨fun x hx => h x (Or.inl hx), fun x hx => h x (Or.inr hx)⟩⟩
end

mutual
/-- Cloning maps an operation's block identifiers through the block
renaming. -/
theorem blkIds_renameOp (sv sb so : Nat → Nat) :
    ∀ op : Op, blkIdsOp (renameOp sv sb so op) = (blkIdsOp op).map sb
  | .simple s => by simp [renameOp, blkIdsOp]
  | .conditional oid res p t f tr fr => by
      simp [renameOp, blkIdsOp, blkIds_renameBlks sv sb so tr,
        blkIds_renameBlks sv sb so fr]
  | .whileOp oid res init cr bd => by
      simp [renameOp, blkIdsOp, blkIds_renameBlks sv sb so cr,
        blkIds_renameBlks sv sb so bd]

/-- Cloning maps an op list's block identifiers through the renaming. -/
theorem blkIds_renameOps (sv sb so : Nat → Nat) :
    ∀ ops : List Op, blkIdsOps (renameOps sv sb so ops) = (blkIdsOps ops).map sb
  | [] => by simp [renameOps, blkIdsOps]
  | o :: rest => by
      simp [renameOps, blkIdsOps, blkIds_renameOp sv sb so o,
        blkIds_renameOps sv sb so rest]

/-- Cloning maps a block's identifiers through the renaming. -/
theorem blkIds_renameBlk (sv sb so : Nat → Nat) :
    ∀ b : Blk, blkIdsBlk (renameBlk sv sb so b) = (blkIdsBlk b).map sb
  | .mk bid ps ops t => by
      simp [renameBlk, blkIdsBlk, blkIds_renameOps sv sb so ops]

/-- Cloning maps a region's block identifiers through the renaming. -/
theorem blkIds_renameBlks (sv sb so : Nat → Nat) :
    ∀ R : List Blk, blkIdsBlks (renameBlks sv sb so R) = (blkIdsBlks R).map sb
  | [] => by simp [renameBlks, blkIdsBlks]
  | b :: rest => by
      simp [renameBlks, blkIdsBlks, blkIds_renameBlk sv sb so b,
        blkIds_renameBlks sv sb so rest]
end

mutual
/-- Use-substitution keeps an operation's block identifiers. -/
theorem blkIds_substOp (a bb : Nat) :
    ∀ op : Op, blkIdsOp (substOp a bb op) = blkIdsOp op
  | .simple s => by simp [substOp, blkIdsOp]
  | .conditional oid res p t f tr fr => by
      simp [substOp, blkIdsOp, blkIds_substBlks a bb tr, blkIds_substBlks a bb fr]
  | .whileOp oid res init cr bd => by
      simp [substOp, blkIdsOp, blkIds_substBlks a bb cr, blkIds_substBlks a bb bd]

/-- Use-substitution keeps an op list's block identifiers. -/
theorem blkIds_substOps (a bb : Nat) :
    ∀ ops : List Op, blkIdsOps (substOps a bb ops) = blkIdsOps ops
  | [] => by simp [substOps, blkIdsOps]
  | o :: rest => by
      simp [substOps, blkIdsOps, blkIds_substOp a bb o, blkIds_substOps a bb rest]

/-- Use-substitution keeps a block's identifiers. -/
theorem blkIds_substBlk (a bb : Nat) :
    ∀ b : Blk, blkIdsBlk (substBlk a bb b) = blkIdsBlk b
  | .mk bid ps ops t => by
      simp [substBlk, blkIdsBlk, blkIds_substOps a bb ops]

/-- Use-substitution keeps a region's block identifiers. -/
theorem blkIds_substBlks (a bb : Nat) :
    ∀ R : List Blk, blkIdsBlks (substBlks a bb R) = blkIdsBlks R
  | [] => by simp [substBlks, blkIdsBlks]
  | b :: rest => by
      simp [substBlks, blkIdsBlks, blkIds_substBlk a bb b, blkIds_substBlks a bb rest]
end

/-- Rewriting a terminator keeps the region's block identifiers. -/
theorem blkIds_setTermFirst (bid : Nat) (t : Term) (RR : List Blk) :
    blkIdsBlks (setTermFirst bid t RR) = blkIdsBlks RR := by
  induction RR with
  | nil => rfl
  | cons b rest ih =>
      cases b with
      | mk b2 ps ops2 t2 =>
          by_cases h : b2 = bid
          · simp [setTermFirst, Blk.bid, h, blkIdsBlks, blkIdsBlk, Blk.params, Blk.ops]
          · simp [setTermFirst, Blk.bid, h, blkIdsBlks, ih]

/-- Overwriting the looked-up block's operations by ones with the same
collected identifiers keeps the region's block identifiers. -/
theorem blkIds_setOpsTermFirst (bid : Nat) (ops : List Op) (t : Term)
    (RR : List Blk) (blk : Blk) (hf : findBlk RR bid = some blk)
    (hsame : blkIdsOps ops = blkIdsOps blk.ops) :
    blkIdsBlks (setOpsTermFirst bid ops t RR) = blkIdsBlks RR := by
  induction RR with
  | nil => simp [findBlk] at hf
  | cons b rest ih =>
      cases b with
      | mk b2 ps ops2 t2 =>
          by_cases h : b2 = bid
          · subst h
            rw [findBlk_cons_self] at hf
            simp only [Option.some.injEq] at hf
            subst hf
            simp only [Blk.ops] at hsame
            simp [setOpsTermFirst, Blk.bid, blkIdsBlks, blkIdsBlk, Blk.params, hsame]
          · rw [findBlk_cons_ne b2 bid ps ops2 t2 rest h] at hf
            simp [setOpsTermFirst, Blk.bid, h, blkIdsBlks, ih hf]

/-- Adding a block parameter keeps the region's block identifiers. -/
theorem blkIds_addParamFirst (bid : Nat) (p : Nat) (RR : List Blk) :
    blkIdsBlks (addParamFirst bid p RR) = blkIdsBlks RR := by
  induction RR with
  | nil => rfl
  | cons b rest ih =>
      cases b with
      | mk b2 ps ops2 t2 =>
          by_cases h : b2 = bid
          · simp [addParamFirst, Blk.bid, h, blkIdsBlks, blkIdsBlk, Blk.ops, Blk.term,
              Blk.params]
          · simp [addParamFirst, Blk.bid, h, blkIdsBlks, ih]

/-- Block identifiers of an op-list tail are among those of the list. -/
theorem blkIdsOps_tail (ops : List Op) :
    ∀ x ∈ blkIdsOps ops.tail, x ∈ blkIdsOps ops := by
  cases ops with
  | nil => intro x hx; exact hx
  | cons o rest =>
      intro x hx
      simp only [blkIdsOps, List.mem_append]
      exact Or.inr hx

/-- Erasing the leading operation of a block only removes identifiers. -/
theorem blkIds_dropHeadOpFirst (bid : Nat) (RR : List Blk) :
    ∀ x ∈ blkIdsBlks (dropHeadOpFirst bid RR), x ∈ blkIdsBlks RR := by
  induction RR with
  | nil => intro x hx; exact hx
  | cons b rest ih =>
      cases b with
      | mk b2 ps ops2 t2 =>
          by_cases h : b2 = bid
          · intro x hx
            simp only [dropHeadOpFirst, Blk.bid, if_pos h, blkIdsBlks, blkIdsBlk,
              Blk.params, Blk.ops, Blk.term, List.mem_append, List.mem_cons] at hx ⊢
            rcases hx with hx | hx
            · rcases hx with hx | hx
              · exact Or.inl (Or.inl hx)
              · exact Or.inl (Or.inr (blkIdsOps_tail ops2 x hx))
            · exact Or.inr hx
          · intro x hx
            simp only [dropHeadOpFirst, Blk.bid, if_neg h, blkIdsBlks,
              List.mem_append] at hx ⊢
            rcases hx with hx | hx
            · exact Or.inl hx
            · exact Or.inr (ih x hx)

/-- Terminator rewriting keeps the region's block identifiers. -/
theorem RT_blkIds (src : List Blk) (sb : Nat → Nat) (tailId : Nat)
    (RR : List Blk) :
    blkIdsBlks (ReplaceTerminators src sb tailId RR).1 = blkIdsBlks RR := by
  induction src generalizing RR with
  | nil => rfl
  | cons b rest ih =>
      cases hf : findBlk RR (sb b.bid) with
      | none => simp [ReplaceTerminators, hf]
      | some blk =>
          cases ht : blk.term with
          | ret args =>
              simp only [ReplaceTerminators, hf, ht]
              rw [ih]
              exact blkIds_setTermFirst _ _ _
          | stdRet args => simp [ReplaceTerminators, hf, ht]
          | br t2 args => simp [ReplaceTerminators, hf, ht]
          | condBr c tT tA fT fA => simp [ReplaceTerminators, hf, ht]

/-- The body-block rewrite keeps the region's block identifiers. -/
theorem rbb_blkIds (src : List Blk) (sb : Nat → Nat) (condEntryId : Nat)
    (RR : List Blk) :
    blkIdsBlks (rewriteBodyBlocks src sb condEntryId RR).1 = blkIdsBlks RR := by
  induction src generalizing RR with
  | nil => rfl
  | cons b rest ih =>
      cases hf : findBlk RR (sb b.bid) with
      | none => simp [rewriteBodyBlocks, hf]
      | some blk =>
          cases ht : blk.term with
          | ret args =>
              simp only [rewriteBodyBlocks, hf, ht]
              rw [ih]
              exact blkIds_setTermFirst _ _ _
          | stdRet args => simp [rewriteBodyBlocks, hf, ht]
          | br t2 args => simp [rewriteBodyBlocks, hf, ht]
          | condBr c tT tA fT fA => simp [rewriteBodyBlocks, hf, ht]

/-- The condition-block rewrite keeps the region's block identifiers (the
appended extraction is a simple operation holding none). -/
theorem rcb_blkIds (src : List Blk) (sb : Nat → Nat)
    (condEntryId bodyEntryId tailId : Nat) (RR : List Blk) (c : Counters)
    (RR2 : List Blk) (c2 : Counters)
    (hp : (rewriteCondBlocks src sb condEntryId bodyEntryId tailId RR c).payload?
      = some (RR2, c2)) :
    blkIdsBlks RR2 = blkIdsBlks RR := by
  induction src generalizing RR c with
  | nil =>
      simp only [rewriteCondBlocks, LowRes.payload?, Option.some.injEq,
        Prod.mk.injEq] at hp
      rw [hp.1]
  | cons b rest ih =>
      cases hf : findBlk RR (sb b.bid) with
      | none =>
          simp only [rewriteCondBlocks, hf, LowRes.payload?, Option.some.injEq,
            Prod.mk.injEq] at hp
          rw [hp.1]
      | some blk =>
          cases ht : blk.term with
          | ret args =>
              cases args with
              | nil => simp [rewriteCondBlocks, hf, ht, LowRes.payload?] at hp
              | cons v vs =>
                  cases hce : findBlk RR condEntryId with
                  | none => simp [rewriteCondBlocks, hf, ht, hce, LowRes.payload?] at hp
                  | some condEntry =>
                      rw [rewriteCondBlocks] at hp
                      simp only [hf, ht, hce] at hp
                      have h1 := ih (setOpsTermFirst (sb b.bid) (blk.ops ++ [.simple (.extractElementOp c.nv v)])
                        (.condBr c.nv bodyEntryId condEntry.params tailId condEntry.params) RR)
                        ⟨c.nv + 1, c.nb, c.nop⟩ hp
                      rw [h1]
                      exact blkIds_setOpsTermFirst _ _ _ RR blk hf
                        (by simp [blkIdsOps_append, blkIdsOps, blkIdsOp])
          | stdRet args =>
              simp only [rewriteCondBlocks, hf, ht, LowRes.payload?, Option.some.injEq,
                Prod.mk.injEq] at hp
              rw [hp.1]
          | br t2 args =>
              simp only [rewriteCondBlocks, hf, ht, LowRes.payload?, Option.some.injEq,
                Prod.mk.injEq] at hp
              rw [hp.1]
          | condBr cc tT tA fT fA =>
              simp only [rewriteCondBlocks, hf, ht, LowRes.payload?, Option.some.injEq,
                Prod.mk.injEq] at hp
              rw [hp.1]

/-- Conditional count of a one-block region. -/
theorem condCountBlks_singleton (b : Blk) : condCountBlks [b] = condCountBlk b := by
  simp [condCountBlks]

/-- While count of a one-block region. -/
theorem whileCountBlks_singleton (b : Blk) : whileCountBlks [b] = whileCountBlk b := by
  simp [whileCountBlks]

/-- Top-level Return count of a one-block region. -/
theorem topRetCount_singleton (b : Blk) :
    topRetCount [b] = if b.term.isRet then 1 else 0 := by
  simp [topRetCount]

/-- Block identifiers of a one-block region. -/
theorem blkIdsBlks_singleton (b : Blk) : blkIdsBlks [b] = blkIdsBlk b := by
  simp [blkIdsBlks]

/-- Full accounting for a successful `LowerConditionalOp` rewrite: exactly
one Conditional disappears (the erased op; its cloned regions keep their
nested counts), the while count is unchanged, exactly one top-level Return
per cloned block is consumed (so the rewrite trades the clones' Returns for
branches), the block counter quadruples past the split point, and every
block identifier of the result stays below the advanced counter. -/
theorem LowerConditionalOpCore_ok_master (pre : List Blk) (bbid : Nat)
    (bparams : List Nat) (opsPre : List Op) (oid : Nat) (res pred targ farg : Nat)
    (tE : Blk) (tR : List Blk) (fE : Blk) (fR : List Blk)
    (opsPost : List Op) (bterm : Term) (post : List Blk) (c : Counters)
    (hpreNe : ∀ b ∈ pre, b.bid ≠ c.nb) (hbbid : bbid ≠ c.nb)
    (hbT : ∀ y ∈ blkIdsBlks (tE :: tR), y < c.nb)
    (hbF : ∀ y ∈ blkIdsBlks (fE :: fR), y < c.nb)
    (hbPre : ∀ y ∈ blkIdsBlks pre, y < c.nb)
    (hbPost : ∀ y ∈ blkIdsBlks post, y < c.nb)
    (hbB : bbid < c.nb)
    (hbOpsPre : ∀ y ∈ blkIdsOps opsPre, y < c.nb)
    (hbOpsPost : ∀ y ∈ blkIdsOps opsPost, y < c.nb)
    (RR' : List Blk) (c' : Counters)
    (hok : LowerConditionalOpCore pre bbid bparams opsPre oid res pred targ farg
        (tE :: tR) (fE :: fR) opsPost bterm post c = .ok (RR', c')) :
    condCountBlks RR' + 1 = condCountBlks (pre ++ [Blk.mk bbid bparams
        (opsPre ++ .conditional oid res pred targ farg (tE :: tR) (fE :: fR) :: opsPost)
        bterm] ++ post)
    ∧ whileCountBlks RR' = whileCountBlks (pre ++ [Blk.mk bbid bparams
        (opsPre ++ .conditional oid res pred targ farg (tE :: tR) (fE :: fR) :: opsPost)
        bterm] ++ post)
    ∧ topRetCount RR' + (tE :: tR).length + (fE :: fR).length
        = topRetCount (pre ++ [Blk.mk bbid bparams
            (opsPre ++ .conditional oid res pred targ farg (tE :: tR) (fE :: fR) :: opsPost)
            bterm] ++ post)
          + topRetCount (tE :: tR) + topRetCount (fE :: fR)
    ∧ c'.nb = (c.nb + 1) * 2 * 2
    ∧ blkIdsBelowBlks ((c.nb + 1) * 2 * 2) RR' = true := by
  simp only [LowerConditionalOpCore, cloneRegion] at hok
  have hT1 : findBlk (pre ++ [Blk.mk bbid bparams
      (opsPre ++ [.simple (.extractElementOp (c.nv * 2 * 2) pred)])
      (.condBr (c.nv * 2 * 2) (mkSubst (blkIdsBlks (tE :: tR)) (c.nb + 1) tE.bid) [targ]
        (mkSubst (blkIdsBlks (fE :: fR)) ((c.nb + 1) * 2) fE.bid) [farg])] ++
      renameBlks (mkSubst (defsBlks (tE :: tR)) c.nv)
        (mkSubst (blkIdsBlks (tE :: tR)) (c.nb + 1)) (mkSubst (opIdsBlks (tE :: tR)) c.nop)
        (tE :: tR) ++
      renameBlks (mkSubst (defsBlks (fE :: fR)) (c.nv * 2))
        (mkSubst (blkIdsBlks (fE :: fR)) ((c.nb + 1) * 2))
        (mkSubst (opIdsBlks (fE :: fR)) (c.nop * 2)) (fE :: fR) ++
      [Blk.mk c.nb []
        (.conditional oid res pred targ farg (tE :: tR) (fE :: fR) :: opsPost) bterm] ++
      post) c.nb = some (Blk.mk c.nb []
        (.conditional oid res pred targ farg (tE :: tR) (fE :: fR) :: opsPost) bterm) := by
    have hTmiss : ∀ b2 ∈ renameBlks (mkSubst (defsBlks (tE :: tR)) c.nv)
        (mkSubst (blkIdsBlks (tE :: tR)) (c.nb + 1)) (mkSubst (opIdsBlks (tE :: tR)) c.nop)
        (tE :: tR), b2.bid ≠ c.nb := by
      intro b2 hb2
      obtain ⟨b, hb, rfl⟩ := mem_renameBlks _ _ _ _ b2 hb2
      rw [renameBlk_bid]
      have hm := bid_mem_blkIds _ b hb
      simp only [mkSubst]
      rw [if_pos hm]
      omega
    have hFmiss : ∀ b2 ∈ renameBlks (mkSubst (defsBlks (fE :: fR)) (c.nv * 2))
        (mkSubst (blkIdsBlks (fE :: fR)) ((c.nb + 1) * 2))
        (mkSubst (opIdsBlks (fE :: fR)) (c.nop * 2)) (fE :: fR), b2.bid ≠ c.nb := by
      intro b2 hb2
      obtain ⟨b, hb, rfl⟩ := mem_renameBlks _ _ _ _ b2 hb2
      rw [renameBlk_bid]
      have hm := bid_mem_blkIds _ b hb
      simp only [mkSubst]
      rw [if_pos hm]
      omega
    have hPmiss : ∀ b2 ∈ [Blk.mk bbid bparams
        (opsPre ++ [Op.simple (SimpleOp.extractElementOp (c.nv * 2 * 2) pred)])
        (Term.condBr (c.nv * 2 * 2) (mkSubst (blkIdsBlks (tE :: tR)) (c.nb + 1) tE.bid) [targ]
          (mkSubst (blkIdsBlks (fE :: fR)) ((c.nb + 1) * 2) fE.bid) [farg])],
        b2.bid ≠ c.nb := by
      intro b2 hb2
      rcases List.mem_singleton.mp hb2 with rfl
      simpa [Blk.bid] using hbbid
    rw [List.append_assoc, List.append_assoc, List.append_assoc, List.append_assoc]
    rw [findBlk_append, findBlk_eq_none pre c.nb hpreNe]
    dsimp only
    rw [findBlk_append, findBlk_eq_none _ _ hPmiss]
    dsimp only
    rw [findBlk_append, findBlk_eq_none _ _ hTmiss]
    dsimp only
    rw [findBlk_append, findBlk_eq_none _ _ hFmiss]
    dsimp only
    rw [findBlk_append]
    simp [findBlk, List.find?, Blk.bid]
  have htImg : ∀ b ∈ tE :: tR,
      mkSubst (blkIdsBlks (tE :: tR)) (c.nb + 1) b.bid ≠ c.nb := by
    intro b hb
    have hm := bid_mem_blkIds _ b hb
    simp only [mkSubst]
    rw [if_pos hm]
    omega
  have hfImg : ∀ b ∈ fE :: fR,
      mkSubst (blkIdsBlks (fE :: fR)) ((c.nb + 1) * 2) b.bid ≠ c.nb := by
    intro b hb
    have hm := bid_mem_blkIds _ b hb
    simp only [mkSubst]
    rw [if_pos hm]
    omega
  generalize hgen : (pre ++ [Blk.mk bbid bparams
      (opsPre ++ [.simple (.extractElementOp (c.nv * 2 * 2) pred)])
      (.condBr (c.nv * 2 * 2) (mkSubst (blkIdsBlks (tE :: tR)) (c.nb + 1) tE.bid) [targ]
        (mkSubst (blkIdsBlks (fE :: fR)) ((c.nb + 1) * 2) fE.bid) [farg])] ++
      renameBlks (mkSubst (defsBlks (tE :: tR)) c.nv)
        (mkSubst (blkIdsBlks (tE :: tR)) (c.nb + 1)) (mkSubst (opIdsBlks (tE :: tR)) c.nop)
        (tE :: tR) ++
      renameBlks (mkSubst (defsBlks (fE :: fR)) (c.nv * 2))
        (mkSubst (blkIdsBlks (fE :: fR)) ((c.nb + 1) * 2))
        (mkSubst (opIdsBlks (fE :: fR)) (c.nop * 2)) (fE :: fR) ++
      [Blk.mk c.nb []
        (.conditional oid res pred targ farg (tE :: tR) (fE :: fR) :: opsPost) bterm] ++
      post) = RR1 at hok hT1
  have hccRR1 : condCountBlks RR1 = condCountBlks pre + condCountOps opsPre
      + condCountBlks (tE :: tR) + condCountBlks (fE :: fR)
      + (1 + condCountBlks (tE :: tR) + condCountBlks (fE :: fR))
      + condCountOps opsPost + condCountBlks post := by
    rw [← hgen]
    simp only [condCountBlks_append, condCount_renameBlks, condCountBlks_singleton,
      condCountBlk, condCountOps_append, condCountOps, condCountOp]
    omega
  have hwcRR1 : whileCountBlks RR1 = whileCountBlks pre + whileCountOps opsPre
      + whileCountBlks (tE :: tR) + whileCountBlks (fE :: fR)
      + (whileCountBlks (tE :: tR) + whileCountBlks (fE :: fR))
      + whileCountOps opsPost + whileCountBlks post := by
    rw [← hgen]
    simp only [whileCountBlks_append, whileCount_renameBlks, whileCountBlks_singleton,
      whileCountBlk, whileCountOps_append, whileCountOps, whileCountOp]
    omega
  have hTrRR1 : topRetCount RR1 = topRetCount (pre ++ [Blk.mk bbid bparams
      (opsPre ++ .conditional oid res pred targ farg (tE :: tR) (fE :: fR) :: opsPost)
      bterm] ++ post) + topRetCount (tE :: tR) + topRetCount (fE :: fR) := by
    rw [← hgen]
    simp only [topRetCount_append, topRetCount_renameBlks, topRetCount_singleton,
      Blk.term, Term.isRet, Bool.false_eq_true, if_false]
    omega
  have hIdsRR1 : ∀ x ∈ blkIdsBlks RR1, x < (c.nb + 1) * 2 * 2 := by
    intro x hx
    rw [← hgen] at hx
    simp only [blkIdsBlks_append, blkIds_renameBlks, blkIdsBlks_singleton, blkIdsBlk,
      blkIdsOps_append, blkIdsOps, blkIdsOp, List.append_nil, List.nil_append,
      List.mem_append, List.mem_cons, List.mem_map] at hx
    rcases hx with ((((hx | (hx | hx)) | ⟨y, hy, hxy⟩) | ⟨y, hy, hxy⟩) |
      (hx | ((hx | hx) | hx))) | hx
    · have := hbPre x hx
      omega
    · omega
    · have := hbOpsPre x hx
      omega
    · have := hbT y hy
      simp only [mkSubst] at hxy
      rw [if_pos hy] at hxy
      omega
    · have := hbF y hy
      simp only [mkSubst] at hxy
      rw [if_pos hy] at hxy
      omega
    · omega
    · have := hbT x hx
      omega
    · have := hbF x hx
      omega
    · have := hbOpsPost x hx
      omega
    · have := hbPost x hx
      omega
  rcases h1 : ReplaceTerminators (tE :: tR) (mkSubst (blkIdsBlks (tE :: tR)) (c.nb + 1))
      c.nb RR1 with ⟨RR2, ok1⟩
  rw [h1] at hok
  cases ok1 with
  | false => exact absurd hok (by simp)
  | true =>
      dsimp only at hok
      rcases h2 : ReplaceTerminators (fE :: fR)
          (mkSubst (blkIdsBlks (fE :: fR)) ((c.nb + 1) * 2)) c.nb RR2 with ⟨RR3, ok2⟩
      rw [h2] at hok
      cases ok2 with
      | false => exact absurd hok (by simp)
      | true =>
          dsimp only at hok
          simp only [LowRes.ok.injEq, Prod.mk.injEq] at hok
          obtain ⟨hRRfin, hcfin⟩ := hok
          have hcc2 := RT_condCount (tE :: tR)
            (mkSubst (blkIdsBlks (tE :: tR)) (c.nb + 1)) c.nb RR1
          rw [h1] at hcc2
          have hwc2 := RT_whileCount (tE :: tR)
            (mkSubst (blkIdsBlks (tE :: tR)) (c.nb + 1)) c.nb RR1
          rw [h1] at hwc2
          have hTr2 := RT_topRet (tE :: tR)
            (mkSubst (blkIdsBlks (tE :: tR)) (c.nb + 1)) c.nb RR1 (by rw [h1])
          rw [h1] at hTr2
          have hIds2 := RT_blkIds (tE :: tR)
            (mkSubst (blkIdsBlks (tE :: tR)) (c.nb + 1)) c.nb RR1
          rw [h1] at hIds2
          have hcc3 := RT_condCount (fE :: fR)
            (mkSubst (blkIdsBlks (fE :: fR)) ((c.nb + 1) * 2)) c.nb RR2
          rw [h2] at hcc3
          have hwc3 := RT_whileCount (fE :: fR)
            (mkSubst (blkIdsBlks (fE :: fR)) ((c.nb + 1) * 2)) c.nb RR2
          rw [h2] at hwc3
          have hTr3 := RT_topRet (fE :: fR)
            (mkSubst (blkIdsBlks (fE :: fR)) ((c.nb + 1) * 2)) c.nb RR2 (by rw [h2])
          rw [h2] at hTr3
          have hIds3 := RT_blkIds (fE :: fR)
            (mkSubst (blkIdsBlks (fE :: fR)) ((c.nb + 1) * 2)) c.nb RR2
          rw [h2] at hIds3
          dsimp only at hcc2 hwc2 hTr2 hIds2 hcc3 hwc3 hTr3 hIds3
          have hRR2find : findBlk RR2 c.nb = some (Blk.mk c.nb []
              (.conditional oid res pred targ farg (tE :: tR) (fE :: fR) :: opsPost)
              bterm) := by
            have huq := ReplaceTerminators_untouched (tE :: tR)
              (mkSubst (blkIdsBlks (tE :: tR)) (c.nb + 1)) c.nb RR1 c.nb htImg
            rw [h1] at huq
            rw [← hT1]
            exact huq
          have hRR3find : findBlk RR3 c.nb = some (Blk.mk c.nb []
              (.conditional oid res pred targ farg (tE :: tR) (fE :: fR) :: opsPost)
              bterm) := by
            have huq := ReplaceTerminators_untouched (fE :: fR)
              (mkSubst (blkIdsBlks (fE :: fR)) ((c.nb + 1) * 2)) c.nb RR2 c.nb hfImg
            rw [h2] at huq
            rw [← hRR2find]
            exact huq
          have hfind4 : findBlk (addParamFirst c.nb (c.nv * 2 * 2 + 1) RR3) c.nb
              = some (Blk.mk c.nb [c.nv * 2 * 2 + 1]
                (.conditional oid res pred targ farg (tE :: tR) (fE :: fR) :: opsPost)
                bterm) := by
            rw [findBlk_addParamFirst_same, hRR3find]
            simp [Blk.bid, Blk.params, Blk.ops, Blk.term]
          have hfind5 : findBlk (substBlks res (c.nv * 2 * 2 + 1)
                (addParamFirst c.nb (c.nv * 2 * 2 + 1) RR3)) c.nb
              = some (Blk.mk c.nb [c.nv * 2 * 2 + 1]
                (substOp res (c.nv * 2 * 2 + 1)
                    (.conditional oid res pred targ farg (tE :: tR) (fE :: fR))
                  :: substOps res (c.nv * 2 * 2 + 1) opsPost)
                (substTerm res (c.nv * 2 * 2 + 1) bterm)) := by
            rw [findBlk_substBlks, hfind4]
            simp [substBlk, substOps]
          have hccF : condCountBlks RR' + condCountOp (substOp res (c.nv * 2 * 2 + 1)
              (.conditional oid res pred targ farg (tE :: tR) (fE :: fR)))
              = condCountBlks (substBlks res (c.nv * 2 * 2 + 1)
                  (addParamFirst c.nb (c.nv * 2 * 2 + 1) RR3)) := by
            rw [← hRRfin]
            exact condCount_dropHeadOpFirst c.nb _ _ _ _ hfind5 rfl
          have hwcF : whileCountBlks RR' + whileCountOp (substOp res (c.nv * 2 * 2 + 1)
              (.conditional oid res pred targ farg (tE :: tR) (fE :: fR)))
              = whileCountBlks (substBlks res (c.nv * 2 * 2 + 1)
                  (addParamFirst c.nb (c.nv * 2 * 2 + 1) RR3)) := by
            rw [← hRRfin]
            exact whileCount_dropHeadOpFirst c.nb _ _ _ _ hfind5 rfl
          have hTrF : topRetCount RR' = topRetCount RR3 := by
            rw [← hRRfin, topRet_dropHeadOpFirst, topRetCount_substBlks,
              topRet_addParamFirst]
          have hcc45 : condCountBlks (substBlks res (c.nv * 2 * 2 + 1)
              (addParamFirst c.nb (c.nv * 2 * 2 + 1) RR3)) = condCountBlks RR3 := by
            rw [condCount_substBlks, condCount_addParamFirst]
          have hwc45 : whileCountBlks (substBlks res (c.nv * 2 * 2 + 1)
              (addParamFirst c.nb (c.nv * 2 * 2 + 1) RR3)) = whileCountBlks RR3 := by
            rw [whileCount_substBlks, whileCount_addParamFirst]
          have hccSub : condCountOp (substOp res (c.nv * 2 * 2 + 1)
              (.conditional oid res pred targ farg (tE :: tR) (fE :: fR)))
              = 1 + condCountBlks (tE :: tR) + condCountBlks (fE :: fR) := by
            rw [condCount_substOp]
            rfl
          have hwcSub : whileCountOp (substOp res (c.nv * 2 * 2 + 1)
              (.conditional oid res pred targ farg (tE :: tR) (fE :: fR)))
              = whileCountBlks (tE :: tR) + whileCountBlks (fE :: fR) := by
            rw [whileCount_substOp]
            rfl
          have hccOrig : condCountBlks (pre ++ [Blk.mk bbid bparams
              (opsPre ++ .conditional oid res pred targ farg (tE :: tR) (fE :: fR)
                :: opsPost) bterm] ++ post)
              = condCountBlks pre + condCountOps opsPre
                + (1 + condCountBlks (tE :: tR) + condCountBlks (fE :: fR))
                + condCountOps opsPost + condCountBlks post := by
            simp only [condCountBlks_append, condCountBlks_singleton, condCountBlk,
              condCountOps_append, condCountOps, condCountOp]
            omega
          have hwcOrig : whileCountBlks (pre ++ [Blk.mk bbid bparams
              (opsPre ++ .conditional oid res pred targ farg (tE :: tR) (fE :: fR)
                :: opsPost) bterm] ++ post)
              = whileCountBlks pre + whileCountOps opsPre
                + (whileCountBlks (tE :: tR) + whileCountBlks (fE :: fR))
                + whileCountOps opsPost + whileCountBlks post := by
            simp only [whileCountBlks_append, whileCountBlks_singleton, whileCountBlk,
              whileCountOps_append, whileCountOps, whileCountOp]
            omega
          have hIdsF : blkIdsBelowBlks ((c.nb + 1) * 2 * 2) RR' = true := by
            rw [blkIdsBelowBlks_iff]
            intro x hx
            rw [← hRRfin] at hx
            have hx5 := blkIds_dropHeadOpFirst c.nb _ x hx
            rw [blkIds_substBlks, blkIds_addParamFirst, hIds3, hIds2] at hx5
            exact hIdsRR1 x hx5
          exact ⟨by omega, by omega, by omega, by rw [← hcfin], hIdsF⟩

/-- Full accounting for a successful `LowerWhileOp` rewrite: exactly one
While disappears, the conditional count is unchanged, exactly one top-level
Return per cloned block is consumed, the block counter quadruples past the
split point, and every block identifier of the result stays below the
advanced counter. -/
theorem LowerWhileOpCore_ok_master (pre : List Blk) (bbid : Nat)
    (bparams : List Nat) (opsPre : List Op) (oid : Nat) (res init : Nat)
    (cE : Blk) (cRest : List Blk) (bE : Blk) (bRest : List Blk)
    (opsPost : List Op) (bterm : Term) (post : List Blk) (c : Counters)
    (hpreNe : ∀ b ∈ pre, b.bid ≠ c.nb) (hbbid : bbid ≠ c.nb)
    (hbC : ∀ y ∈ blkIdsBlks (cE :: cRest), y < c.nb)
    (hbBo : ∀ y ∈ blkIdsBlks (bE :: bRest), y < c.nb)
    (hbPre : ∀ y ∈ blkIdsBlks pre, y < c.nb)
    (hbPost : ∀ y ∈ blkIdsBlks post, y < c.nb)
    (hbB : bbid < c.nb)
    (hbOpsPre : ∀ y ∈ blkIdsOps opsPre, y < c.nb)
    (hbOpsPost : ∀ y ∈ blkIdsOps opsPost, y < c.nb)
    (RR' : List Blk) (c' : Counters)
    (hok : LowerWhileOpCore pre bbid bparams opsPre oid res init
        (cE :: cRest) (bE :: bRest) opsPost bterm post c = .ok (RR', c')) :
    condCountBlks RR' = condCountBlks (pre ++ [Blk.mk bbid bparams
        (opsPre ++ .whileOp oid res init (cE :: cRest) (bE :: bRest) :: opsPost)
        bterm] ++ post)
    ∧ whileCountBlks RR' + 1 = whileCountBlks (pre ++ [Blk.mk bbid bparams
        (opsPre ++ .whileOp oid res init (cE :: cRest) (bE :: bRest) :: opsPost)
        bterm] ++ post)
    ∧ topRetCount RR' + (cE :: cRest).length + (bE :: bRest).length
        = topRetCount (pre ++ [Blk.mk bbid bparams
            (opsPre ++ .whileOp oid res init (cE :: cRest) (bE :: bRest) :: opsPost)
            bterm] ++ post)
          + topRetCount (cE :: cRest) + topRetCount (bE :: bRest)
    ∧ c'.nb = (c.nb + 1) * 2 * 2
    ∧ blkIdsBelowBlks ((c.nb + 1) * 2 * 2) RR' = true := by
  simp only [LowerWhileOpCore, cloneRegion] at hok
  have hT1 : findBlk (pre ++ [Blk.mk bbid bparams opsPre
      (.br (mkSubst (blkIdsBlks (cE :: cRest)) (c.nb + 1) cE.bid) [init])] ++
      renameBlks (mkSubst (defsBlks (cE :: cRest)) c.nv)
        (mkSubst (blkIdsBlks (cE :: cRest)) (c.nb + 1)) (mkSubst (opIdsBlks (cE :: cRest)) c.nop)
        (cE :: cRest) ++
      renameBlks (mkSubst (defsBlks (bE :: bRest)) (c.nv * 2))
        (mkSubst (blkIdsBlks (bE :: bRest)) ((c.nb + 1) * 2))
        (mkSubst (opIdsBlks (bE :: bRest)) (c.nop * 2)) (bE :: bRest) ++
      [Blk.mk c.nb []
        (.whileOp oid res init (cE :: cRest) (bE :: bRest) :: opsPost) bterm] ++
      post) c.nb = some (Blk.mk c.nb []
        (.whileOp oid res init (cE :: cRest) (bE :: bRest) :: opsPost) bterm) := by
    have hCmiss : ∀ b2 ∈ renameBlks (mkSubst (defsBlks (cE :: cRest)) c.nv)
        (mkSubst (blkIdsBlks (cE :: cRest)) (c.nb + 1)) (mkSubst (opIdsBlks (cE :: cRest)) c.nop)
        (cE :: cRest), b2.bid ≠ c.nb := by
      intro b2 hb2
      obtain ⟨b, hb, rfl⟩ := mem_renameBlks _ _ _ _ b2 hb2
      rw [renameBlk_bid]
      have hm := bid_mem_blkIds _ b hb
      simp only [mkSubst]
      rw [if_pos hm]
      omega
    have hBmiss : ∀ b2 ∈ renameBlks (mkSubst (defsBlks (bE :: bRest)) (c.nv * 2))
        (mkSubst (blkIdsBlks (bE :: bRest)) ((c.nb + 1) * 2))
        (mkSubst (opIdsBlks (bE :: bRest)) (c.nop * 2)) (bE :: bRest), b2.bid ≠ c.nb := by
      intro b2 hb2
      obtain ⟨b, hb, rfl⟩ := mem_renameBlks _ _ _ _ b2 hb2
      rw [renameBlk_bid]
      have hm := bid_mem_blkIds _ b hb
      simp only [mkSubst]
      rw [if_pos hm]
      omega
    have hPmiss : ∀ b2 ∈ [Blk.mk bbid bparams opsPre
        (Term.br (mkSubst (blkIdsBlks (cE :: cRest)) (c.nb + 1) cE.bid) [init])],
        b2.bid ≠ c.nb := by
      intro b2 hb2
      rcases List.mem_singleton.mp hb2 with rfl
      simpa [Blk.bid] using hbbid
    rw [List.append_assoc, List.append_assoc, List.append_assoc, List.append_assoc]
    rw [findBlk_append, findBlk_eq_none pre c.nb hpreNe]
    dsimp only
    rw [findBlk_append, findBlk_eq_none _ _ hPmiss]
    dsimp only
    rw [findBlk_append, findBlk_eq_none _ _ hCmiss]
    dsimp only
    rw [findBlk_append, findBlk_eq_none _ _ hBmiss]
    dsimp only
    rw [findBlk_append]
    simp [findBlk, List.find?, Blk.bid]
  have hcImg : ∀ b ∈ cE :: cRest,
      mkSubst (blkIdsBlks (cE :: cRest)) (c.nb + 1) b.bid ≠ c.nb := by
    intro b hb
    have hm := bid_mem_blkIds _ b hb
    simp only [mkSubst]
    rw [if_pos hm]
    omega
  have hbImg : ∀ b ∈ bE :: bRest,
      mkSubst (blkIdsBlks (bE :: bRest)) ((c.nb + 1) * 2) b.bid ≠ c.nb := by
    intro b hb
    have hm := bid_mem_blkIds _ b hb
    simp only [mkSubst]
    rw [if_pos hm]
    omega
  generalize hgen : (pre ++ [Blk.mk bbid bparams opsPre
      (.br (mkSubst (blkIdsBlks (cE :: cRest)) (c.nb + 1) cE.bid) [init])] ++
      renameBlks (mkSubst (defsBlks (cE :: cRest)) c.nv)
        (mkSubst (blkIdsBlks (cE :: cRest)) (c.nb + 1)) (mkSubst (opIdsBlks (cE :: cRest)) c.nop)
        (cE :: cRest) ++
      renameBlks (mkSubst (defsBlks (bE :: bRest)) (c.nv * 2))
        (mkSubst (blkIdsBlks (bE :: bRest)) ((c.nb + 1) * 2))
        (mkSubst (opIdsBlks (bE :: bRest)) (c.nop * 2)) (bE :: bRest) ++
      [Blk.mk c.nb []
        (.whileOp oid res init (cE :: cRest) (bE :: bRest) :: opsPost) bterm] ++
      post) = RR1 at hok hT1
  have hccRR1 : condCountBlks RR1 = condCountBlks pre + condCountOps opsPre
      + condCountBlks (cE :: cRest) + condCountBlks (bE :: bRest)
      + (condCountBlks (cE :: cRest) + condCountBlks (bE :: bRest))
      + condCountOps opsPost + condCountBlks post := by
    rw [← hgen]
    simp only [condCountBlks_append, condCount_renameBlks, condCountBlks_singleton,
      condCountBlk, condCountOps_append, condCountOps, condCountOp]
    omega
  have hwcRR1 : whileCountBlks RR1 = whileCountBlks pre + whileCountOps opsPre
      + whileCountBlks (cE :: cRest) + whileCountBlks (bE :: bRest)
      + (1 + whileCountBlks (cE :: cRest) + whileCountBlks (bE :: bRest))
      + whileCountOps opsPost + whileCountBlks post := by
    rw [← hgen]
    simp only [whileCountBlks_append, whileCount_renameBlks, whileCountBlks_singleton,
      whileCountBlk, whileCountOps_append, whileCountOps, whileCountOp]
    omega
  have hTrRR1 : topRetCount RR1 = topRetCount (pre ++ [Blk.mk bbid bparams
      (opsPre ++ .whileOp oid res init (cE :: cRest) (bE :: bRest) :: opsPost)
      bterm] ++ post) + topRetCount (cE :: cRest) + topRetCount (bE :: bRest) := by
    rw [← hgen]
    simp only [topRetCount_append, topRetCount_renameBlks, topRetCount_singleton,
      Blk.term, Term.isRet, Bool.false_eq_true, if_false]
    omega
  have hIdsRR1 : ∀ x ∈ blkIdsBlks RR1, x < (c.nb + 1) * 2 * 2 := by
    intro x hx
    rw [← hgen] at hx
    simp only [blkIdsBlks_append, blkIds_renameBlks, blkIdsBlks_singleton, blkIdsBlk,
      blkIdsOps_append, blkIdsOps, blkIdsOp, List.append_nil, List.nil_append,
      List.mem_append, List.mem_cons, List.mem_map] at hx
    rcases hx with ((((hx | (hx | hx)) | ⟨y, hy, hxy⟩) | ⟨y, hy, hxy⟩) |
      (hx | ((hx | hx) | hx))) | hx
    · have := hbPre x hx
      omega
    · omega
    · have := hbOpsPre x hx
      omega
    · have := hbC y hy
      simp only [mkSubst] at hxy
      rw [if_pos hy] at hxy
      omega
    · have := hbBo y hy
      simp only [mkSubst] at hxy
      rw [if_pos hy] at hxy
      omega
    · omega
    · have := hbC x hx
      omega
    · have := hbBo x hx
      omega
    · have := hbOpsPost x hx
      omega
    · have := hbPost x hx
      omega
  cases h1 : rewriteCondBlocks (cE :: cRest) (mkSubst (blkIdsBlks (cE :: cRest)) (c.nb + 1))
      (mkSubst (blkIdsBlks (cE :: cRest)) (c.nb + 1) cE.bid)
      (mkSubst (blkIdsBlks (bE :: bRest)) ((c.nb + 1) * 2) bE.bid) c.nb RR1
      ⟨c.nv * 2 * 2, (c.nb + 1) * 2 * 2, c.nop * 2 * 2⟩ with
  | failed x =>
      rw [h1] at hok
      exact absurd hok (by simp)
  | crash =>
      rw [h1] at hok
      exact absurd hok (by simp)
  | ok x =>
      obtain ⟨RR2, c4⟩ := x
      rw [h1] at hok
      dsimp only at hok
      rcases h2 : rewriteBodyBlocks (bE :: bRest)
          (mkSubst (blkIdsBlks (bE :: bRest)) ((c.nb + 1) * 2))
          (mkSubst (blkIdsBlks (cE :: cRest)) (c.nb + 1) cE.bid) RR2 with ⟨RR3, ok2⟩
      rw [h2] at hok
      cases ok2 with
      | false => exact absurd hok (by simp)
      | true =>
          dsimp only at hok
          simp only [LowRes.ok.injEq, Prod.mk.injEq] at hok
          obtain ⟨hRRfin, hcfin⟩ := hok
          have hcc2 := rcb_condCount (cE :: cRest)
            (mkSubst (blkIdsBlks (cE :: cRest)) (c.nb + 1))
            (mkSubst (blkIdsBlks (cE :: cRest)) (c.nb + 1) cE.bid)
            (mkSubst (blkIdsBlks (bE :: bRest)) ((c.nb + 1) * 2) bE.bid) c.nb RR1
            ⟨c.nv * 2 * 2, (c.nb + 1) * 2 * 2, c.nop * 2 * 2⟩ RR2 c4 (by rw [h1]; rfl)
          have hwc2 := rcb_whileCount (cE :: cRest)
            (mkSubst (blkIdsBlks (cE :: cRest)) (c.nb + 1))
            (mkSubst (blkIdsBlks (cE :: cRest)) (c.nb + 1) cE.bid)
            (mkSubst (blkIdsBlks (bE :: bRest)) ((c.nb + 1) * 2) bE.bid) c.nb RR1
            ⟨c.nv * 2 * 2, (c.nb + 1) * 2 * 2, c.nop * 2 * 2⟩ RR2 c4 (by rw [h1]; rfl)
          have hTr2 := rcb_topRet (cE :: cRest)
            (mkSubst (blkIdsBlks (cE :: cRest)) (c.nb + 1))
            (mkSubst (blkIdsBlks (cE :: cRest)) (c.nb + 1) cE.bid)
            (mkSubst (blkIdsBlks (bE :: bRest)) ((c.nb + 1) * 2) bE.bid) c.nb RR1
            ⟨c.nv * 2 * 2, (c.nb + 1) * 2 * 2, c.nop * 2 * 2⟩ RR2 c4 h1
          have hIds2 := rcb_blkIds (cE :: cRest)
            (mkSubst (blkIdsBlks (cE :: cRest)) (c.nb + 1))
            (mkSubst (blkIdsBlks (cE :: cRest)) (c.nb + 1) cE.bid)
            (mkSubst (blkIdsBlks (bE :: bRest)) ((c.nb + 1) * 2) bE.bid) c.nb RR1
            ⟨c.nv * 2 * 2, (c.nb + 1) * 2 * 2, c.nop * 2 * 2⟩ RR2 c4 (by rw [h1]; rfl)
          have hnb4 := rcb_nb (cE :: cRest)
            (mkSubst (blkIdsBlks (cE :: cRest)) (c.nb + 1))
            (mkSubst (blkIdsBlks (cE :: cRest)) (c.nb + 1) cE.bid)
            (mkSubst (blkIdsBlks (bE :: bRest)) ((c.nb + 1) * 2) bE.bid) c.nb RR1
            ⟨c.nv * 2 * 2, (c.nb + 1) * 2 * 2, c.nop * 2 * 2⟩ RR2 c4 (by rw [h1]; rfl)
          dsimp only at hnb4
          have hcc3 := rbb_condCount (bE :: bRest)
            (mkSubst (blkIdsBlks (bE :: bRest)) ((c.nb + 1) * 2))
            (mkSubst (blkIdsBlks (cE :: cRest)) (c.nb + 1) cE.bid) RR2
          rw [h2] at hcc3
          have hwc3 := rbb_whileCount (bE :: bRest)
            (mkSubst (blkIdsBlks (bE :: bRest)) ((c.nb + 1) * 2))
            (mkSubst (blkIdsBlks (cE :: cRest)) (c.nb + 1) cE.bid) RR2
          rw [h2] at hwc3
          have hTr3 := rbb_topRet (bE :: bRest)
            (mkSubst (blkIdsBlks (bE :: bRest)) ((c.nb + 1) * 2))
            (mkSubst (blkIdsBlks (cE :: cRest)) (c.nb + 1) cE.bid) RR2 (by rw [h2])
          rw [h2] at hTr3
          have hIds3 := rbb_blkIds (bE :: bRest)
            (mkSubst (blkIdsBlks (bE :: bRest)) ((c.nb + 1) * 2))
            (mkSubst (blkIdsBlks (cE :: cRest)) (c.nb + 1) cE.bid) RR2
          rw [h2] at hIds3
          dsimp only at hcc3 hwc3 hTr3 hIds3
          have hRR2find : findBlk RR2 c.nb = some (Blk.mk c.nb []
              (.whileOp oid res init (cE :: cRest) (bE :: bRest) :: opsPost)
              bterm) := by
            have huq := rewriteCondBlocks_untouched (cE :: cRest)
              (mkSubst (blkIdsBlks (cE :: cRest)) (c.nb + 1))
              (mkSubst (blkIdsBlks (cE :: cRest)) (c.nb + 1) cE.bid)
              (mkSubst (blkIdsBlks (bE :: bRest)) ((c.nb + 1) * 2) bE.bid) c.nb RR1
              ⟨c.nv * 2 * 2, (c.nb + 1) * 2 * 2, c.nop * 2 * 2⟩ c.nb hcImg
              (RR2, c4) (by rw [h1]; rfl)
            rw [← hT1]
            exact huq
          have hRR3find : findBlk RR3 c.nb = some (Blk.mk c.nb []
              (.whileOp oid res init (cE :: cRest) (bE :: bRest) :: opsPost)
              bterm) := by
            have huq := rewriteBodyBlocks_untouched (bE :: bRest)
              (mkSubst (blkIdsBlks (bE :: bRest)) ((c.nb + 1) * 2))
              (mkSubst (blkIdsBlks (cE :: cRest)) (c.nb + 1) cE.bid) RR2 c.nb hbImg
            rw [h2] at huq
            rw [← hRR2find]
            exact huq
          have hfind4 : findBlk (addParamFirst c.nb c4.nv RR3) c.nb
              = some (Blk.mk c.nb [c4.nv]
                (.whileOp oid res init (cE :: cRest) (bE :: bRest) :: opsPost)
                bterm) := by
            rw [findBlk_addParamFirst_same, hRR3find]
            simp [Blk.bid, Blk.params, Blk.ops, Blk.term]
          have hfind5 : findBlk (substBlks res c4.nv
                (addParamFirst c.nb c4.nv RR3)) c.nb
              = some (Blk.mk c.nb [c4.nv]
                (substOp res c4.nv (.whileOp oid res init (cE :: cRest) (bE :: bRest))
                  :: substOps res c4.nv opsPost)
                (substTerm res c4.nv bterm)) := by
            rw [findBlk_substBlks, hfind4]
            simp [substBlk, substOps]
          have hccF : condCountBlks RR' + condCountOp (substOp res c4.nv
              (.whileOp oid res init (cE :: cRest) (bE :: bRest)))
              = condCountBlks (substBlks res c4.nv
                  (addParamFirst c.nb c4.nv RR3)) := by
            rw [← hRRfin]
            exact condCount_dropHeadOpFirst c.nb _ _ _ _ hfind5 rfl
          have hwcF : whileCountBlks RR' + whileCountOp (substOp res c4.nv
              (.whileOp oid res init (cE :: cRest) (bE :: bRest)))
              = whileCountBlks (substBlks res c4.nv
                  (addParamFirst c.nb c4.nv RR3)) := by
            rw [← hRRfin]
            exact whileCount_dropHeadOpFirst c.nb _ _ _ _ hfind5 rfl
          have hTrF : topRetCount RR' = topRetCount RR3 := by
            rw [← hRRfin, topRet_dropHeadOpFirst, topRetCount_substBlks,
              topRet_addParamFirst]
          have hcc45 : condCountBlks (substBlks res c4.nv
              (addParamFirst c.nb c4.nv RR3)) = condCountBlks RR3 := by
            rw [condCount_substBlks, condCount_addParamFirst]
          have hwc45 : whileCountBlks (substBlks res c4.nv
              (addParamFirst c.nb c4.nv RR3)) = whileCountBlks RR3 := by
            rw [whileCount_substBlks, whileCount_addParamFirst]
          have hccSub : condCountOp (substOp res c4.nv
              (.whileOp oid res init (cE :: cRest) (bE :: bRest)))
              = condCountBlks (cE :: cRest) + condCountBlks (bE :: bRest) := by
            rw [condCount_substOp]
            rfl
          have hwcSub : whileCountOp (substOp res c4.nv
              (.whileOp oid res init (cE :: cRest) (bE :: bRest)))
              = 1 + whileCountBlks (cE :: cRest) + whileCountBlks (bE :: bRest) := by
            rw [whileCount_substOp]
            rfl
          have hccOrig : condCountBlks (pre ++ [Blk.mk bbid bparams
              (opsPre ++ .whileOp oid res init (cE :: cRest) (bE :: bRest)
                :: opsPost) bterm] ++ post)
              = condCountBlks pre + condCountOps opsPre
                + (condCountBlks (cE :: cRest) + condCountBlks (bE :: bRest))
                + condCountOps opsPost + condCountBlks post := by
            simp only [condCountBlks_append, condCountBlks_singleton, condCountBlk,
              condCountOps_append, condCountOps, condCountOp]
            omega
          have hwcOrig : whileCountBlks (pre ++ [Blk.mk bbid bparams
              (opsPre ++ .whileOp oid res init (cE :: cRest) (bE :: bRest)
                :: opsPost) bterm] ++ post)
              = whileCountBlks pre + whileCountOps opsPre
                + (1 + whileCountBlks (cE :: cRest) + whileCountBlks (bE :: bRest))
                + whileCountOps opsPost + whileCountBlks post := by
            simp only [whileCountBlks_append, whileCountBlks_singleton, whileCountBlk,
              whileCountOps_append, whileCountOps, whileCountOp]
            omega
          have hIdsF : blkIdsBelowBlks ((c.nb + 1) * 2 * 2) RR' = true := by
            rw [blkIdsBelowBlks_iff]
            intro x hx
            rw [← hRRfin] at hx
            have hx5 := blkIds_dropHeadOpFirst c.nb _ x hx
            rw [blkIds_substBlks, blkIds_addParamFirst, hIds3, hIds2] at hx5
            exact hIdsRR1 x hx5
          refine ⟨by omega, by omega, by omega, ?_, hIdsF⟩
          rw [← hcfin]
          dsimp only
          exact hnb4

/-- `splitOpsAt` decomposes the operation list at a match. -/
theorem splitOpsAt_eq (p : Op → Bool) :
    ∀ (ops l1 : List Op) (o : Op) (l2 : List Op),
      splitOpsAt p ops = some (l1, o, l2) → ops = l1 ++ o :: l2 ∧ p o = true := by
  intro ops
  induction ops with
  | nil => intro l1 o l2 h; simp [splitOpsAt] at h
  | cons o2 rest ih =>
      intro l1 o l2 h
      by_cases hp : p o2
      · simp only [splitOpsAt, hp, eq_self_iff_true, if_true, Option.some.injEq,
          Prod.mk.injEq] at h
        obtain ⟨h1, h2, h3⟩ := h
        subst h1
        subst h2
        subst h3
        exact ⟨by simp, hp⟩
      · rw [Bool.not_eq_true] at hp
        simp only [splitOpsAt, hp, Bool.false_eq_true, if_false] at h
        cases hs : splitOpsAt p rest with
        | none => rw [hs] at h; cases h
        | some x =>
            obtain ⟨a, y, b⟩ := x
            rw [hs] at h
            simp only [Option.some.injEq, Prod.mk.injEq] at h
            obtain ⟨h1, h2, h3⟩ := h
            obtain ⟨ha, hy⟩ := ih a y b hs
            subst h2
            subst h3
            rw [← h1, ha]
            exact ⟨by simp, hy⟩

/-- `splitBlksAt` decomposes the region at the block holding a match. -/
theorem splitBlksAt_eq (p : Op → Bool) :
    ∀ (R pre : List Blk) (b : Blk) (opsPre : List Op) (op : Op) (opsPost : List Op)
      (post : List Blk),
      splitBlksAt p R = some (pre, b, (opsPre, op, opsPost), post) →
      R = pre ++ b :: post ∧ b.ops = opsPre ++ op :: opsPost ∧ p op = true := by
  intro R
  induction R with
  | nil => intro pre b opsPre op opsPost post h; simp [splitBlksAt] at h
  | cons b2 rest ih =>
      intro pre b opsPre op opsPost post h
      cases hs : splitOpsAt p b2.ops with
      | some x =>
          obtain ⟨a, y, bb⟩ := x
          simp only [splitBlksAt, hs, Option.some.injEq, Prod.mk.injEq] at h
          obtain ⟨h1, h2, ⟨h3, h4, h5⟩, h6⟩ := h
          subst h1
          subst h2
          subst h3
          subst h4
          subst h5
          subst h6
          obtain ⟨ha, hy⟩ := splitOpsAt_eq p b2.ops a y bb hs
          exact ⟨by simp, ha, hy⟩
      | none =>
          simp only [splitBlksAt, hs] at h
          cases hr : splitBlksAt p rest with
          | none => rw [hr] at h; cases h
          | some x =>
              obtain ⟨a2, blk2, s2, post2⟩ := x
              rw [hr] at h
              simp only [Option.some.injEq, Prod.mk.injEq] at h
              obtain ⟨h1, h2, h3, h4⟩ := h
              obtain ⟨s2a, s2b, s2c⟩ := s2
              obtain ⟨hra, hrb, hrc⟩ := ih a2 blk2 s2a s2b s2c post2 (by rw [hr])
              subst h2
              simp only [Prod.mk.injEq] at h3
              obtain ⟨h3a, h3b, h3c⟩ := h3
              subst h3a
              subst h3b
              subst h3c
              subst h4
              rw [← h1, hra]
              exact ⟨by simp, hrb, hrc⟩

/-- The identifier bound over op lists is monotone in the bound. -/
theorem blkIdsBelowOps_mono (n m : Nat) (hnm : n ≤ m) (ops : List Op)
    (h : blkIdsBelowOps n ops = true) : blkIdsBelowOps m ops = true := by
  rw [blkIdsBelowOps_iff] at h ⊢
  exact fun x hx => lt_of_lt_of_le (h x hx) hnm

/-- The identifier bound over regions is monotone in the bound. -/
theorem blkIdsBelowBlks_mono (n m : Nat) (hnm : n ≤ m) (R : List Blk)
    (h : blkIdsBelowBlks n R = true) : blkIdsBelowBlks m R = true := by
  rw [blkIdsBelowBlks_iff] at h ⊢
  exact fun x hx => lt_of_lt_of_le (h x hx) hnm

/-- Lowering a structured operation found at the top level of a region:
the matching count drops by one, the other count is unchanged, top-level
Returns do not increase, the block counter strictly grows and keeps bounding
every block identifier. -/
theorem lowerTopLevel_ok_master (isCond : Bool) (o : Nat) (R : List Blk)
    (c : Counters) (RR' : List Blk) (c' : Counters)
    (hok : lowerTopLevel isCond o R c = some (.ok (RR', c')))
    (hbelow : blkIdsBelowBlks c.nb R = true) :
    condCountBlks RR' + (if isCond then 1 else 0) = condCountBlks R
    ∧ whileCountBlks RR' + (if isCond then 0 else 1) = whileCountBlks R
    ∧ topRetCount RR' ≤ topRetCount R
    ∧ c.nb < c'.nb
    ∧ blkIdsBelowBlks c'.nb RR' = true := by
  rw [lowerTopLevel] at hok
  cases hsp : splitBlksAt (opMatches isCond o) R with
  | none => rw [hsp] at hok; cases hok
  | some x =>
      obtain ⟨pre, b, ⟨opsPre, op, opsPost⟩, post⟩ := x
      rw [hsp] at hok
      simp only [Option.some.injEq] at hok
      obtain ⟨hR, hops, hmatch⟩ := splitBlksAt_eq _ R pre b opsPre op opsPost post hsp
      cases b with
      | mk bbid bparams bops btermv =>
          simp only [Blk.ops] at hops
          subst hops
          subst hR
          rw [blkIdsBelowBlks_iff] at hbelow
          have hbPre : ∀ y ∈ blkIdsBlks pre, y < c.nb := fun y hy =>
            hbelow y (by rw [blkIdsBlks_append]; exact List.mem_append_left _ hy)
          have hbMid : ∀ y ∈ blkIdsBlk (Blk.mk bbid bparams (opsPre ++ op :: opsPost)
              btermv), y < c.nb := fun y hy =>
            hbelow y (by
              rw [blkIdsBlks_append]
              refine List.mem_append_right _ ?_
              simp only [blkIdsBlks]
              exact List.mem_append_left _ hy)
          have hbPost : ∀ y ∈ blkIdsBlks post, y < c.nb := fun y hy =>
            hbelow y (by
              rw [blkIdsBlks_append]
              refine List.mem_append_right _ ?_
              simp only [blkIdsBlks]
              exact List.mem_append_right _ hy)
          have hbB : bbid < c.nb := hbMid bbid (by simp [blkIdsBlk])
          have hbOpsPre : ∀ y ∈ blkIdsOps opsPre, y < c.nb := fun y hy =>
            hbMid y (by
              simp only [blkIdsBlk, List.mem_cons, blkIdsOps_append]
              exact Or.inr (List.mem_append_left _ hy))
          have hbOp : ∀ y ∈ blkIdsOp op, y < c.nb := fun y hy =>
            hbMid y (by
              simp only [blkIdsBlk, List.mem_cons, blkIdsOps_append, blkIdsOps]
              exact Or.inr (List.mem_append_right _ (List.mem_append_left _ hy)))
          have hbOpsPost : ∀ y ∈ blkIdsOps opsPost, y < c.nb := fun y hy =>
            hbMid y (by
              simp only [blkIdsBlk, List.mem_cons, blkIdsOps_append, blkIdsOps]
              exact Or.inr (List.mem_append_right _ (List.mem_append_right _ hy)))
          have hpreNe : ∀ b2 ∈ pre, b2.bid ≠ c.nb := fun b2 hb2 =>
            Nat.ne_of_lt (hbPre b2.bid (bid_mem_blkIds pre b2 hb2))
          have hbbid : bbid ≠ c.nb := Nat.ne_of_lt hbB
          have hsplitEq : pre ++ [Blk.mk bbid bparams (opsPre ++ op :: opsPost)
              btermv] ++ post = pre ++ Blk.mk bbid bparams (opsPre ++ op :: opsPost)
              btermv :: post := by simp
          cases op with
          | simple s => simp [opMatches] at hmatch
          | conditional oid2 res p t f tr fr =>
              have hic : isCond = true := by
                cases isCond
                · simp [opMatches] at hmatch
                · rfl
              subst hic
              dsimp only [coreDispatch, Blk.bid, Blk.params, Blk.term] at hok
              cases tr with
              | nil => simp [LowerConditionalOpCore] at hok
              | cons tE tRest =>
                  cases fr with
                  | nil => simp [LowerConditionalOpCore] at hok
                  | cons fE fRest =>
                      have hbT : ∀ y ∈ blkIdsBlks (tE :: tRest), y < c.nb := fun y hy =>
                        hbOp y (by
                          simp only [blkIdsOp]
                          exact List.mem_append_left _ hy)
                      have hbF : ∀ y ∈ blkIdsBlks (fE :: fRest), y < c.nb := fun y hy =>
                        hbOp y (by
                          simp only [blkIdsOp]
                          exact List.mem_append_right _ hy)
                      obtain ⟨m1, m2, m3, m4, m5⟩ := LowerConditionalOpCore_ok_master
                        pre bbid bparams opsPre oid2 res p t f tE tRest fE fRest
                        opsPost btermv post c hpreNe hbbid hbT hbF hbPre hbPost hbB
                        hbOpsPre hbOpsPost RR' c' hok
                      rw [hsplitEq] at m1 m2 m3
                      have hlT := topRetCount_le_length (tE :: tRest)
                      have hlF := topRetCount_le_length (fE :: fRest)
                      refine ⟨by simpa using m1, by simpa using m2, by omega,
                        by omega, ?_⟩
                      rw [m4]
                      exact m5
          | whileOp oid2 res init cr bd =>
              have hic : isCond = false := by
                cases isCond
                · rfl
                · simp [opMatches] at hmatch
              subst hic
              dsimp only [coreDispatch, Blk.bid, Blk.params, Blk.term] at hok
              cases cr with
              | nil => simp [LowerWhileOpCore] at hok
              | cons cE cRest =>
                  cases bd with
                  | nil => simp [LowerWhileOpCore] at hok
                  | cons bE bRest =>
                      have hbC : ∀ y ∈ blkIdsBlks (cE :: cRest), y < c.nb := fun y hy =>
                        hbOp y (by
                          simp only [blkIdsOp]
                          exact List.mem_append_left _ hy)
                      have hbBo : ∀ y ∈ blkIdsBlks (bE :: bRest), y < c.nb := fun y hy =>
                        hbOp y (by
                          simp only [blkIdsOp]
                          exact List.mem_append_right _ hy)
                      obtain ⟨m1, m2, m3, m4, m5⟩ := LowerWhileOpCore_ok_master
                        pre bbid bparams opsPre oid2 res init cE cRest bE bRest
                        opsPost btermv post c hpreNe hbbid hbC hbBo hbPre hbPost hbB
                        hbOpsPre hbOpsPost RR' c' hok
                      rw [hsplitEq] at m1 m2 m3
                      have hlC := topRetCount_le_length (cE :: cRest)
                      have hlB := topRetCount_le_length (bE :: bRest)
                      refine ⟨by simpa using m1, by simpa using m2, by omega,
                        by omega, ?_⟩
                      rw [m4]
                      exact m5

/-- The identifier bound over one operation is monotone in the bound. -/
theorem blkIdsBelowOp_mono_aux (n m : Nat) (hnm : n ≤ m) (op : Op)
    (h : blkIdsBelowOp n op = true) : blkIdsBelowOp m op = true := by
  rw [blkIdsBelowOp_iff] at h ⊢
  exact fun x hx => lt_of_lt_of_le (h x hx) hnm

mutual
/-- Lowering a structured op found nested below a region: the matching count
drops by one inside the region, the other count and the region's own
top-level terminators are untouched, and the advanced block counter keeps
bounding every identifier. -/
theorem lowerNested_master_blks (isCond : Bool) (o : Nat) :
    ∀ (R : List Blk), ∀ (c : Counters) (RR' : List Blk) (c' : Counters),
      lowerNestedBlks isCond o R c = some (.ok (RR', c')) →
      blkIdsBelowBlks c.nb R = true →
      condCountBlks RR' + (if isCond then 1 else 0) = condCountBlks R
      ∧ whileCountBlks RR' + (if isCond then 0 else 1) = whileCountBlks R
      ∧ topRetCount RR' = topRetCount R
      ∧ c.nb < c'.nb
      ∧ blkIdsBelowBlks c'.nb RR' = true
  | [] => by
      intro c RR' c' h hb
      simp [lowerNestedBlks] at h
  | .mk bid ps ops t :: rest => by
      intro c RR' c' h hb
      simp only [lowerNestedBlks] at h
      simp only [blkIdsBelowBlks, blkIdsBelowBlk, Bool.and_eq_true,
        decide_eq_true_eq] at hb
      obtain ⟨⟨hbid, hbops⟩, hbrest⟩ := hb
      cases hops : lowerNestedOps isCond o ops c with
      | some r =>
          rw [hops] at h
          dsimp only at h
          cases r with
          | ok x =>
              obtain ⟨ops2, c2⟩ := x
              simp only [LowRes.mapRes, Option.some.injEq, LowRes.ok.injEq,
                Prod.mk.injEq] at h
              obtain ⟨hRR, hc⟩ := h
              obtain ⟨m1, m2, m4, m5⟩ := lowerNested_master_ops isCond o ops c ops2 c2
                (by rw [hops]) hbops
              subst hRR
              subst hc
              refine ⟨?_, ?_, ?_, m4, ?_⟩
              · simp only [condCountBlks, condCountBlk]
                omega
              · simp only [whileCountBlks, whileCountBlk]
                omega
              · simp only [topRetCount, Blk.term]
              · simp only [blkIdsBelowBlks, blkIdsBelowBlk, Bool.and_eq_true,
                  decide_eq_true_eq]
                exact ⟨⟨lt_trans hbid m4, m5⟩,
                  blkIdsBelowBlks_mono c.nb c2.nb (le_of_lt m4) rest hbrest⟩
          | failed x => simp [LowRes.mapRes] at h
          | crash => simp [LowRes.mapRes] at h
      | none =>
          rw [hops] at h
          dsimp only at h
          cases hrest2 : lowerNestedBlks isCond o rest c with
          | some r =>
              rw [hrest2] at h
              dsimp only at h
              cases r with
              | ok x =>
                  obtain ⟨rest2, c2⟩ := x
                  simp only [LowRes.mapRes, Option.some.injEq, LowRes.ok.injEq,
                    Prod.mk.injEq] at h
                  obtain ⟨hRR, hc⟩ := h
                  obtain ⟨m1, m2, m3, m4, m5⟩ := lowerNested_master_blks isCond o rest c
                    rest2 c2 (by rw [hrest2]) hbrest
                  subst hRR
                  subst hc
                  refine ⟨?_, ?_, ?_, m4, ?_⟩
                  · simp only [condCountBlks, condCountBlk]
                    omega
                  · simp only [whileCountBlks, whileCountBlk]
                    omega
                  · simp only [topRetCount, Blk.term]
                    omega
                  · simp only [blkIdsBelowBlks, blkIdsBelowBlk, Bool.and_eq_true,
                      decide_eq_true_eq]
                    exact ⟨⟨lt_trans hbid m4,
                      blkIdsBelowOps_mono c.nb c2.nb (le_of_lt m4) ops hbops⟩, m5⟩
              | failed x => simp [LowRes.mapRes] at h
              | crash => simp [LowRes.mapRes] at h
          | none =>
              rw [hrest2] at h
              cases h

/-- Nested-lowering accounting over a list of operations. -/
theorem lowerNested_master_ops (isCond : Bool) (o : Nat) :
    ∀ (ops : List Op), ∀ (c : Counters) (ops2 : List Op) (c' : Counters),
      lowerNestedOps isCond o ops c = some (.ok (ops2, c')) →
      blkIdsBelowOps c.nb ops = true →
      condCountOps ops2 + (if isCond then 1 else 0) = condCountOps ops
      ∧ whileCountOps ops2 + (if isCond then 0 else 1) = whileCountOps ops
      ∧ c.nb < c'.nb
      ∧ blkIdsBelowOps c'.nb ops2 = true
  | [] => by
      intro c ops2 c' h hb
      simp [lowerNestedOps] at h
  | op :: rest => by
      intro c ops2 c' h hb
      simp only [lowerNestedOps] at h
      simp only [blkIdsBelowOps, Bool.and_eq_true] at hb
      obtain ⟨hbop, hbrest⟩ := hb
      cases hop : lowerNestedOp isCond o op c with
      | some r =>
          rw [hop] at h
          dsimp only at h
          cases r with
          | ok x =>
              obtain ⟨op2, c2⟩ := x
              simp only [LowRes.mapRes, Option.some.injEq, LowRes.ok.injEq,
                Prod.mk.injEq] at h
              obtain ⟨hops2, hc⟩ := h
              obtain ⟨m1, m2, m4, m5⟩ := lowerNested_master_op isCond o op c op2 c2
                (by rw [hop]) hbop
              subst hops2
              subst hc
              refine ⟨?_, ?_, m4, ?_⟩
              · simp only [condCountOps]
                omega
              · simp only [whileCountOps]
                omega
              · simp only [blkIdsBelowOps, Bool.and_eq_true]
                exact ⟨m5, blkIdsBelowOps_mono c.nb c2.nb (le_of_lt m4) rest hbrest⟩
          | failed x => simp [LowRes.mapRes] at h
          | crash => simp [LowRes.mapRes] at h
      | none =>
          rw [hop] at h
          dsimp only at h
          cases hrest2 : lowerNestedOps isCond o rest c with
          | some r =>
              rw [hrest2] at h
              dsimp only at h
              cases r with
              | ok x =>
                  obtain ⟨rest2, c2⟩ := x
                  simp only [LowRes.mapRes, Option.some.injEq, LowRes.ok.injEq,
                    Prod.mk.injEq] at h
                  obtain ⟨hops2, hc⟩ := h
                  obtain ⟨m1, m2, m4, m5⟩ := lowerNested_master_ops isCond o rest c
                    rest2 c2 (by rw [hrest2]) hbrest
                  subst hops2
                  subst hc
                  refine ⟨?_, ?_, m4, ?_⟩
                  · simp only [condCountOps]
                    omega
                  · simp only [whileCountOps]
                    omega
                  · simp only [blkIdsBelowOps, Bool.and_eq_true]
                    exact ⟨blkIdsBelowOp_mono_aux c.nb c2.nb (le_of_lt m4) op hbop, m5⟩
              | failed x => simp [LowRes.mapRes] at h
              | crash => simp [LowRes.mapRes] at h
          | none =>
              rw [hrest2] at h
              cases h

/-- Nested-lowering accounting inside one structured operation. -/
theorem lowerNested_master_op (isCond : Bool) (o : Nat) :
    ∀ (op : Op), ∀ (c : Counters) (op2 : Op) (c' : Counters),
      lowerNestedOp isCond o op c = some (.ok (op2, c')) →
      blkIdsBelowOp c.nb op = true →
      condCountOp op2 + (if isCond then 1 else 0) = condCountOp op
      ∧ whileCountOp op2 + (if isCond then 0 else 1) = whileCountOp op
      ∧ c.nb < c'.nb
      ∧ blkIdsBelowOp c'.nb op2 = true
  | .simple s => by
      intro c op2 c' h hb
      simp [lowerNestedOp] at h
  | .conditional oid res p t f tr fr => by
      intro c op2 c' h hb
      simp only [lowerNestedOp] at h
      simp only [blkIdsBelowOp, Bool.and_eq_true] at hb
      obtain ⟨hbtr, hbfr⟩ := hb
      cases htl1 : lowerTopLevel isCond o tr c with
      | some r =>
          rw [htl1] at h
          dsimp only at h
          cases r with
          | ok x =>
              obtain ⟨tr2, c2⟩ := x
              simp only [LowRes.mapRes, Option.some.injEq, LowRes.ok.injEq,
                Prod.mk.injEq] at h
              obtain ⟨hop2, hc⟩ := h
              obtain ⟨m1, m2, m3, m4, m5⟩ := lowerTopLevel_ok_master isCond o tr c tr2 c2
                (by rw [htl1]) hbtr
              subst hop2
              subst hc
              refine ⟨?_, ?_, m4, ?_⟩
              · simp only [condCountOp]
                omega
              · simp only [whileCountOp]
                omega
              · simp only [blkIdsBelowOp, Bool.and_eq_true]
                exact ⟨m5, blkIdsBelowBlks_mono c.nb c2.nb (le_of_lt m4) fr hbfr⟩
          | failed x => simp [LowRes.mapRes] at h
          | crash => simp [LowRes.mapRes] at h
      | none =>
          rw [htl1] at h
          dsimp only at h
          cases hn1 : lowerNestedBlks isCond o tr c with
          | some r =>
              rw [hn1] at h
              dsimp only at h
              cases r with
              | ok x =>
                  obtain ⟨tr2, c2⟩ := x
                  simp only [LowRes.mapRes, Option.some.injEq, LowRes.ok.injEq,
                    Prod.mk.injEq] at h
                  obtain ⟨hop2, hc⟩ := h
                  obtain ⟨m1, m2, m3, m4, m5⟩ := lowerNested_master_blks isCond o tr c
                    tr2 c2 (by rw [hn1]) hbtr
                  subst hop2
                  subst hc
                  refine ⟨?_, ?_, m4, ?_⟩
                  · simp only [condCountOp]
                    omega
                  · simp only [whileCountOp]
                    omega
                  · simp only [blkIdsBelowOp, Bool.and_eq_true]
                    exact ⟨m5, blkIdsBelowBlks_mono c.nb c2.nb (le_of_lt m4) fr hbfr⟩
              | failed x => simp [LowRes.mapRes] at h
              | crash => simp [LowRes.mapRes] at h
          | none =>
              rw [hn1] at h
              dsimp only at h
              cases htl2 : lowerTopLevel isCond o fr c with
              | some r =>
                  rw [htl2] at h
                  dsimp only at h
                  cases r with
                  | ok x =>
                      obtain ⟨fr2, c2⟩ := x
                      simp only [LowRes.mapRes, Option.some.injEq, LowRes.ok.injEq,
                        Prod.mk.injEq] at h
                      obtain ⟨hop2, hc⟩ := h
                      obtain ⟨m1, m2, m3, m4, m5⟩ := lowerTopLevel_ok_master isCond o fr c
                        fr2 c2 (by rw [htl2]) hbfr
                      subst hop2
                      subst hc
                      refine ⟨?_, ?_, m4, ?_⟩
                      · simp only [condCountOp]
                        omega
                      · simp only [whileCountOp]
                        omega
                      · simp only [blkIdsBelowOp, Bool.and_eq_true]
                        exact ⟨blkIdsBelowBlks_mono c.nb c2.nb (le_of_lt m4) tr hbtr, m5⟩
                  | failed x => simp [LowRes.mapRes] at h
                  | crash => simp [LowRes.mapRes] at h
              | none =>
                  rw [htl2] at h
                  dsimp only at h
                  cases hn2 : lowerNestedBlks isCond o fr c with
                  | some r =>
                      rw [hn2] at h
                      dsimp only at h
                      cases r with
                      | ok x =>
                          obtain ⟨fr2, c2⟩ := x
                          simp only [LowRes.mapRes, Option.some.injEq, LowRes.ok.injEq,
                            Prod.mk.injEq] at h
                          obtain ⟨hop2, hc⟩ := h
                          obtain ⟨m1, m2, m3, m4, m5⟩ := lowerNested_master_blks isCond o
                            fr c fr2 c2 (by rw [hn2]) hbfr
                          subst hop2
                          subst hc
                          refine ⟨?_, ?_, m4, ?_⟩
                          · simp only [condCountOp]
                            omega
                          · simp only [whileCountOp]
                            omega
                          · simp only [blkIdsBelowOp, Bool.and_eq_true]
                            exact ⟨blkIdsBelowBlks_mono c.nb c2.nb (le_of_lt m4) tr hbtr,
                              m5⟩
                      | failed x => simp [LowRes.mapRes] at h
                      | crash => simp [LowRes.mapRes] at h
                  | none =>
                      rw [hn2] at h
                      cases h
  | .whileOp oid res init cr bd => by
      intro c op2 c' h hb
      simp only [lowerNestedOp] at h
      simp only [blkIdsBelowOp, Bool.and_eq_true] at hb
      obtain ⟨hbcr, hbbd⟩ := hb
      cases htl1 : lowerTopLevel isCond o cr c with
      | some r =>
          rw [htl1] at h
          dsimp only at h
          cases r with
          | ok x =>
              obtain ⟨cr2, c2⟩ := x
              simp only [LowRes.mapRes, Option.some.injEq, LowRes.ok.injEq,
                Prod.mk.injEq] at h
              obtain ⟨hop2, hc⟩ := h
              obtain ⟨m1, m2, m3, m4, m5⟩ := lowerTopLevel_ok_master isCond o cr c cr2 c2
                (by rw [htl1]) hbcr
              subst hop2
              subst hc
              refine ⟨?_, ?_, m4, ?_⟩
              · simp only [condCountOp]
                omega
              · simp only [whileCountOp]
                omega
              · simp only [blkIdsBelowOp, Bool.and_eq_true]
                exact ⟨m5, blkIdsBelowBlks_mono c.nb c2.nb (le_of_lt m4) bd hbbd⟩
          | failed x => simp [LowRes.mapRes] at h
          | crash => simp [LowRes.mapRes] at h
      | none =>
          rw [htl1] at h
          dsimp only at h
          cases hn1 : lowerNestedBlks isCond o cr c with
          | some r =>
              rw [hn1] at h
              dsimp only at h
              cases r with
              | ok x =>
                  obtain ⟨cr2, c2⟩ := x
                  simp only [LowRes.mapRes, Option.some.injEq, LowRes.ok.injEq,
                    Prod.mk.injEq] at h
                  obtain ⟨hop2, hc⟩ := h
                  obtain ⟨m1, m2, m3, m4, m5⟩ := lowerNested_master_blks isCond o cr c
                    cr2 c2 (by rw [hn1]) hbcr
                  subst hop2
                  subst hc
                  refine ⟨?_, ?_, m4, ?_⟩
                  · simp only [condCountOp]
                    omega
                  · simp only [whileCountOp]
                    omega
                  · simp only [blkIdsBelowOp, Bool.and_eq_true]
                    exact ⟨m5, blkIdsBelowBlks_mono c.nb c2.nb (le_of_lt m4) bd hbbd⟩
              | failed x => simp [LowRes.mapRes] at h
              | crash => simp [LowRes.mapRes] at h
          | none =>
              rw [hn1] at h
              dsimp only at h
              cases htl2 : lowerTopLevel isCond o bd c with
              | some r =>
                  rw [htl2] at h
                  dsimp only at h
                  cases r with
                  | ok x =>
                      obtain ⟨bd2, c2⟩ := x
                      simp only [LowRes.mapRes, Option.some.injEq, LowRes.ok.injEq,
                        Prod.mk.injEq] at h
                      obtain ⟨hop2, hc⟩ := h
                      obtain ⟨m1, m2, m3, m4, m5⟩ := lowerTopLevel_ok_master isCond o bd c
                        bd2 c2 (by rw [htl2]) hbbd
                      subst hop2
                      subst hc
                      refine ⟨?_, ?_, m4, ?_⟩
                      · simp only [condCountOp]
                        omega
                      · simp only [whileCountOp]
                        omega
                      · simp only [blkIdsBelowOp, Bool.and_eq_true]
                        exact ⟨blkIdsBelowBlks_mono c.nb c2.nb (le_of_lt m4) cr hbcr, m5⟩
                  | failed x => simp [LowRes.mapRes] at h
                  | crash => simp [LowRes.mapRes] at h
              | none =>
                  rw [htl2] at h
                  dsimp only at h
                  cases hn2 : lowerNestedBlks isCond o bd c with
                  | some r =>
                      rw [hn2] at h
                      dsimp only at h
                      cases r with
                      | ok x =>
                          obtain ⟨bd2, c2⟩ := x
                          simp only [LowRes.mapRes, Option.some.injEq, LowRes.ok.injEq,
                            Prod.mk.injEq] at h
                          obtain ⟨hop2, hc⟩ := h
                          obtain ⟨m1, m2, m3, m4, m5⟩ := lowerNested_master_blks isCond o
                            bd c bd2 c2 (by rw [hn2]) hbbd
                          subst hop2
                          subst hc
                          refine ⟨?_, ?_, m4, ?_⟩
                          · simp only [condCountOp]
                            omega
                          · simp only [whileCountOp]
                            omega
                          · simp only [blkIdsBelowOp, Bool.and_eq_true]
                            exact ⟨blkIdsBelowBlks_mono c.nb c2.nb (le_of_lt m4) cr hbcr,
                              m5⟩
                      | failed x => simp [LowRes.mapRes] at h
                      | crash => simp [LowRes.mapRes] at h
                  | none =>
                      rw [hn2] at h
                      cases h
end

/-- Accounting for one `lowerStructAt` success on a whole function state. -/
theorem lowerStructAt_ok_master (isCond : Bool) (o : Nat) (F F2 : FuncState)
    (hok : lowerStructAt isCond o F = .ok F2)
    (hb : blkIdsBelowBlks F.ctr.nb F.body = true) :
    condCountBlks F2.body + (if isCond then 1 else 0) = condCountBlks F.body
    ∧ whileCountBlks F2.body + (if isCond then 0 else 1) = whileCountBlks F.body
    ∧ topRetCount F2.body ≤ topRetCount F.body
    ∧ blkIdsBelowBlks F2.ctr.nb F2.body = true := by
  rw [lowerStructAt] at hok
  cases htl : lowerTopLevel isCond o F.body F.ctr with
  | some r =>
      rw [htl] at hok
      dsimp only at hok
      cases r with
      | ok x =>
          obtain ⟨RRn, c2⟩ := x
          simp only [LowRes.mapRes, LowRes.ok.injEq] at hok
          obtain ⟨m1, m2, m3, m4, m5⟩ := lowerTopLevel_ok_master isCond o F.body F.ctr
            RRn c2 (by rw [htl]) hb
          rw [← hok]
          exact ⟨m1, m2, m3, m5⟩
      | failed x => simp [LowRes.mapRes] at hok
      | crash => simp [LowRes.mapRes] at hok
  | none =>
      rw [htl] at hok
      dsimp only at hok
      cases hn : lowerNestedBlks isCond o F.body F.ctr with
      | some r =>
          rw [hn] at hok
          dsimp only at hok
          cases r with
          | ok x =>
              obtain ⟨RRn, c2⟩ := x
              simp only [LowRes.mapRes, LowRes.ok.injEq] at hok
              obtain ⟨m1, m2, m3, m4, m5⟩ := lowerNested_master_blks isCond o F.body
                F.ctr RRn c2 (by rw [hn]) hb
              rw [← hok]
              exact ⟨m1, m2, le_of_eq m3, m5⟩
          | failed x => simp [LowRes.mapRes] at hok
          | crash => simp [LowRes.mapRes] at hok
      | none =>
          rw [hn] at hok
          cases hok

/-- Accounting across a whole lowering phase: each collected identifier that
is lowered successfully consumes exactly one structured operation of the
phase's kind. -/
theorem foldLower_ok_master (isCond : Bool) :
    ∀ (ids : List Nat) (F F' : FuncState),
      foldLower isCond ids F = .ok F' →
      blkIdsBelowBlks F.ctr.nb F.body = true →
      condCountBlks F'.body + (if isCond then ids.length else 0) = condCountBlks F.body
      ∧ whileCountBlks F'.body + (if isCond then 0 else ids.length)
          = whileCountBlks F.body
      ∧ topRetCount F'.body ≤ topRetCount F.body
      ∧ blkIdsBelowBlks F'.ctr.nb F'.body = true := by
  intro ids
  induction ids with
  | nil =>
      intro F F' h hb
      simp only [foldLower, LowRes.ok.injEq] at h
      subst h
      refine ⟨?_, ?_, le_refl _, hb⟩ <;> cases isCond <;> simp
  | cons o rest ih =>
      intro F F' h hb
      simp only [foldLower] at h
      cases hs : lowerStructAt isCond o F with
      | ok F2 =>
          rw [hs] at h
          dsimp only at h
          obtain ⟨s1, s2, s3, s4⟩ := lowerStructAt_ok_master isCond o F F2 hs hb
          obtain ⟨i1, i2, i3, i4⟩ := ih F2 F' h s4
          refine ⟨?_, ?_, le_trans i3 s3, i4⟩
          · cases isCond <;> simp only [List.length_cons] at * <;> simp at s1 i1 ⊢ <;>
              omega
          · cases isCond <;> simp only [List.length_cons] at * <;> simp at s2 i2 ⊢ <;>
              omega
      | failed F2 =>
          rw [hs] at h
          cases h
      | crash =>
          rw [hs] at h
          cases h

mutual
/-- The post-order conditional collection visits one entry per Conditional. -/
theorem collectConds_length_op : ∀ op : Op, (collectCondsOp op).length = condCountOp op
  | .simple s => rfl
  | .conditional oid res p t f tr fr => by
      simp only [collectCondsOp, condCountOp, List.length_append, List.length_cons,
        List.length_nil, collectConds_length_blks tr, collectConds_length_blks fr]
      omega
  | .whileOp oid res init cr bd => by
      simp only [collectCondsOp, condCountOp, List.length_append,
        collectConds_length_blks cr, collectConds_length_blks bd]

/-- Conditional collection length over op lists. -/
theorem collectConds_length_ops :
    ∀ ops : List Op, (collectCondsOps ops).length = condCountOps ops
  | [] => rfl
  | o :: rest => by
      simp only [collectCondsOps, condCountOps, List.length_append,
        collectConds_length_op o, collectConds_length_ops rest]

/-- Conditional collection length over a block. -/
theorem collectConds_length_blk : ∀ b : Blk, (collectCondsBlk b).length = condCountBlk b
  | .mk bid ps ops t => by
      simp only [collectCondsBlk, condCountBlk, collectConds_length_ops ops]

/-- Conditional collection length over a region. -/
theorem collectConds_length_blks :
    ∀ R : List Blk, (collectCondsBlks R).length = condCountBlks R
  | [] => rfl
  | b :: rest => by
      simp only [collectCondsBlks, condCountBlks, List.length_append,
        collectConds_length_blk b, collectConds_length_blks rest]
end

mutual
/-- The post-order while collection visits one entry per While. -/
theorem collectWhiles_length_op : ∀ op : Op, (collectWhilesOp op).length = whileCountOp op
  | .simple s => rfl
  | .conditional oid res p t f tr fr => by
      simp only [collectWhilesOp, whileCountOp, List.length_append,
        collectWhiles_length_blks tr, collectWhiles_length_blks fr]
  | .whileOp oid res init cr bd => by
      simp only [collectWhilesOp, whileCountOp, List.length_append, List.length_cons,
        List.length_nil, collectWhiles_length_blks cr, collectWhiles_length_blks bd]
      omega

/-- While collection length over op lists. -/
theorem collectWhiles_length_ops :
    ∀ ops : List Op, (collectWhilesOps ops).length = whileCountOps ops
  | [] => rfl
  | o :: rest => by
      simp only [collectWhilesOps, whileCountOps, List.length_append,
        collectWhiles_length_op o, collectWhiles_length_ops rest]

/-- While collection length over a block. -/
theorem collectWhiles_length_blk : ∀ b : Blk, (collectWhilesBlk b).length = whileCountBlk b
  | .mk bid ps ops t => by
      simp only [collectWhilesBlk, whileCountBlk, collectWhiles_length_ops ops]

/-- While collection length over a region. -/
theorem collectWhiles_length_blks :
    ∀ R : List Blk, (collectWhilesBlks R).length = whileCountBlks R
  | [] => rfl
  | b :: rest => by
      simp only [collectWhilesBlks, whileCountBlks, List.length_append,
        collectWhiles_length_blk b, collectWhiles_length_blks rest]
end

/-- An operation with no structured sub-operations holds no Return. -/
theorem retCountOp_zero (op : Op) (hc : condCountOp op = 0)
    (hw : whileCountOp op = 0) : retCountOp op = 0 := by
  cases op with
  | simple s => rfl
  | conditional oid res p t f tr fr =>
      exact absurd hc (by simp only [condCountOp]; omega)
  | whileOp oid res init cr bd =>
      exact absurd hw (by simp only [whileCountOp]; omega)

/-- An op list with no structured operations holds no Return. -/
theorem retCountOps_zero (ops : List Op) (hc : condCountOps ops = 0)
    (hw : whileCountOps ops = 0) : retCountOps ops = 0 := by
  induction ops with
  | nil => rfl
  | cons o rest ih =>
      simp only [condCountOps] at hc
      simp only [whileCountOps] at hw
      simp only [retCountOps]
      rw [retCountOp_zero o (by omega) (by omega), ih (by omega) (by omega)]

/-- In a region without structured operations every Return is a top-level
terminator. -/
theorem retCountBlks_eq_topRet (R : List Blk) (hc : condCountBlks R = 0)
    (hw : whileCountBlks R = 0) : retCountBlks R = topRetCount R := by
  induction R with
  | nil => rfl
  | cons b rest ih =>
      cases b with
      | mk bid ps ops t =>
          simp only [condCountBlks, condCountBlk] at hc
          simp only [whileCountBlks, whileCountBlk] at hw
          simp only [retCountBlks, retCountBlk, topRetCount, Blk.term]
          rw [retCountOps_zero ops (by omega) (by omega), ih (by omega) (by omega)]
          omega

/-- C1: on every function whose top-level blocks end in function-level
terminators (no `xla_hlo.return`) and whose block identifiers respect the
block counter, a successful pass leaves no Conditional operation, no While
operation, and no `xla_hlo::ReturnOp` terminator anywhere in the function —
in particular none in the blocks produced from the lowered regions. -/
theorem C1_success_no_structured_no_returns (F F' : FuncState)
    (hwf : blkIdsBelowBlks F.ctr.nb F.body = true)
    (hnr : topRetCount F.body = 0)
    (hok : runOnFunction F = .ok F') :
    condCountBlks F'.body = 0 ∧ whileCountBlks F'.body = 0
      ∧ retCountBlks F'.body = 0 := by
  rw [runOnFunction] at hok
  cases h1 : foldLower true (collectCondsBlks F.body) F with
  | ok F1 =>
      rw [h1] at hok
      dsimp only at hok
      obtain ⟨a1, a2, a3, a4⟩ := foldLower_ok_master true (collectCondsBlks F.body)
        F F1 h1 hwf
      obtain ⟨b1, b2, b3, b4⟩ := foldLower_ok_master false (collectWhilesBlks F1.body)
        F1 F' hok a4
      simp at a1 a2 b1 b2
      have hl1 := collectConds_length_blks F.body
      have hl2 := collectWhiles_length_blks F1.body
      have hccF : condCountBlks F'.body = 0 := by omega
      have hwcF : whileCountBlks F'.body = 0 := by omega
      refine ⟨hccF, hwcF, ?_⟩
      rw [retCountBlks_eq_topRet F'.body hccF hwcF]
      omega
  | failed F1 =>
      rw [h1] at hok
      cases hok
  | crash =>
      rw [h1] at hok
      cases hok

/-- Witness for C1 at Scenario B's function: its identifiers are in range,
its top level has no `xla_hlo.return`, the pass succeeds, and the resulting
function — predecessor, condition, body and tail blocks — holds no
Conditional, no While and no Return. -/
theorem C1_witness :
    blkIdsBelowBlks funcB.ctr.nb funcB.body = true
    ∧ topRetCount funcB.body = 0
    ∧ (condCountBlks (FuncState.mk
        [Blk.mk 0 [0] [] (Term.br 5 [0]),
         Blk.mk 5 [10] [.simple (.constOp 11 10), .simple (.ltOp 12 10 11),
           .simple (.extractElementOp 32 12)] (.condBr 32 10 [10] 3 [10]),
         Blk.mk 10 [21] [.simple (.constOp 22 1), .simple (.addOp 23 21 22)]
           (.br 5 [23]),
         Blk.mk 3 [33] [] (.stdRet [33])] ⟨34, 16, 4⟩).body = 0
      ∧ whileCountBlks (FuncState.mk
        [Blk.mk 0 [0] [] (Term.br 5 [0]),
         Blk.mk 5 [10] [.simple (.constOp 11 10), .simple (.ltOp 12 10 11),
           .simple (.extractElementOp 32 12)] (.condBr 32 10 [10] 3 [10]),
         Blk.mk 10 [21] [.simple (.constOp 22 1), .simple (.addOp 23 21 22)]
           (.br 5 [23]),
         Blk.mk 3 [33] [] (.stdRet [33])] ⟨34, 16, 4⟩).body = 0
      ∧ retCountBlks (FuncState.mk
        [Blk.mk 0 [0] [] (Term.br 5 [0]),
         Blk.mk 5 [10] [.simple (.constOp 11 10), .simple (.ltOp 12 10 11),
           .simple (.extractElementOp 32 12)] (.condBr 32 10 [10] 3 [10]),
         Blk.mk 10 [21] [.simple (.constOp 22 1), .simple (.addOp 23 21 22)]
           (.br 5 [23]),
         Blk.mk 3 [33] [] (.stdRet [33])] ⟨34, 16, 4⟩).body = 0) :=
  ⟨rfl, rfl, C1_success_no_structured_no_returns funcB (FuncState.mk
        [Blk.mk 0 [0] [] (Term.br 5 [0]),
         Blk.mk 5 [10] [.simple (.constOp 11 10), .simple (.ltOp 12 10 11),
           .simple (.extractElementOp 32 12)] (.condBr 32 10 [10] 3 [10]),
         Blk.mk 10 [21] [.simple (.constOp 22 1), .simple (.addOp 23 21 22)]
           (.br 5 [23]),
         Blk.mk 3 [33] [] (.stdRet [33])] ⟨34, 16, 4⟩) rfl rfl rfl⟩

/-! ## Renaming invariance of the semantics -/

/-- The clone's identity renaming is injective below the threshold. -/
theorem mkSubst_inj (D : List Nat) (δ V : Nat) (hδ : V ≤ δ)
    (v w : Nat) (hv : v < V) (hw : w < V)
    (h : mkSubst D δ v = mkSubst D δ w) : v = w := by
  simp only [mkSubst] at h
  by_cases h1 : v ∈ D <;> by_cases h2 : w ∈ D <;>
    simp only [h1, h2, if_true, if_false] at h <;> omega

/-- Decidable inclusion elimination. -/
theorem subList_mem (xs avail : List Nat) (h : subList xs avail = true)
    (x : Nat) (hx : x ∈ xs) : x ∈ avail := by
  rw [subList, List.all_eq_true] at h
  simpa using h x hx

/-- Agreement is monotone in the available set. -/
theorem Agree_mono (V δ : Nat) (D avail avail2 : List Nat) (e e' : Env)
    (hsub : ∀ v ∈ avail2, v ∈ avail) (h : Agree V δ D avail e e') :
    Agree V δ D avail2 e e' :=
  fun v hv hm => h v hv (hsub v hm)

/-- A parallel write at an identifier and its image preserves agreement and
makes the identifier available. -/
theorem Agree_update (V δ : Nat) (hδ : V ≤ δ) (D avail : List Nat) (e e' : Env)
    (d : Nat) (hd : d < V) (a : Int) (h : Agree V δ D avail e e') :
    Agree V δ D (avail ++ [d]) (envUpd e d a) (envUpd e' (mkSubst D δ d) a) := by
  intro v hv hm
  by_cases hvd : v = d
  · subst hvd
    simp [envUpd]
  · have hne : mkSubst D δ v ≠ mkSubst D δ d := fun hc =>
      hvd (mkSubst_inj D δ V hδ v d hv hd hc)
    rcases List.mem_append.mp hm with hm2 | hm2
    · simp only [envUpd]
      rw [if_neg hne, if_neg hvd]
      exact h v hv hm2
    · exact absurd (List.mem_singleton.mp hm2) hvd

/-- Reading a list of available values through the renaming yields the same
values. -/
theorem mapVals (V δ : Nat) (D avail : List Nat) (e e' : Env)
    (h : Agree V δ D avail e e') (vs : List Nat)
    (hin : ∀ v ∈ vs, v ∈ avail) (hlt : ∀ v ∈ vs, v < V) :
    (vs.map (mkSubst D δ)).map e' = vs.map e := by
  rw [List.map_map]
  exact List.map_congr_left (fun v hv => h v (hlt v hv) (hin v hv))

/-- Lookup in the renamed region through the renamed identifier. -/
theorem findBlk_renameBlks_inj (sv : Nat → Nat) (B : List Nat) (β Bd : Nat)
    (so : Nat → Nat) (hβ : Bd ≤ β) :
    ∀ (R : List Blk) (cur : Nat), cur < Bd → blkIdsBelowBlks Bd R = true →
      findBlk (renameBlks sv (mkSubst B β) so R) (mkSubst B β cur)
        = (findBlk R cur).map (renameBlk sv (mkSubst B β) so) := by
  intro R
  induction R with
  | nil => intro cur hcur hb; rfl
  | cons b rest ih =>
      intro cur hcur hb
      simp only [blkIdsBelowBlks, Bool.and_eq_true] at hb
      obtain ⟨hb1, hb2⟩ := hb
      cases b with
      | mk bid ps ops t =>
          simp only [blkIdsBelowBlk, Bool.and_eq_true, decide_eq_true_eq] at hb1
          obtain ⟨hbid, _⟩ := hb1
          by_cases hq : bid = cur
          · subst hq
            simp only [renameBlks, renameBlk, findBlk, List.find?, Blk.bid]
            simp [findBlk, List.find?, Blk.bid, renameBlk]
          · have hne : mkSubst B β bid ≠ mkSubst B β cur := fun hc =>
              hq (mkSubst_inj B β Bd hβ bid cur hbid hcur hc)
            simp only [renameBlks, renameBlk]
            rw [findBlk_cons_ne _ _ _ _ _ _ hne, findBlk_cons_ne _ _ _ _ _ _ hq]
            exact ih cur hcur hb2

/-- Binding the same argument values against the renamed parameters yields
agreeing environments (and fails exactly together). -/
theorem bindParams_sim (V δ : Nat) (hδ : V ≤ δ) (D : List Nat) :
    ∀ (ps : List Nat) (args : List Int) (avail : List Nat) (e e' : Env),
      Agree V δ D avail e e' → (∀ p ∈ ps, p < V) →
      (bindParams ps args e = none →
        bindParams (ps.map (mkSubst D δ)) args e' = none)
      ∧ (∀ e2, bindParams ps args e = some e2 →
          ∃ e2', bindParams (ps.map (mkSubst D δ)) args e' = some e2'
            ∧ Agree V δ D (avail ++ ps) e2 e2') := by
  intro ps
  induction ps with
  | nil =>
      intro args avail e e' hA hlt
      cases args with
      | nil =>
          constructor
          · intro h
            simp [bindParams] at h
          · intro e2 h
            simp only [bindParams, Option.some.injEq] at h
            subst h
            exact ⟨e', rfl, by simpa using hA⟩
      | cons a rest =>
          constructor
          · intro h
            rfl
          · intro e2 h
            simp [bindParams] at h
  | cons p ps ih =>
      intro args avail e e' hA hlt
      cases args with
      | nil => exact ⟨fun h => rfl, fun e2 h => by cases h⟩
      | cons a rest =>
          have hp : p < V := hlt p (List.mem_cons_self _ _)
          have hA2 := Agree_update V δ hδ D avail e e' p hp a hA
          have ih2 := ih rest (avail ++ [p]) (envUpd e p a)
            (envUpd e' (mkSubst D δ p) a) hA2
            (fun q hq => hlt q (List.mem_cons_of_mem _ hq))
          refine ⟨fun h => ih2.1 h, fun e2 h => ?_⟩
          obtain ⟨e2', h1, h2⟩ := ih2.2 e2 h
          refine ⟨e2', h1, ?_⟩
          refine Agree_mono V δ D _ _ _ _ ?_ h2
          intro v hv
          rcases List.mem_append.mp hv with hv | hv
          · exact List.mem_append_left _ (List.mem_append_left _ hv)
          · rcases List.mem_cons.mp hv with hv | hv
            · exact List.mem_append_left _
                (List.mem_append_right _ (by simp [hv]))
            · exact List.mem_append_right _ hv

/-- One simple operation, run on agreeing environments, writes the same
value and keeps agreement, making its result available. -/
theorem runSimple_sim (V δ : Nat) (hδ : V ≤ δ) (D avail : List Nat)
    (e e' : Env) (s : SimpleOp) (hA : Agree V δ D avail e e')
    (huse : subList (usesSimple s) avail = true)
    (hbelow : valsBelowOp V (.simple s) = true) :
    Agree V δ D (avail ++ [s.dst]) (runSimple s e)
      (runSimple (renameSimple (mkSubst D δ) s) e') := by
  simp only [valsBelowOp, Bool.and_eq_true, decide_eq_true_eq,
    List.all_eq_true] at hbelow
  obtain ⟨hdst, huses⟩ := hbelow
  cases s with
  | constOp d v =>
      simpa [runSimple, renameSimple, SimpleOp.dst] using
        Agree_update V δ hδ D avail e e' d (by simpa [SimpleOp.dst] using hdst) v hA
  | addOp d a b =>
      have ha : e' (mkSubst D δ a) = e a := hA a
        (by simpa using huses a (by simp [usesSimple]))
        (subList_mem _ _ huse a (by simp [usesSimple]))
      have hb : e' (mkSubst D δ b) = e b := hA b
        (by simpa using huses b (by simp [usesSimple]))
        (subList_mem _ _ huse b (by simp [usesSimple]))
      have := Agree_update V δ hδ D avail e e' d
        (by simpa [SimpleOp.dst] using hdst) (e a + e b) hA
      simpa [runSimple, renameSimple, SimpleOp.dst, ha, hb] using this
  | ltOp d a b =>
      have ha : e' (mkSubst D δ a) = e a := hA a
        (by simpa using huses a (by simp [usesSimple]))
        (subList_mem _ _ huse a (by simp [usesSimple]))
      have hb : e' (mkSubst D δ b) = e b := hA b
        (by simpa using huses b (by simp [usesSimple]))
        (subList_mem _ _ huse b (by simp [usesSimple]))
      have := Agree_update V δ hδ D avail e e' d
        (by simpa [SimpleOp.dst] using hdst) (if e a < e b then 1 else 0) hA
      simpa [runSimple, renameSimple, SimpleOp.dst, ha, hb] using this
  | extractElementOp d src =>
      have hs : e' (mkSubst D δ src) = e src := hA src
        (by simpa using huses src (by simp [usesSimple]))
        (subList_mem _ _ huse src (by simp [usesSimple]))
      have := Agree_update V δ hδ D avail e e' d
        (by simpa [SimpleOp.dst] using hdst) (e src) hA
      simpa [runSimple, renameSimple, SimpleOp.dst, hs] using this

mutual
/-- More fuel never changes a successful run of an op list. -/
theorem runOps_mono : ∀ n : Nat, ∀ (ops : List Op) (e r : Env),
    runOps n ops e = some r → runOps (n + 1) ops e = some r
  | 0 => by
      intro ops e r h
      cases ops with
      | nil => simpa [runOps] using h
      | cons o rest => simp [runOps] at h
  | n+1 => by
      intro ops e r h
      cases ops with
      | nil => simpa [runOps] using h
      | cons o rest =>
          rw [runOps] at h
          rw [runOps]
          cases ho : runOp n o e with
          | none => rw [ho] at h; cases h
          | some e2 =>
              rw [ho] at h
              dsimp only at h
              rw [runOp_mono n o e e2 ho]
              dsimp only
              exact runOps_mono n rest e2 r h

/-- More fuel never changes a successful run of one operation. -/
theorem runOp_mono : ∀ n : Nat, ∀ (op : Op) (e r : Env),
    runOp n op e = some r → runOp (n + 1) op e = some r
  | 0 => by intro op e r h; simp [runOp] at h
  | n+1 => by
      intro op e r h
      cases op with
      | simple s => simpa [runOp] using h
      | conditional oid res pred targ farg tr fr =>
          rw [runOp] at h
          rw [runOp]
          by_cases hc : e pred ≠ 0
          · simp only [if_pos hc] at h ⊢
            cases hr : runRegionRet n tr [e targ] e with
            | none => rw [hr] at h; cases h
            | some vs =>
                rw [hr] at h
                rw [runRegionRet_mono n tr [e targ] e vs hr]
                exact h
          · simp only [if_neg hc] at h ⊢
            cases hr : runRegionRet n fr [e farg] e with
            | none => rw [hr] at h; cases h
            | some vs =>
                rw [hr] at h
                rw [runRegionRet_mono n fr [e farg] e vs hr]
                exact h
      | whileOp oid res init cr bd =>
          rw [runOp] at h
          rw [runOp]
          cases hr : runWhileAux n cr bd (e init) e with
          | none => rw [hr] at h; cases h
          | some kx =>
              rw [hr] at h
              rw [runWhileAux_mono n cr bd (e init) e kx hr]
              exact h

/-- More fuel never changes a successful structured-while iteration. -/
theorem runWhileAux_mono : ∀ n : Nat, ∀ (cr bd : List Blk) (x : Int) (e : Env)
      (r : Nat × Int),
    runWhileAux n cr bd x e = some r → runWhileAux (n + 1) cr bd x e = some r
  | 0 => by intro cr bd x e r h; simp [runWhileAux] at h
  | n+1 => by
      intro cr bd x e r h
      rw [runWhileAux] at h
      rw [runWhileAux]
      cases hr : runRegionRet n cr [x] e with
      | none => rw [hr] at h; cases h
      | some vs =>
          rw [hr] at h
          rw [runRegionRet_mono n cr [x] e vs hr]
          cases vs with
          | nil => exact h
          | cons c vs2 =>
              cases vs2 with
              | cons _ _ => exact h
              | nil =>
                  dsimp only at h ⊢
                  by_cases hc : c ≠ 0
                  · simp only [if_pos hc] at h ⊢
                    cases hb : runRegionRet n bd [x] e with
                    | none => rw [hb] at h; cases h
                    | some ws =>
                        rw [hb] at h
                        rw [runRegionRet_mono n bd [x] e ws hb]
                        cases ws with
                        | nil => exact h
                        | cons w ws2 =>
                            cases ws2 with
                            | cons _ _ => exact h
                            | nil =>
                                dsimp only at h ⊢
                                cases hw : runWhileAux n cr bd w e with
                                | none => rw [hw] at h; cases h
                                | some kx =>
                                    rw [hw] at h
                                    rw [runWhileAux_mono n cr bd w e kx hw]
                                    exact h
                  · simp only [if_neg hc] at h ⊢
                    exact h

/-- More fuel never changes a successful region run. -/
theorem runRegionRet_mono : ∀ n : Nat, ∀ (R : List Blk) (args : List Int)
      (e : Env) (r : List Int),
    runRegionRet n R args e = some r → runRegionRet (n + 1) R args e = some r
  | 0 => by intro R args e r h; simp [runRegionRet] at h
  | n+1 => by
      intro R args e r h
      rw [runRegionRet.eq_def] at h
      rw [runRegionRet.eq_def]
      dsimp only at h ⊢
      cases R with
      | nil => exact h
      | cons entry rest =>
          dsimp only at h ⊢
          cases hr : runIn n (entry :: rest) entry.bid args e none with
          | none => rw [hr] at h; cases h
          | some exr =>
              rw [hr] at h
              rw [runIn_mono n (entry :: rest) entry.bid args e none exr hr]
              exact h

/-- More fuel never changes a successful block-graph run. -/
theorem runIn_mono : ∀ n : Nat, ∀ (R : List Blk) (cur : Nat) (args : List Int)
      (e : Env) (stop : Option Nat) (r : Exit × Env × List Nat),
    runIn n R cur args e stop = some r → runIn (n + 1) R cur args e stop = some r
  | 0 => by intro R cur args e stop r h; simp [runIn] at h
  | n+1 => by
      intro R cur args e stop r h
      rw [runIn] at h
      rw [runIn]
      cases hf : findBlk R cur with
      | none => rw [hf] at h; cases h
      | some blk =>
          rw [hf] at h
          dsimp only at h ⊢
          cases hb : bindParams blk.params args e with
          | none => rw [hb] at h; cases h
          | some e1 =>
              rw [hb] at h
              dsimp only at h ⊢
              cases ho : runOps n blk.ops e1 with
              | none => rw [ho] at h; cases h
              | some e2 =>
                  rw [ho] at h
                  rw [runOps_mono n blk.ops e1 e2 ho]
                  dsimp only at h ⊢
                  cases ht : blk.term with
                  | ret vs => rw [ht] at h; exact h
                  | stdRet vs => rw [ht] at h; exact h
                  | br t targs =>
                      rw [ht] at h
                      dsimp only at h ⊢
                      by_cases hs : stop = some t
                      · simp only [if_pos hs] at h ⊢
                        exact h
                      · simp only [if_neg hs] at h ⊢
                        cases hrec : runIn n R t (targs.map e2) e2 stop with
                        | none => rw [hrec] at h; cases h
                        | some exr =>
                            rw [hrec] at h
                            rw [runIn_mono n R t (targs.map e2) e2 stop exr hrec]
                            exact h
                  | condBr c tT tA fT fA =>
                      rw [ht] at h
                      dsimp only at h ⊢
                      by_cases hs : stop = some (if e2 c ≠ 0 then tT else fT)
                      · simp only [if_pos hs] at h ⊢
                        exact h
                      · simp only [if_neg hs] at h ⊢
                        cases hrec : runIn n R (if e2 c ≠ 0 then tT else fT)
                            ((if e2 c ≠ 0 then tA else fA).map e2) e2 stop with
                        | none => rw [hrec] at h; cases h
                        | some exr =>
                            rw [hrec] at h
                            rw [runIn_mono n R (if e2 c ≠ 0 then tT else fT)
                              ((if e2 c ≠ 0 then tA else fA).map e2) e2 stop exr hrec]
                            exact h
end

/-- Fuel monotonicity for op lists, in inequality form. -/
theorem runOps_mono_le (m n : Nat) (hmn : m ≤ n) (ops : List Op) (e r : Env)
    (h : runOps m ops e = some r) : runOps n ops e = some r := by
  induction n with
  | zero =>
      have : m = 0 := by omega
      subst this
      exact h
  | succ k ih =>
      by_cases hk : m ≤ k
      · exact runOps_mono k ops e r (ih hk)
      · have : m = k + 1 := by omega
        subst this
        exact h

/-- Fuel monotonicity for whole block-graph runs, in inequality form. -/
theorem runIn_mono_le (m n : Nat) (hmn : m ≤ n) (R : List Blk) (cur : Nat)
    (args : List Int) (e : Env) (stop : Option Nat) (r : Exit × Env × List Nat)
    (h : runIn m R cur args e stop = some r) : runIn n R cur args e stop = some r := by
  induction n with
  | zero =>
      have : m = 0 := by omega
      subst this
      exact h
  | succ k ih =>
      by_cases hk : m ≤ k
      · exact runIn_mono k R cur args e stop r (ih hk)
      · have : m = k + 1 := by omega
        subst this
        exact h

/-- Fuel monotonicity for region runs, in inequality form. -/
theorem runRegionRet_mono_le (m n : Nat) (hmn : m ≤ n) (R : List Blk)
    (args : List Int) (e : Env) (r : List Int)
    (h : runRegionRet m R args e = some r) : runRegionRet n R args e = some r := by
  induction n with
  | zero =>
      have : m = 0 := by omega
      subst this
      exact h
  | succ k ih =>
      by_cases hk : m ≤ k
      · exact runRegionRet_mono k R args e r (ih hk)
      · have : m = k + 1 := by omega
        subst this
        exact h

/-- Fuel monotonicity for the structured while iteration, in inequality
form. -/
theorem runWhileAux_mono_le (m n : Nat) (hmn : m ≤ n) (cr bd : List Blk)
    (x : Int) (e : Env) (r : Nat × Int)
    (h : runWhileAux m cr bd x e = some r) : runWhileAux n cr bd x e = some r := by
  induction n with
  | zero =>
      have : m = 0 := by omega
      subst this
      exact h
  | succ k ih =>
      by_cases hk : m ≤ k
      · exact runWhileAux_mono k cr bd x e r (ih hk)
      · have : m = k + 1 := by omega
        subst this
        exact h

/-- A successful lookup returns a member of the region. -/
theorem findBlk_mem (R : List Blk) (q : Nat) (b : Blk)
    (h : findBlk R q = some b) : b ∈ R := by
  induction R with
  | nil => cases h
  | cons b2 rest ih =>
      by_cases hq : b2.bid = q
      · cases b2 with
        | mk bid ps ops t =>
            simp only [Blk.bid] at hq
            subst hq
            rw [findBlk_cons_self] at h
            simp only [Option.some.injEq] at h
            subst h
            exact List.mem_cons_self _ _
      · cases b2 with
        | mk bid ps ops t =>
            simp only [Blk.bid] at hq
            rw [findBlk_cons_ne _ _ _ _ _ _ hq] at h
            exact List.mem_cons_of_mem _ (ih h)

/-- Availability holds of every block of a disciplined region. -/
theorem wfAvailBlks_mem (R : List Blk) (h : wfAvailBlks R = true)
    (b : Blk) (hb : b ∈ R) : wfAvailBlk b = true := by
  induction R with
  | nil => cases hb
  | cons b2 rest ih =>
      simp only [wfAvailBlks, Bool.and_eq_true] at h
      rcases List.mem_cons.mp hb with rfl | hb2
      · exact h.1
      · exact ih h.2 hb2

/-- Value bounds hold of every block of a bounded region. -/
theorem valsBelowBlks_mem (n : Nat) (R : List Blk) (h : valsBelowBlks n R = true)
    (b : Blk) (hb : b ∈ R) : valsBelowBlk n b = true := by
  induction R with
  | nil => cases hb
  | cons b2 rest ih =>
      simp only [valsBelowBlks, Bool.and_eq_true] at h
      rcases List.mem_cons.mp hb with rfl | hb2
      · exact h.1
      · exact ih h.2 hb2

/-- Target bounds hold of every block of a bounded region. -/
theorem tgtsBelowBlks_mem (n : Nat) (R : List Blk) (h : tgtsBelowBlks n R = true)
    (b : Blk) (hb : b ∈ R) : tgtsBelowBlk n b = true := by
  induction R with
  | nil => cases hb
  | cons b2 rest ih =>
      simp only [tgtsBelowBlks, Bool.and_eq_true] at h
      rcases List.mem_cons.mp hb with rfl | hb2
      · exact h.1
      · exact ih h.2 hb2

/-- The empty availability agreement. -/
theorem Agree_nil (V δ : Nat) (D : List Nat) (e e' : Env) :
    Agree V δ D [] e e' :=
  fun v _ hm => absurd hm (List.not_mem_nil v)

/-- The terminator of a disciplined block reads only the block's parameters
and results. -/
theorem wfAvailOpsT_term : ∀ (ops : List Op) (avail : List Nat) (t : Term),
    wfAvailOpsT avail ops t = true → wfAvailTerm (avail ++ resOps ops) t = true
  | [] => by
      intro avail t h
      simpa [wfAvailOpsT, resOps] using h
  | o :: rest => by
      intro avail t h
      simp only [wfAvailOpsT, Bool.and_eq_true] at h
      have h2 := wfAvailOpsT_term rest (avail ++ resOp o) t h.2
      rw [resOps, ← List.append_assoc]
      exact h2

/-- Block identifiers of a member block occur in the region's identifiers. -/
theorem mem_blkIdsBlks_of_mem (R : List Blk) (b : Blk) (hb : b ∈ R) (x : Nat)
    (hx : x ∈ blkIdsBlk b) : x ∈ blkIdsBlks R := by
  induction R with
  | nil => cases hb
  | cons b2 rest ih =>
      simp only [blkIdsBlks, List.mem_append]
      rcases List.mem_cons.mp hb with rfl | hb2
      · exact Or.inl hx
      · exact Or.inr (ih hb2)

mutual
/-- Renaming invariance for op lists: running the clone of a disciplined op
list on an agreeing environment mirrors the original run. -/
theorem simOps (V δ Bd β : Nat) (D B : List Nat) (hδ : V ≤ δ) (hβ : Bd ≤ β) :
    ∀ n : Nat, ∀ (so : Nat → Nat) (ops : List Op) (t : Term) (avail : List Nat)
      (e e' : Env),
      Agree V δ D avail e e' →
      wfAvailOpsT avail ops t = true →
      valsBelowOps V ops = true →
      tgtsBelowOps Bd ops = true →
      blkIdsBelowOps Bd ops = true →
      SimEnvRel V δ D (avail ++ resOps ops) (runOps n ops e)
        (runOps n (renameOps (mkSubst D δ) (mkSubst B β) so ops) e')
  | 0 => by
      intro so ops t avail e e' hA hAv hV hT hB
      cases ops with
      | nil => exact ⟨e', rfl, by simpa [resOps] using hA⟩
      | cons o rest => simp [runOps, renameOps, SimEnvRel]
  | n+1 => by
      intro so ops t avail e e' hA hAv hV hT hB
      cases ops with
      | nil => exact ⟨e', rfl, by simpa [resOps] using hA⟩
      | cons o rest =>
          simp only [wfAvailOpsT, Bool.and_eq_true] at hAv
          obtain ⟨hAv1, hAv2⟩ := hAv
          simp only [valsBelowOps, Bool.and_eq_true] at hV
          obtain ⟨hV1, hV2⟩ := hV
          simp only [tgtsBelowOps, Bool.and_eq_true] at hT
          obtain ⟨hT1, hT2⟩ := hT
          simp only [blkIdsBelowOps, Bool.and_eq_true] at hB
          obtain ⟨hB1, hB2⟩ := hB
          have hsimO := simOp V δ Bd β D B hδ hβ n so o avail e e' hA hAv1 hV1 hT1 hB1
          simp only [renameOps]
          rw [runOps, runOps]
          cases ho : runOp n o e with
          | none =>
              rw [ho] at hsimO
              dsimp only [SimEnvRel] at hsimO ⊢
              rw [hsimO]
          | some e1 =>
              rw [ho] at hsimO
              dsimp only [SimEnvRel] at hsimO
              obtain ⟨e1', hren1, hA1⟩ := hsimO
              rw [hren1]
              dsimp only
              have hrest := simOps V δ Bd β D B hδ hβ n so rest t (avail ++ resOp o)
                e1 e1' hA1 hAv2 hV2 hT2 hB2
              rw [resOps, ← List.append_assoc]
              exact hrest

/-- Renaming invariance for one operation. -/
theorem simOp (V δ Bd β : Nat) (D B : List Nat) (hδ : V ≤ δ) (hβ : Bd ≤ β) :
    ∀ n : Nat, ∀ (so : Nat → Nat) (op : Op) (avail : List Nat) (e e' : Env),
      Agree V δ D avail e e' →
      wfAvailOp avail op = true →
      valsBelowOp V op = true →
      tgtsBelowOp Bd op = true →
      blkIdsBelowOp Bd op = true →
      SimEnvRel V δ D (avail ++ resOp op) (runOp n op e)
        (runOp n (renameOp (mkSubst D δ) (mkSubst B β) so op) e')
  | 0 => by
      intro so op avail e e' hA hAv hV hT hB
      simp [runOp, SimEnvRel]
  | n+1 => by
      intro so op avail e e' hA hAv hV hT hB
      cases op with
      | simple s =>
          simp only [renameOp]
          rw [runOp, runOp]
          refine ⟨runSimple (renameSimple (mkSubst D δ) s) e', rfl, ?_⟩
          have huse : subList (usesSimple s) avail = true := by
            simpa [wfAvailOp] using hAv
          have := runSimple_sim V δ hδ D avail e e' s hA huse hV
          simpa [resOp] using this
      | conditional oid res pred targ farg tr fr =>
          simp only [wfAvailOp, Bool.and_eq_true] at hAv
          obtain ⟨⟨hAvU, hAvT⟩, hAvF⟩ := hAv
          simp only [valsBelowOp, Bool.and_eq_true, decide_eq_true_eq] at hV
          obtain ⟨⟨⟨⟨⟨hres, hpred⟩, htarg⟩, hfarg⟩, hVT⟩, hVF⟩ := hV
          simp only [tgtsBelowOp, Bool.and_eq_true] at hT
          obtain ⟨hTT, hTF⟩ := hT
          simp only [blkIdsBelowOp, Bool.and_eq_true] at hB
          obtain ⟨hBT, hBF⟩ := hB
          have hpredE : e' (mkSubst D δ pred) = e pred :=
            hA pred hpred (subList_mem _ _ hAvU pred (by simp))
          have htargE : e' (mkSubst D δ targ) = e targ :=
            hA targ htarg (subList_mem _ _ hAvU targ (by simp))
          have hfargE : e' (mkSubst D δ farg) = e farg :=
            hA farg hfarg (subList_mem _ _ hAvU farg (by simp))
          simp only [renameOp]
          rw [runOp, runOp, hpredE, htargE, hfargE]
          by_cases hc : e pred ≠ 0
          · simp only [if_pos hc]
            rw [simRegion V δ Bd β D B hδ hβ n so tr [e targ] e e' hAvT hVT hTT hBT]
            cases hr : runRegionRet n tr [e targ] e with
            | none => simp [SimEnvRel]
            | some vs =>
                cases vs with
                | nil => simp [SimEnvRel]
                | cons v vs2 =>
                    cases vs2 with
                    | cons _ _ => simp [SimEnvRel]
                    | nil =>
                        dsimp only [SimEnvRel]
                        refine ⟨envUpd e' (mkSubst D δ res) v, rfl, ?_⟩
                        simpa [resOp] using
                          Agree_update V δ hδ D avail e e' res hres v hA
          · simp only [if_neg hc]
            rw [simRegion V δ Bd β D B hδ hβ n so fr [e farg] e e' hAvF hVF hTF hBF]
            cases hr : runRegionRet n fr [e farg] e with
            | none => simp [SimEnvRel]
            | some vs =>
                cases vs with
                | nil => simp [SimEnvRel]
                | cons v vs2 =>
                    cases vs2 with
                    | cons _ _ => simp [SimEnvRel]
                    | nil =>
                        dsimp only [SimEnvRel]
                        refine ⟨envUpd e' (mkSubst D δ res) v, rfl, ?_⟩
                        simpa [resOp] using
                          Agree_update V δ hδ D avail e e' res hres v hA
      | whileOp oid res init cr bd =>
          simp only [wfAvailOp, Bool.and_eq_true] at hAv
          obtain ⟨⟨hAvU, hAvC⟩, hAvB⟩ := hAv
          simp only [valsBelowOp, Bool.and_eq_true, decide_eq_true_eq] at hV
          obtain ⟨⟨⟨hres, hinit⟩, hVC⟩, hVB⟩ := hV
          simp only [tgtsBelowOp, Bool.and_eq_true] at hT
          obtain ⟨hTC, hTB⟩ := hT
          simp only [blkIdsBelowOp, Bool.and_eq_true] at hB
          obtain ⟨hBC, hBB⟩ := hB
          have hinitE : e' (mkSubst D δ init) = e init :=
            hA init hinit (subList_mem _ _ hAvU init (by simp))
          simp only [renameOp]
          rw [runOp, runOp, hinitE]
          rw [simWhile V δ Bd β D B hδ hβ n so cr bd (e init) e e'
            hAvC hAvB hVC hVB hTC hTB hBC hBB]
          cases hr : runWhileAux n cr bd (e init) e with
          | none => simp [SimEnvRel]
          | some kx =>
              obtain ⟨k, x⟩ := kx
              dsimp only [SimEnvRel]
              refine ⟨envUpd e' (mkSubst D δ res) x, rfl, ?_⟩
              simpa [resOp] using Agree_update V δ hδ D avail e e' res hres x hA

/-- Renaming invariance for the structured while iteration: the clone's
regions compute exactly the original's iteration count and final value. -/
theorem simWhile (V δ Bd β : Nat) (D B : List Nat) (hδ : V ≤ δ) (hβ : Bd ≤ β) :
    ∀ n : Nat, ∀ (so : Nat → Nat) (cr bd : List Blk) (x : Int) (e e' : Env),
      wfAvailBlks cr = true → wfAvailBlks bd = true →
      valsBelowBlks V cr = true → valsBelowBlks V bd = true →
      tgtsBelowBlks Bd cr = true → tgtsBelowBlks Bd bd = true →
      blkIdsBelowBlks Bd cr = true → blkIdsBelowBlks Bd bd = true →
      runWhileAux n (renameBlks (mkSubst D δ) (mkSubst B β) so cr)
          (renameBlks (mkSubst D δ) (mkSubst B β) so bd) x e'
        = runWhileAux n cr bd x e
  | 0 => by intro so cr bd x e e' _ _ _ _ _ _ _ _; rfl
  | n+1 => by
      intro so cr bd x e e' hA1 hA2 hV1 hV2 hT1 hT2 hB1 hB2
      rw [runWhileAux, runWhileAux]
      rw [simRegion V δ Bd β D B hδ hβ n so cr [x] e e' hA1 hV1 hT1 hB1]
      cases hr : runRegionRet n cr [x] e with
      | none => rfl
      | some vs =>
          cases vs with
          | nil => rfl
          | cons c vs2 =>
              cases vs2 with
              | cons _ _ => rfl
              | nil =>
                  dsimp only
                  by_cases hc : c ≠ 0
                  · simp only [if_pos hc]
                    rw [simRegion V δ Bd β D B hδ hβ n so bd [x] e e' hA2 hV2 hT2 hB2]
                    cases hb : runRegionRet n bd [x] e with
                    | none => rfl
                    | some ws =>
                        cases ws with
                        | nil => rfl
                        | cons w ws2 =>
                            cases ws2 with
                            | cons _ _ => rfl
                            | nil =>
                                dsimp only
                                rw [simWhile V δ Bd β D B hδ hβ n so cr bd w e e'
                                  hA1 hA2 hV1 hV2 hT1 hT2 hB1 hB2]
                  · simp only [if_neg hc]

/-- Renaming invariance for region runs: the clone of a disciplined region
yields exactly the original's values, in any pair of environments. -/
theorem simRegion (V δ Bd β : Nat) (D B : List Nat) (hδ : V ≤ δ) (hβ : Bd ≤ β) :
    ∀ n : Nat, ∀ (so : Nat → Nat) (R : List Blk) (args : List Int) (e e' : Env),
      wfAvailBlks R = true → valsBelowBlks V R = true →
      tgtsBelowBlks Bd R = true → blkIdsBelowBlks Bd R = true →
      runRegionRet n (renameBlks (mkSubst D δ) (mkSubst B β) so R) args e'
        = runRegionRet n R args e
  | 0 => by intro so R args e e' _ _ _ _; rfl
  | n+1 => by
      intro so R args e e' hAv hV hT hB
      rw [runRegionRet.eq_def, runRegionRet.eq_def]
      dsimp only
      cases R with
      | nil => rfl
      | cons entry rest =>
          simp only [renameBlks]
          rw [renameBlk_bid]
          have hcur : entry.bid < Bd :=
            (blkIdsBelowBlks_iff Bd (entry :: rest)).mp hB entry.bid
              (bid_mem_blkIds _ entry (List.mem_cons_self _ _))
          have hsim := simIn V δ Bd β D B hδ hβ n so (entry :: rest) entry.bid
            args e e' hcur hAv hV hT hB
          cases hr : runIn n (entry :: rest) entry.bid args e none with
          | none =>
              rw [hr] at hsim
              dsimp only [SimInRel] at hsim
              simp only [renameBlks] at hsim
              rw [hsim]
          | some exr =>
              obtain ⟨ex, e2, tr⟩ := exr
              rw [hr] at hsim
              dsimp only [SimInRel] at hsim
              obtain ⟨e2', hren⟩ := hsim
              simp only [renameBlks] at hren
              rw [hren]
              cases ex <;> rfl

/-- Renaming invariance for block-graph runs inside a region. -/
theorem simIn (V δ Bd β : Nat) (D B : List Nat) (hδ : V ≤ δ) (hβ : Bd ≤ β) :
    ∀ n : Nat, ∀ (so : Nat → Nat) (R : List Blk) (cur : Nat) (args : List Int)
      (e e' : Env),
      cur < Bd →
      wfAvailBlks R = true → valsBelowBlks V R = true →
      tgtsBelowBlks Bd R = true → blkIdsBelowBlks Bd R = true →
      SimInRel (mkSubst B β) (runIn n R cur args e none)
        (runIn n (renameBlks (mkSubst D δ) (mkSubst B β) so R)
          (mkSubst B β cur) args e' none)
  | 0 => by
      intro so R cur args e e' hcur hAv hV hT hB
      simp [runIn, SimInRel]
  | n+1 => by
      intro so R cur args e e' hcur hAv hV hT hB
      have hfind := findBlk_renameBlks_inj (mkSubst D δ) B β Bd so hβ R cur hcur hB
      rw [runIn, runIn, hfind]
      cases hf : findBlk R cur with
      | none => simp [SimInRel]
      | some blk =>
          have hmem := findBlk_mem R cur blk hf
          have hAvB := wfAvailBlks_mem R hAv blk hmem
          have hVB := valsBelowBlks_mem V R hV blk hmem
          have hTB := tgtsBelowBlks_mem Bd R hT blk hmem
          cases blk with
          | mk bid ps ops t =>
              simp only [wfAvailBlk] at hAvB
              simp only [valsBelowBlk, Bool.and_eq_true, List.all_eq_true] at hVB
              obtain ⟨⟨hVps, hVops⟩, hVterm⟩ := hVB
              simp only [tgtsBelowBlk, Bool.and_eq_true] at hTB
              obtain ⟨hTops, hTterm⟩ := hTB
              have hBops : blkIdsBelowOps Bd ops = true :=
                (blkIdsBelowOps_iff Bd ops).mpr (fun x hx =>
                  (blkIdsBelowBlks_iff Bd R).mp hB x
                    (mem_blkIdsBlks_of_mem R _ hmem x
                      (by simp only [blkIdsBlk, List.mem_cons]; exact Or.inr hx)))
              dsimp only [Option.map, renameBlk, Blk.params, Blk.ops, Blk.term]
              have hbp := bindParams_sim V δ hδ D ps args [] e e'
                (Agree_nil V δ D e e') (fun p hp => by simpa using hVps p hp)
              cases hb2 : bindParams ps args e with
              | none =>
                  rw [hbp.1 hb2]
                  simp [SimInRel]
              | some e1 =>
                  obtain ⟨e1', hren1, hA1⟩ := hbp.2 e1 hb2
                  rw [hren1]
                  dsimp only
                  have hA1' : Agree V δ D ps e1 e1' := by simpa using hA1
                  have hsimO := simOps V δ Bd β D B hδ hβ n so ops t ps e1 e1'
                    hA1' hAvB hVops hTops hBops
                  cases ho : runOps n ops e1 with
                  | none =>
                      rw [ho] at hsimO
                      dsimp only [SimEnvRel] at hsimO
                      rw [hsimO]
                      simp [SimInRel]
                  | some e2 =>
                      rw [ho] at hsimO
                      dsimp only [SimEnvRel] at hsimO
                      obtain ⟨e2', hren2, hA2⟩ := hsimO
                      rw [hren2]
                      dsimp only
                      have hterm := wfAvailOpsT_term ops ps t hAvB
                      cases t with
                      | ret vs =>
                          simp only [wfAvailTerm] at hterm
                          simp only [valsBelowTerm, List.all_eq_true] at hVterm
                          have hmv := mapVals V δ D (ps ++ resOps ops) e2 e2' hA2 vs
                            (fun v hv => subList_mem _ _ hterm v hv)
                            (fun v hv => by simpa using hVterm v hv)
                          dsimp only [renameTerm, SimInRel]
                          exact ⟨e2', by simp [hmv]⟩
                      | stdRet vs =>
                          simp only [wfAvailTerm] at hterm
                          simp only [valsBelowTerm, List.all_eq_true] at hVterm
                          have hmv := mapVals V δ D (ps ++ resOps ops) e2 e2' hA2 vs
                            (fun v hv => subList_mem _ _ hterm v hv)
                            (fun v hv => by simpa using hVterm v hv)
                          dsimp only [renameTerm, SimInRel]
                          exact ⟨e2', by simp [hmv]⟩
                      | br t2 targs =>
                          simp only [wfAvailTerm] at hterm
                          simp only [valsBelowTerm, List.all_eq_true] at hVterm
                          simp only [tgtsBelowTerm, decide_eq_true_eq] at hTterm
                          have hmv := mapVals V δ D (ps ++ resOps ops) e2 e2' hA2 targs
                            (fun v hv => subList_mem _ _ hterm v hv)
                            (fun v hv => by simpa using hVterm v hv)
                          dsimp only [renameTerm]
                          rw [if_neg (by simp : ¬ (none : Option Nat) = some t2)]
                          rw [if_neg (by simp : ¬ (none : Option Nat) = some (mkSubst B β t2))]
                          rw [hmv]
                          have hrec := simIn V δ Bd β D B hδ hβ n so R t2
                            (targs.map e2) e2 e2' hTterm hAv hV hT hB
                          cases hr : runIn n R t2 (targs.map e2) e2 none with
                          | none =>
                              rw [hr] at hrec
                              dsimp only [SimInRel] at hrec
                              rw [hrec]
                              simp [SimInRel]
                          | some exr =>
                              obtain ⟨ex, e3, tr⟩ := exr
                              rw [hr] at hrec
                              dsimp only [SimInRel] at hrec
                              obtain ⟨e3', hren3⟩ := hrec
                              rw [hren3]
                              dsimp only [SimInRel]
                              exact ⟨e3', by simp⟩
                      | condBr c tT tA fT fA =>
                          simp only [wfAvailTerm, subList, List.all_eq_true] at hterm
                          simp only [valsBelowTerm, Bool.and_eq_true,
                            decide_eq_true_eq, List.all_eq_true] at hVterm
                          obtain ⟨hVc, hVta⟩ := hVterm
                          simp only [tgtsBelowTerm, Bool.and_eq_true,
                            decide_eq_true_eq] at hTterm
                          obtain ⟨hTt, hTf⟩ := hTterm
                          have hcE : e2' (mkSubst D δ c) = e2 c := hA2 c hVc
                            (by simpa using hterm c (List.mem_cons_self _ _))
                          dsimp only [renameTerm]
                          rw [hcE]
                          by_cases hcc : e2 c ≠ 0
                          · simp only [if_pos hcc]
                            have hmv := mapVals V δ D (ps ++ resOps ops) e2 e2' hA2 tA
                              (fun v hv => by
                                simpa using hterm v (List.mem_cons_of_mem _
                                  (List.mem_append_left _ hv)))
                              (fun v hv => by
                                simpa using hVta v (List.mem_append_left _ hv))
                            rw [if_neg (by simp : ¬ (none : Option Nat) = some tT)]
                            rw [if_neg (by simp : ¬ (none : Option Nat) = some (mkSubst B β tT))]
                            rw [hmv]
                            have hrec := simIn V δ Bd β D B hδ hβ n so R tT
                              (tA.map e2) e2 e2' hTt hAv hV hT hB
                            cases hr : runIn n R tT (tA.map e2) e2 none with
                            | none =>
                                rw [hr] at hrec
                                dsimp only [SimInRel] at hrec
                                rw [hrec]
                                simp [SimInRel]
                            | some exr =>
                                obtain ⟨ex, e3, tr⟩ := exr
                                rw [hr] at hrec
                                dsimp only [SimInRel] at hrec
                                obtain ⟨e3', hren3⟩ := hrec
                                rw [hren3]
                                dsimp only [SimInRel]
                                exact ⟨e3', by simp⟩
                          · simp only [if_neg hcc]
                            have hmv := mapVals V δ D (ps ++ resOps ops) e2 e2' hA2 fA
                              (fun v hv => by
                                simpa using hterm v (List.mem_cons_of_mem _
                                  (List.mem_append_right _ hv)))
                              (fun v hv => by
                                simpa using hVta v (List.mem_append_right _ hv))
                            rw [if_neg (by simp : ¬ (none : Option Nat) = some fT)]
                            rw [if_neg (by simp : ¬ (none : Option Nat) = some (mkSubst B β fT))]
                            rw [hmv]
                            have hrec := simIn V δ Bd β D B hδ hβ n so R fT
                              (fA.map e2) e2 e2' hTf hAv hV hT hB
                            cases hr : runIn n R fT (fA.map e2) e2 none with
                            | none =>
                                rw [hr] at hrec
                                dsimp only [SimInRel] at hrec
                                rw [hrec]
                                simp [SimInRel]
                            | some exr =>
                                obtain ⟨ex, e3, tr⟩ := exr
                                rw [hr] at hrec
                                dsimp only [SimInRel] at hrec
                                obtain ⟨e3', hren3⟩ := hrec
                                rw [hren3]
                                dsimp only [SimInRel]
                                exact ⟨e3', by simp⟩
end

/-- The clone mapping sends no identifier to a value below its offset other
than an unmapped one; in particular an identifier distinct from `r` (with
`r` below the offset) never lands on `r`. -/
theorem mkSubst_avoid (D : List Nat) (δ r u : Nat) (hr : r < δ) (hu : u ≠ r) :
    mkSubst D δ u ≠ r := by
  simp only [mkSubst]
  by_cases h : u ∈ D
  · rw [if_pos h]; omega
  · rw [if_neg h]; exact hu

/-- The clone mapping sends a mapped identifier above the offset, hence never
onto a value below it. -/
theorem mkSubst_mem_avoid (D : List Nat) (δ r p : Nat) (hr : r < δ)
    (hp : p ∈ D) : mkSubst D δ p ≠ r := by
  simp only [mkSubst, if_pos hp]
  omega

/-- Fuel monotonicity for one operation, in inequality form. -/
theorem runOp_mono_le (m n : Nat) (hmn : m ≤ n) (op : Op) (e r : Env)
    (h : runOp m op e = some r) : runOp n op e = some r := by
  induction n with
  | zero =>
      have : m = 0 := by omega
      subst this
      exact h
  | succ k ih =>
      by_cases hk : m ≤ k
      · exact runOp_mono k op e r (ih hk)
      · have : m = k + 1 := by omega
        subst this
        exact h

/-- Successful runs of two op lists compose into a run of their
concatenation, with the fuels added. -/
theorem runOps_append_ok : ∀ (xs : List Op) (n m : Nat) (ys : List Op)
    (e e2 e3 : Env), runOps n xs e = some e2 → runOps m ys e2 = some e3 →
    runOps (n + m) (xs ++ ys) e = some e3
  | [] => by
      intro n m ys e e2 e3 h1 h2
      cases n with
      | zero =>
          simp only [runOps, Option.some.injEq] at h1
          subst h1
          simpa using runOps_mono_le m (0 + m) (by omega) ys e e3 h2
      | succ k =>
          simp only [runOps, Option.some.injEq] at h1
          subst h1
          simpa using runOps_mono_le m (k + 1 + m) (by omega) ys e e3 h2
  | x :: rest => by
      intro n m ys e e2 e3 h1 h2
      cases n with
      | zero => simp [runOps] at h1
      | succ k =>
          rw [runOps] at h1
          cases hx : runOp k x e with
          | none => rw [hx] at h1; cases h1
          | some e1 =>
              rw [hx] at h1
              dsimp only at h1
              have ih := runOps_append_ok rest k m ys e1 e2 e3 h1 h2
              have hstep : k + 1 + m = (k + m) + 1 := by omega
              rw [hstep, List.cons_append, runOps,
                runOp_mono_le k (k + m) (by omega) x e e1 hx]
              exact ih

mutual
/-- Running a list of operations only writes the identifiers it defines. -/
theorem runOps_frame : ∀ (n : Nat) (ops : List Op) (e e2 : Env),
    runOps n ops e = some e2 → ∀ v, v ∉ resOps ops → e2 v = e v
  | _, [] => by
      intro e e2 h v hv
      simp only [runOps, Option.some.injEq] at h
      subst h
      rfl
  | 0, _ :: _ => by
      intro e e2 h v hv
      simp [runOps] at h
  | n+1, o :: rest => by
      intro e e2 h v hv
      simp only [resOps, List.mem_append] at hv
      push_neg at hv
      rw [runOps] at h
      cases hx : runOp n o e with
      | none => rw [hx] at h; cases h
      | some e1 =>
          rw [hx] at h
          dsimp only at h
          rw [runOps_frame n rest e1 e2 h v hv.2]
          exact runOp_frame n o e e1 hx v hv.1

/-- Running one operation only writes its result identifier. -/
theorem runOp_frame : ∀ (n : Nat) (op : Op) (e e2 : Env),
    runOp n op e = some e2 → ∀ v, v ∉ resOp op → e2 v = e v
  | 0, _ => by
      intro e e2 h v hv
      simp [runOp] at h
  | n+1, .simple s => by
      intro e e2 h v hv
      simp only [resOp, List.mem_singleton] at hv
      rw [runOp, Option.some.injEq] at h
      subst h
      cases s <;> simp only [SimpleOp.dst] at hv <;>
        simp [runSimple, envUpd, if_neg hv]
  | n+1, .conditional oid res p t f tr fr => by
      intro e e2 h v hv
      simp only [resOp, List.mem_singleton] at hv
      rw [runOp] at h
      cases hr : (if e p ≠ 0 then runRegionRet n tr [e t] e else runRegionRet n fr [e f] e) with
      | none => rw [hr] at h; cases h
      | some vs =>
          rw [hr] at h
          cases vs with
          | nil => cases h
          | cons v0 vs2 =>
              cases vs2 with
              | cons _ _ => cases h
              | nil =>
                  simp only [Option.some.injEq] at h
                  subst h
                  simp [envUpd, if_neg hv]
  | n+1, .whileOp oid res init cr bd => by
      intro e e2 h v hv
      simp only [resOp, List.mem_singleton] at hv
      rw [runOp] at h
      cases hr : runWhileAux n cr bd (e init) e with
      | none => rw [hr] at h; cases h
      | some kx =>
          rw [hr] at h
          obtain ⟨k, x⟩ := kx
          simp only [Option.some.injEq] at h
          subst h
          simp [envUpd, if_neg hv]
end

/-- Use replacement is the identity on a simple operation that does not read
the replaced identifier. -/
theorem substSimple_nop (a b : Nat) (s : SimpleOp) (h : a ∉ usesSimple s) :
    substSimple a b s = s := by
  cases s with
  | constOp d v => rfl
  | addOp d x y =>
      simp only [usesSimple, List.mem_cons, List.not_mem_nil, or_false] at h
      push_neg at h
      rw [substSimple, if_neg (fun hc => h.1 hc.symm),
        if_neg (fun hc => h.2 hc.symm)]
  | ltOp d x y =>
      simp only [usesSimple, List.mem_cons, List.not_mem_nil, or_false] at h
      push_neg at h
      rw [substSimple, if_neg (fun hc => h.1 hc.symm),
        if_neg (fun hc => h.2 hc.symm)]
  | extractElementOp d src =>
      simp only [usesSimple, List.mem_singleton] at h
      rw [substSimple, if_neg (fun hc => h hc.symm)]

/-- Use replacement is the identity on a terminator that does not read the
replaced identifier. -/
theorem substTerm_nop (a b : Nat) (t : Term) (h : a ∉ usesTerm t) :
    substTerm a b t = t := by
  cases t with
  | ret args =>
      simp only [usesTerm] at h
      have hmap : args.map (fun v => if v = a then b else v) = args :=
        (List.map_congr_left (fun v hv => if_neg
          (fun hc => h (by rw [← hc]; exact hv)))).trans (List.map_id' args)
      simp [substTerm, renameTerm, hmap]
  | stdRet args =>
      simp only [usesTerm] at h
      have hmap : args.map (fun v => if v = a then b else v) = args :=
        (List.map_congr_left (fun v hv => if_neg
          (fun hc => h (by rw [← hc]; exact hv)))).trans (List.map_id' args)
      simp [substTerm, renameTerm, hmap]
  | br tgt args =>
      simp only [usesTerm] at h
      have hmap : args.map (fun v => if v = a then b else v) = args :=
        (List.map_congr_left (fun v hv => if_neg
          (fun hc => h (by rw [← hc]; exact hv)))).trans (List.map_id' args)
      simp [substTerm, renameTerm, hmap]
  | condBr cnd tt ta ft fa =>
      simp only [usesTerm, List.mem_cons, List.mem_append] at h
      push_neg at h
      obtain ⟨h1, h2, h3⟩ := h
      have hta : ta.map (fun v => if v = a then b else v) = ta :=
        (List.map_congr_left (fun v hv => if_neg
          (fun hc => h2 (by rw [← hc]; exact hv)))).trans (List.map_id' ta)
      have hfa : fa.map (fun v => if v = a then b else v) = fa :=
        (List.map_congr_left (fun v hv => if_neg
          (fun hc => h3 (by rw [← hc]; exact hv)))).trans (List.map_id' fa)
      have hcnd : (if cnd = a then b else cnd) = cnd :=
        if_neg (fun hc => h1 hc.symm)
      simp [substTerm, renameTerm, hta, hfa, hcnd]

mutual
/-- Use replacement is the identity on an operation that does not read the
replaced identifier anywhere. -/
theorem substOp_nop (a b : Nat) : ∀ (op : Op), a ∉ usesOp op →
    substOp a b op = op
  | .simple s => by
      intro h
      rw [substOp, substSimple_nop a b s (by simpa [usesOp] using h)]
  | .conditional oid res p t f tr fr => by
      intro h
      simp only [usesOp, List.mem_cons, List.mem_append] at h
      push_neg at h
      obtain ⟨h1, h2, h3, h4, h5⟩ := h
      rw [substOp, if_neg (fun hc => h1 hc.symm), if_neg (fun hc => h2 hc.symm),
        if_neg (fun hc => h3 hc.symm), substBlks_nop a b tr h4,
        substBlks_nop a b fr h5]
  | .whileOp oid res init cr bd => by
      intro h
      simp only [usesOp, List.mem_cons, List.mem_append] at h
      push_neg at h
      obtain ⟨h1, h2, h3⟩ := h
      rw [substOp, if_neg (fun hc => h1 hc.symm), substBlks_nop a b cr h2,
        substBlks_nop a b bd h3]

/-- Use replacement is the identity on an op list without the identifier. -/
theorem substOps_nop (a b : Nat) : ∀ (ops : List Op), a ∉ usesOps ops →
    substOps a b ops = ops
  | [] => by intro h; rfl
  | o :: rest => by
      intro h
      simp only [usesOps, List.mem_append] at h
      push_neg at h
      rw [substOps, substOp_nop a b o h.1, substOps_nop a b rest h.2]

/-- Use replacement is the identity on a block without the identifier. -/
theorem substBlk_nop (a b : Nat) : ∀ (blk : Blk), a ∉ usesBlk blk →
    substBlk a b blk = blk
  | .mk bid ps ops t => by
      intro h
      simp only [usesBlk, List.mem_append] at h
      push_neg at h
      rw [substBlk, substOps_nop a b ops h.1, substTerm_nop a b t h.2]

/-- Use replacement is the identity on a region without the identifier. -/
theorem substBlks_nop (a b : Nat) : ∀ (R : List Blk), a ∉ usesBlks R →
    substBlks a b R = R
  | [] => by intro h; rfl
  | blk :: rest => by
      intro h
      simp only [usesBlks, List.mem_append] at h
      push_neg at h
      rw [substBlks, substBlk_nop a b blk h.1, substBlks_nop a b rest h.2]
end

/-- Renaming maps a simple operation's uses pointwise. -/
theorem usesSimple_rename (sv : Nat → Nat) (s : SimpleOp) :
    usesSimple (renameSimple sv s) = (usesSimple s).map sv := by
  cases s <;> simp [usesSimple, renameSimple]

/-- Renaming maps a terminator's uses pointwise. -/
theorem usesTerm_rename (sv sb : Nat → Nat) (t : Term) :
    usesTerm (renameTerm sv sb t) = (usesTerm t).map sv := by
  cases t <;> simp [usesTerm, renameTerm]

mutual
/-- Renaming maps an operation's uses pointwise through the value mapping. -/
theorem usesOp_rename (sv sb so : Nat → Nat) : ∀ (op : Op),
    usesOp (renameOp sv sb so op) = (usesOp op).map sv
  | .simple s => by
      rw [renameOp, usesOp, usesOp, usesSimple_rename]
  | .conditional oid res p t f tr fr => by
      rw [renameOp, usesOp, usesOp, usesBlks_rename sv sb so tr,
        usesBlks_rename sv sb so fr]
      simp
  | .whileOp oid res init cr bd => by
      rw [renameOp, usesOp, usesOp, usesBlks_rename sv sb so cr,
        usesBlks_rename sv sb so bd]
      simp

/-- Renaming maps an op list's uses pointwise. -/
theorem usesOps_rename (sv sb so : Nat → Nat) : ∀ (ops : List Op),
    usesOps (renameOps sv sb so ops) = (usesOps ops).map sv
  | [] => rfl
  | o :: rest => by
      rw [renameOps, usesOps, usesOps, usesOp_rename sv sb so o,
        usesOps_rename sv sb so rest, List.map_append]

/-- Renaming maps a block's uses pointwise. -/
theorem usesBlk_rename (sv sb so : Nat → Nat) : ∀ (blk : Blk),
    usesBlk (renameBlk sv sb so blk) = (usesBlk blk).map sv
  | .mk bid ps ops t => by
      rw [renameBlk, usesBlk, usesBlk, usesOps_rename sv sb so ops,
        usesTerm_rename, List.map_append]

/-- Renaming maps a region's uses pointwise. -/
theorem usesBlks_rename (sv sb so : Nat → Nat) : ∀ (R : List Blk),
    usesBlks (renameBlks sv sb so R) = (usesBlks R).map sv
  | [] => rfl
  | blk :: rest => by
      rw [renameBlks, usesBlks, usesBlks, usesBlk_rename sv sb so blk,
        usesBlks_rename sv sb so rest, List.map_append]
end

/-- The loop trace holds the condition block once per iteration plus the
final (falsifying) evaluation. -/
theorem loopTrace_count_cid (cid bid tid : Nat) (h1 : cid ≠ bid)
    (h2 : cid ≠ tid) : ∀ N, (loopTrace cid bid tid N).count cid = N + 1
  | 0 => by simp [loopTrace, List.count_cons, h2, Ne.symm h2]
  | N + 1 => by
      rw [loopTrace]
      simp [List.count_cons, loopTrace_count_cid cid bid tid h1 h2 N,
        h1, Ne.symm h1]

/-- The loop trace holds the body block once per iteration. -/
theorem loopTrace_count_bid (cid bid tid : Nat) (h1 : bid ≠ cid)
    (h2 : bid ≠ tid) : ∀ N, (loopTrace cid bid tid N).count bid = N
  | 0 => by simp [loopTrace, List.count_cons, h1, Ne.symm h1, h2, Ne.symm h2]
  | N + 1 => by
      rw [loopTrace]
      simp [List.count_cons, loopTrace_count_bid cid bid tid h1 h2 N,
        h1, Ne.symm h1]

/-- Mechanical shape of `LowerConditionalOp` on the canonical single-block
conditional function: the lowering succeeds and produces exactly the
four-block function `condLoweredF`. -/
theorem LowerConditionalOp_canonical
    (b0 oid res pred targ farg tb fb tv fv : Nat)
    (ps tps fps : List Nat) (tops fops : List Op) (c : Counters)
    (hb0 : b0 < c.nb) (hres : res < c.nv)
    (hpr : pred ≠ res) (htr : targ ≠ res) (hfr : farg ≠ res)
    (hTids : blkIdsBelowBlks c.nb [Blk.mk tb tps tops (.ret [tv])] = true)
    (hFids : blkIdsBelowBlks c.nb [Blk.mk fb fps fops (.ret [fv])] = true)
    (huT : res ∉ usesBlks [Blk.mk tb tps tops (.ret [tv])])
    (huF : res ∉ usesBlks [Blk.mk fb fps fops (.ret [fv])]) :
    LowerConditionalOp oid
        (condCanonF b0 oid res pred targ farg tb fb tv fv ps tps fps tops fops c)
      = .ok (condLoweredF b0 pred targ farg tb fb tv fv ps tps fps tops fops c) := by
  simp only [blkIdsBelowBlks, blkIdsBelowBlk, Bool.and_eq_true,
    Bool.and_true, decide_eq_true_eq] at hTids hFids
  obtain ⟨htblt, _⟩ := hTids
  obtain ⟨hfblt, _⟩ := hFids
  simp only [usesBlks, usesBlk, usesTerm, List.append_nil, List.mem_append,
    List.mem_singleton] at huT huF
  push_neg at huT huF
  obtain ⟨huT1, huT2⟩ := huT
  obtain ⟨huF1, huF2⟩ := huF
  have htbm : tb ∈ blkIdsBlks [Blk.mk tb tps tops (Term.ret [tv])] := by
    simp [blkIdsBlks, blkIdsBlk]
  have hfbm : fb ∈ blkIdsBlks [Blk.mk fb fps fops (Term.ret [fv])] := by
    simp [blkIdsBlks, blkIdsBlk]
  have hsbT : mkSubst (blkIdsBlks [Blk.mk tb tps tops (Term.ret [tv])])
      (c.nb + 1) tb = tb + (c.nb + 1) := by
    simp only [mkSubst]
    rw [if_pos htbm]
  have hsbF : mkSubst (blkIdsBlks [Blk.mk fb fps fops (Term.ret [fv])])
      ((c.nb + 1) * 2) fb = fb + (c.nb + 1) * 2 := by
    simp only [mkSubst]
    rw [if_pos hfbm]
  have hsubT : res ∉ usesOps (renameOps
      (mkSubst (defsBlks [Blk.mk tb tps tops (Term.ret [tv])]) c.nv)
      (mkSubst (blkIdsBlks [Blk.mk tb tps tops (Term.ret [tv])]) (c.nb + 1))
      (mkSubst (opIdsBlks [Blk.mk tb tps tops (Term.ret [tv])]) c.nop) tops) := by
    rw [usesOps_rename]
    intro hmem
    obtain ⟨u, hu, hue⟩ := List.mem_map.mp hmem
    exact mkSubst_avoid _ c.nv res u hres
      (fun he => huT1 (by rw [← he]; exact hu)) hue
  have hsubTv : res ∉ usesTerm (Term.br c.nb
      [mkSubst (defsBlks [Blk.mk tb tps tops (Term.ret [tv])]) c.nv tv]) := by
    simp only [usesTerm, List.mem_singleton]
    intro hc
    exact mkSubst_avoid _ c.nv res tv hres (fun he => huT2 he.symm) hc.symm
  have hsubF : res ∉ usesOps (renameOps
      (mkSubst (defsBlks [Blk.mk fb fps fops (Term.ret [fv])]) (c.nv * 2))
      (mkSubst (blkIdsBlks [Blk.mk fb fps fops (Term.ret [fv])]) ((c.nb + 1) * 2))
      (mkSubst (opIdsBlks [Blk.mk fb fps fops (Term.ret [fv])]) (c.nop * 2)) fops) := by
    rw [usesOps_rename]
    intro hmem
    obtain ⟨u, hu, hue⟩ := List.mem_map.mp hmem
    exact mkSubst_avoid _ (c.nv * 2) res u (by omega)
      (fun he => huF1 (by rw [← he]; exact hu)) hue
  have hsubFv : res ∉ usesTerm (Term.br c.nb
      [mkSubst (defsBlks [Blk.mk fb fps fops (Term.ret [fv])]) (c.nv * 2) fv]) := by
    simp only [usesTerm, List.mem_singleton]
    intro hc
    exact mkSubst_avoid _ (c.nv * 2) res fv (by omega)
      (fun he => huF2 he.symm) hc.symm
  have hsp : splitOpsAt (opMatches true oid)
      [Op.conditional oid res pred targ farg
        [Blk.mk tb tps tops (.ret [tv])] [Blk.mk fb fps fops (.ret [fv])]]
      = some ([], Op.conditional oid res pred targ farg
          [Blk.mk tb tps tops (.ret [tv])] [Blk.mk fb fps fops (.ret [fv])], []) := by
    simp [splitOpsAt, opMatches]
  have hspB : splitBlksAt (opMatches true oid)
      [Blk.mk b0 ps
        [Op.conditional oid res pred targ farg
          [Blk.mk tb tps tops (.ret [tv])] [Blk.mk fb fps fops (.ret [fv])]]
        (.stdRet [res])]
      = some ([], Blk.mk b0 ps
          [Op.conditional oid res pred targ farg
            [Blk.mk tb tps tops (.ret [tv])] [Blk.mk fb fps fops (.ret [fv])]]
          (.stdRet [res]),
          ([], Op.conditional oid res pred targ farg
            [Blk.mk tb tps tops (.ret [tv])] [Blk.mk fb fps fops (.ret [fv])], []),
          []) := by
    rw [splitBlksAt]
    dsimp only [Blk.ops]
    rw [hsp]
  rw [condCanonF, LowerConditionalOp, lowerStructAt]
  dsimp only
  rw [lowerTopLevel, hspB]
  dsimp only [Blk.bid, Blk.params, Blk.term]
  rw [coreDispatch]
  simp only [LowerConditionalOpCore, cloneRegion]
  dsimp only [Blk.bid]
  simp only [renameBlks, renameBlk, renameTerm, List.map_cons, List.map_nil]
  rw [hsbT, hsbF]
  simp only [List.nil_append, List.append_nil, List.singleton_append,
    List.cons_append]
  rw [ReplaceTerminators]
  dsimp only [Blk.bid]
  rw [hsbT]
  rw [findBlk_cons_ne _ _ _ _ _ _ (by omega : ¬ b0 = tb + (c.nb + 1))]
  rw [findBlk_cons_self]
  dsimp only [Blk.term]
  rw [ReplaceTerminators]
  simp only [setTermFirst, Blk.bid, Blk.params, Blk.ops]
  rw [if_neg (by omega : ¬ b0 = tb + (c.nb + 1))]
  simp only [eq_self_iff_true, if_true]
  rw [ReplaceTerminators]
  dsimp only [Blk.bid]
  rw [hsbF]
  rw [findBlk_cons_ne _ _ _ _ _ _ (by omega : ¬ b0 = fb + (c.nb + 1) * 2)]
  rw [findBlk_cons_ne _ _ _ _ _ _
    (by omega : ¬ tb + (c.nb + 1) = fb + (c.nb + 1) * 2)]
  rw [findBlk_cons_self]
  dsimp only [Blk.term]
  rw [ReplaceTerminators]
  simp only [setTermFirst, Blk.bid, Blk.params, Blk.ops]
  rw [if_neg (by omega : ¬ b0 = fb + (c.nb + 1) * 2),
    if_neg (by omega : ¬ tb + (c.nb + 1) = fb + (c.nb + 1) * 2)]
  simp only [eq_self_iff_true, if_true]
  simp only [addParamFirst, Blk.bid, Blk.params, Blk.ops, Blk.term]
  rw [if_neg (by omega : ¬ b0 = c.nb),
    if_neg (by omega : ¬ tb + (c.nb + 1) = c.nb),
    if_neg (by omega : ¬ fb + (c.nb + 1) * 2 = c.nb)]
  simp only [eq_self_iff_true, if_true]
  simp only [List.nil_append]
  simp only [substBlks, substBlk]
  rw [substOps_nop _ _ _ hsubT, substTerm_nop _ _ _ hsubTv,
    substOps_nop _ _ _ hsubF, substTerm_nop _ _ _ hsubFv]
  simp only [substOps, substOp, substSimple, substTerm, renameTerm,
    List.map_cons, List.map_nil, id]
  rw [if_neg (fun he : pred = res => hpr he),
    if_neg (by omega : ¬ c.nv * 2 * 2 = res),
    if_neg (fun he : targ = res => htr he),
    if_neg (fun he : farg = res => hfr he)]
  simp only [eq_self_iff_true, if_true]
  simp only [dropHeadOpFirst, Blk.bid, Blk.params, Blk.ops, Blk.term]
  rw [if_neg (by omega : ¬ b0 = c.nb),
    if_neg (by omega : ¬ tb + (c.nb + 1) = c.nb),
    if_neg (by omega : ¬ fb + (c.nb + 1) * 2 = c.nb)]
  simp only [eq_self_iff_true, if_true]
  dsimp only [List.tail_cons, LowRes.mapRes]
  rw [condLoweredF]

/-- Mechanical shape of `LowerWhileOp` on the canonical single-block loop
function: the lowering succeeds and produces exactly the four-block function
`whileLoweredF`. -/
theorem LowerWhileOp_canonical
    (b0 oid res init cb cp cv bb bp bv : Nat)
    (ps : List Nat) (cops bops : List Op) (c : Counters)
    (hb0 : b0 < c.nb) (hres : res < c.nv) (hir : init ≠ res)
    (hCids : blkIdsBelowBlks c.nb [Blk.mk cb [cp] cops (.ret [cv])] = true)
    (hBids : blkIdsBelowBlks c.nb [Blk.mk bb [bp] bops (.ret [bv])] = true)
    (huC : res ∉ usesBlks [Blk.mk cb [cp] cops (.ret [cv])])
    (huB : res ∉ usesBlks [Blk.mk bb [bp] bops (.ret [bv])]) :
    LowerWhileOp oid (whileCanonF b0 oid res init cb cp cv bb bp bv ps cops bops c)
      = .ok (whileLoweredF b0 init cb cp cv bb bp bv ps cops bops c) := by
  simp only [blkIdsBelowBlks, blkIdsBelowBlk, Bool.and_eq_true,
    Bool.and_true, decide_eq_true_eq] at hCids hBids
  obtain ⟨hcblt, _⟩ := hCids
  obtain ⟨hbblt, _⟩ := hBids
  simp only [usesBlks, usesBlk, usesTerm, List.append_nil, List.mem_append,
    List.mem_singleton] at huC huB
  push_neg at huC huB
  obtain ⟨huC1, huC2⟩ := huC
  obtain ⟨huB1, huB2⟩ := huB
  have hsbC : mkSubst (blkIdsBlks [Blk.mk cb [cp] cops (Term.ret [cv])])
      (c.nb + 1) cb = cb + (c.nb + 1) := by
    simp only [mkSubst]
    rw [if_pos (by simp [blkIdsBlks, blkIdsBlk])]
  have hsbB : mkSubst (blkIdsBlks [Blk.mk bb [bp] bops (Term.ret [bv])])
      ((c.nb + 1) * 2) bb = bb + (c.nb + 1) * 2 := by
    simp only [mkSubst]
    rw [if_pos (by simp [blkIdsBlks, blkIdsBlk])]
  have hsubC : res ∉ usesOps (renameOps
      (mkSubst (defsBlks [Blk.mk cb [cp] cops (Term.ret [cv])]) c.nv)
      (mkSubst (blkIdsBlks [Blk.mk cb [cp] cops (Term.ret [cv])]) (c.nb + 1))
      (mkSubst (opIdsBlks [Blk.mk cb [cp] cops (Term.ret [cv])]) c.nop) cops) := by
    rw [usesOps_rename]
    intro hmem
    obtain ⟨u, hu, hue⟩ := List.mem_map.mp hmem
    exact mkSubst_avoid _ c.nv res u hres
      (fun he => huC1 (by rw [← he]; exact hu)) hue
  have hsubCv : ¬ mkSubst (defsBlks [Blk.mk cb [cp] cops (Term.ret [cv])]) c.nv cv
      = res :=
    mkSubst_avoid _ c.nv res cv hres (fun he => huC2 he.symm)
  have hsubCp : res ∉ usesTerm (Term.condBr (c.nv * 2 * 2) (bb + (c.nb + 1) * 2)
      [mkSubst (defsBlks [Blk.mk cb [cp] cops (Term.ret [cv])]) c.nv cp] c.nb
      [mkSubst (defsBlks [Blk.mk cb [cp] cops (Term.ret [cv])]) c.nv cp]) := by
    have hcpne : ¬ mkSubst (defsBlks [Blk.mk cb [cp] cops (Term.ret [cv])]) c.nv cp
        = res :=
      mkSubst_mem_avoid _ c.nv res cp hres (by simp [defsBlks, defsBlk])
    simp only [usesTerm, List.mem_cons, List.mem_append, List.mem_singleton,
      List.not_mem_nil, or_false]
    intro hmem
    rcases hmem with h | h | h
    · omega
    · exact hcpne h.symm
    · exact hcpne h.symm
  have hsubB : res ∉ usesOps (renameOps
      (mkSubst (defsBlks [Blk.mk bb [bp] bops (Term.ret [bv])]) (c.nv * 2))
      (mkSubst (blkIdsBlks [Blk.mk bb [bp] bops (Term.ret [bv])]) ((c.nb + 1) * 2))
      (mkSubst (opIdsBlks [Blk.mk bb [bp] bops (Term.ret [bv])]) (c.nop * 2)) bops) := by
    rw [usesOps_rename]
    intro hmem
    obtain ⟨u, hu, hue⟩ := List.mem_map.mp hmem
    exact mkSubst_avoid _ (c.nv * 2) res u (by omega)
      (fun he => huB1 (by rw [← he]; exact hu)) hue
  have hsubBv : res ∉ usesTerm (Term.br (cb + (c.nb + 1))
      [mkSubst (defsBlks [Blk.mk bb [bp] bops (Term.ret [bv])]) (c.nv * 2) bv]) := by
    simp only [usesTerm, List.mem_singleton]
    intro hc
    exact mkSubst_avoid _ (c.nv * 2) res bv (by omega)
      (fun he => huB2 he.symm) hc.symm
  have hsubP : res ∉ usesTerm (Term.br (cb + (c.nb + 1)) [init]) := by
    simp only [usesTerm, List.mem_singleton]
    intro hc
    exact hir hc.symm
  have hsp : splitOpsAt (opMatches false oid)
      [Op.whileOp oid res init
        [Blk.mk cb [cp] cops (.ret [cv])] [Blk.mk bb [bp] bops (.ret [bv])]]
      = some ([], Op.whileOp oid res init
          [Blk.mk cb [cp] cops (.ret [cv])] [Blk.mk bb [bp] bops (.ret [bv])], []) := by
    simp [splitOpsAt, opMatches]
  have hspB : splitBlksAt (opMatches false oid)
      [Blk.mk b0 ps
        [Op.whileOp oid res init
          [Blk.mk cb [cp] cops (.ret [cv])] [Blk.mk bb [bp] bops (.ret [bv])]]
        (.stdRet [res])]
      = some ([], Blk.mk b0 ps
          [Op.whileOp oid res init
            [Blk.mk cb [cp] cops (.ret [cv])] [Blk.mk bb [bp] bops (.ret [bv])]]
          (.stdRet [res]),
          ([], Op.whileOp oid res init
            [Blk.mk cb [cp] cops (.ret [cv])] [Blk.mk bb [bp] bops (.ret [bv])], []),
          []) := by
    rw [splitBlksAt]
    dsimp only [Blk.ops]
    rw [hsp]
  rw [whileCanonF, LowerWhileOp, lowerStructAt]
  dsimp only
  rw [lowerTopLevel, hspB]
  dsimp only [Blk.bid, Blk.params, Blk.term]
  rw [coreDispatch]
  simp only [LowerWhileOpCore, cloneRegion]
  dsimp only [Blk.bid]
  simp only [renameBlks, renameBlk, renameTerm, List.map_cons, List.map_nil]
  rw [hsbC, hsbB]
  simp only [List.nil_append, List.append_nil, List.singleton_append,
    List.cons_append]
  rw [rewriteCondBlocks]
  dsimp only [Blk.bid]
  rw [hsbC]
  rw [findBlk_cons_ne _ _ _ _ _ _ (by omega : ¬ b0 = cb + (c.nb + 1))]
  rw [findBlk_cons_self]
  dsimp only [Blk.term, Blk.params, Blk.ops]
  rw [rewriteCondBlocks]
  simp only [setOpsTermFirst, Blk.bid, Blk.params, Blk.ops]
  rw [if_neg (by omega : ¬ b0 = cb + (c.nb + 1))]
  simp only [eq_self_iff_true, if_true]
  rw [rewriteBodyBlocks]
  dsimp only [Blk.bid]
  rw [hsbB]
  rw [findBlk_cons_ne _ _ _ _ _ _ (by omega : ¬ b0 = bb + (c.nb + 1) * 2)]
  rw [findBlk_cons_ne _ _ _ _ _ _
    (by omega : ¬ cb + (c.nb + 1) = bb + (c.nb + 1) * 2)]
  rw [findBlk_cons_self]
  dsimp only [Blk.term]
  rw [rewriteBodyBlocks]
  simp only [setTermFirst, Blk.bid, Blk.params, Blk.ops]
  rw [if_neg (by omega : ¬ b0 = bb + (c.nb + 1) * 2),
    if_neg (by omega : ¬ cb + (c.nb + 1) = bb + (c.nb + 1) * 2)]
  simp only [eq_self_iff_true, if_true]
  simp only [addParamFirst, Blk.bid, Blk.params, Blk.ops, Blk.term]
  rw [if_neg (by omega : ¬ b0 = c.nb),
    if_neg (by omega : ¬ cb + (c.nb + 1) = c.nb),
    if_neg (by omega : ¬ bb + (c.nb + 1) * 2 = c.nb)]
  simp only [eq_self_iff_true, if_true]
  simp only [List.nil_append]
  simp only [substBlks, substBlk]
  rw [substTerm_nop _ _ _ hsubP, substTerm_nop _ _ _ hsubCp,
    substOps_nop _ _ _ hsubB, substTerm_nop _ _ _ hsubBv]
  rw [substOps_append, substOps_nop _ _ _ hsubC]
  simp only [substOps, substOp, substSimple, substTerm, renameTerm,
    List.map_cons, List.map_nil, id]
  rw [if_neg hsubCv]
  simp only [eq_self_iff_true, if_true]
  simp only [dropHeadOpFirst, Blk.bid, Blk.params, Blk.ops, Blk.term]
  rw [if_neg (by omega : ¬ b0 = c.nb),
    if_neg (by omega : ¬ cb + (c.nb + 1) = c.nb),
    if_neg (by omega : ¬ bb + (c.nb + 1) * 2 = c.nb)]
  simp only [eq_self_iff_true, if_true]
  dsimp only [List.tail_cons, LowRes.mapRes]
  rw [whileLoweredF]

/-- C2: for the canonical function holding one Conditional whose single-block
true and false regions each yield one value (equal-arity result sequences),
and for every input vector: when the lowering succeeds, running the lowered
function with a true (nonzero) predicate yields exactly the true region's
result value, entering the cloned true block and flowing into the tail — and
with a false predicate exactly the false region's result value through the
cloned false block.  The region runs quantify over arbitrary region bodies
(including nested structured operations), so the lowered function reproduces
the chosen region's behaviour for all inputs. -/
theorem C2_lowered_conditional_reproduces_chosen_region
    (b0 oid res pred targ farg tb fb tv fv : Nat)
    (ps tps fps : List Nat) (tops fops : List Op) (c : Counters)
    (hb0 : b0 < c.nb) (hres : res < c.nv)
    (hpr : pred ≠ res) (htr : targ ≠ res) (hfr : farg ≠ res)
    (htlt : targ < c.nv) (hflt : farg < c.nv)
    (hTav : wfAvailBlks [Blk.mk tb tps tops (.ret [tv])] = true)
    (hFav : wfAvailBlks [Blk.mk fb fps fops (.ret [fv])] = true)
    (hTvals : valsBelowBlks c.nv [Blk.mk tb tps tops (.ret [tv])] = true)
    (hFvals : valsBelowBlks c.nv [Blk.mk fb fps fops (.ret [fv])] = true)
    (hTtg : tgtsBelowBlks c.nb [Blk.mk tb tps tops (.ret [tv])] = true)
    (hFtg : tgtsBelowBlks c.nb [Blk.mk fb fps fops (.ret [fv])] = true)
    (hTids : blkIdsBelowBlks c.nb [Blk.mk tb tps tops (.ret [tv])] = true)
    (hFids : blkIdsBelowBlks c.nb [Blk.mk fb fps fops (.ret [fv])] = true)
    (huT : res ∉ usesBlks [Blk.mk tb tps tops (.ret [tv])])
    (huF : res ∉ usesBlks [Blk.mk fb fps fops (.ret [fv])])
    (F' : FuncState)
    (hlow : LowerConditionalOp oid
        (condCanonF b0 oid res pred targ farg tb fb tv fv ps tps fps tops fops c)
      = .ok F')
    (inputs : List Int) (e1 : Env)
    (hbind : bindParams ps inputs env0 = some e1) (k : Nat) (v : Int) :
    (e1 pred ≠ 0 →
      runRegionRet k [Blk.mk tb tps tops (.ret [tv])] [e1 targ] e1 = some [v] →
      ∃ m, runFuncObs m F' inputs
        = some (.exStdRet [v], [b0, tb + (c.nb + 1), c.nb]))
    ∧ (e1 pred = 0 →
      runRegionRet k [Blk.mk fb fps fops (.ret [fv])] [e1 farg] e1 = some [v] →
      ∃ m, runFuncObs m F' inputs
        = some (.exStdRet [v], [b0, fb + (c.nb + 1) * 2, c.nb])) := by
  rw [LowerConditionalOp_canonical b0 oid res pred targ farg tb fb tv fv
    ps tps fps tops fops c hb0 hres hpr htr hfr hTids hFids huT huF] at hlow
  injection hlow with hF'
  subst hF'
  have htail : ∀ (E : Env) (w : Int),
      runIn 1 (condLoweredF b0 pred targ farg tb fb tv fv ps tps fps tops fops c).body
        c.nb [w] E none
      = some (.exStdRet [w], envUpd E (c.nv * 2 * 2 + 1) w, [c.nb]) := by
    intro E w
    rw [condLoweredF]
    dsimp only
    rw [runIn]
    rw [findBlk_cons_ne _ _ _ _ _ _ (by omega : ¬ b0 = c.nb),
      findBlk_cons_ne _ _ _ _ _ _ (by omega : ¬ tb + (c.nb + 1) = c.nb),
      findBlk_cons_ne _ _ _ _ _ _ (by omega : ¬ fb + (c.nb + 1) * 2 = c.nb),
      findBlk_cons_self]
    dsimp only [Blk.params, Blk.ops, Blk.term]
    simp [bindParams, runOps, envUpd]
  have htblt : tb < c.nb := by
    have h := hTids
    simp only [blkIdsBelowBlks, blkIdsBelowBlk, Bool.and_eq_true, Bool.and_true,
      decide_eq_true_eq] at h
    exact h.1
  have hfblt : fb < c.nb := by
    have h := hFids
    simp only [blkIdsBelowBlks, blkIdsBelowBlk, Bool.and_eq_true, Bool.and_true,
      decide_eq_true_eq] at h
    exact h.1
  constructor
  · intro hpredT hreg
    simp only [wfAvailBlks, wfAvailBlk, Bool.and_true] at hTav
    simp only [valsBelowBlks, valsBelowBlk, Bool.and_eq_true, Bool.and_true] at hTvals
    obtain ⟨⟨hTps, hTops⟩, hTterm⟩ := hTvals
    simp only [tgtsBelowBlks, tgtsBelowBlk, Bool.and_eq_true, Bool.and_true] at hTtg
    obtain ⟨hTtops, _⟩ := hTtg
    simp only [blkIdsBelowBlks, blkIdsBelowBlk, Bool.and_eq_true, Bool.and_true,
      decide_eq_true_eq] at hTids
    obtain ⟨_, hTbops⟩ := hTids
    cases k with
    | zero =>
        rw [runRegionRet.eq_def] at hreg
        dsimp only at hreg
        cases hreg
    | succ k1 =>
        rw [runRegionRet.eq_def] at hreg
        dsimp only [Blk.bid] at hreg
        cases hri : runIn k1 [Blk.mk tb tps tops (Term.ret [tv])] tb [e1 targ] e1 none with
        | none => rw [hri] at hreg; cases hreg
        | some r =>
            obtain ⟨ex, e2t, trc⟩ := r
            rw [hri] at hreg
            cases ex with
            | exStdRet vs => cases hreg
            | exJump vs => cases hreg
            | exRet vs =>
                dsimp only at hreg
                injection hreg with hvs
                subst hvs
                cases k1 with
                | zero => rw [runIn] at hri; cases hri
                | succ k2 =>
                    rw [runIn, findBlk_cons_self] at hri
                    dsimp only [Blk.params, Blk.ops, Blk.term] at hri
                    cases hbt : bindParams tps [e1 targ] e1 with
                    | none => rw [hbt] at hri; cases hri
                    | some et1 =>
                        rw [hbt] at hri
                        dsimp only at hri
                        cases hto : runOps k2 tops et1 with
                        | none => rw [hto] at hri; cases hri
                        | some et2 =>
                            rw [hto] at hri
                            dsimp only at hri
                            simp only [Option.some.injEq, Prod.mk.injEq,
                              List.map_cons, List.map_nil, Exit.exRet.injEq] at hri
                            obtain ⟨hvv, he2t, htrc⟩ := hri
                            have hv : et2 tv = v := by
                              simpa using hvv
                            have hps : ∀ p ∈ tps, p < c.nv := by
                              intro p hp
                              simpa using List.all_eq_true.mp hTps p hp
                            have hbp := (bindParams_sim c.nv c.nv (le_refl _)
                              (defsBlks [Blk.mk tb tps tops (Term.ret [tv])]) tps
                              [e1 targ] [] e1
                              (envUpd e1 (c.nv * 2 * 2) (e1 pred))
                              (Agree_nil _ _ _ _ _) hps).2 et1 hbt
                            obtain ⟨et1', hbt', hA1⟩ := hbp
                            have hsim := simOps c.nv c.nv c.nb (c.nb + 1)
                              (defsBlks [Blk.mk tb tps tops (Term.ret [tv])])
                              (blkIdsBlks [Blk.mk tb tps tops (Term.ret [tv])])
                              (le_refl _) (Nat.le_succ _) k2
                              (mkSubst (opIdsBlks [Blk.mk tb tps tops (Term.ret [tv])]) c.nop)
                              tops (Term.ret [tv]) tps et1 et1'
                              (by simpa using hA1) hTav hTops hTtops hTbops
                            rw [hto] at hsim
                            dsimp only [SimEnvRel] at hsim
                            obtain ⟨et2', hto', hA2⟩ := hsim
                            have htvlt : tv < c.nv := by
                              simpa [valsBelowTerm] using hTterm
                            have htterm := wfAvailOpsT_term tops tps (Term.ret [tv]) hTav
                            have htvmem : tv ∈ tps ++ resOps tops :=
                              subList_mem _ _ (by simpa [wfAvailTerm] using htterm)
                                tv (by simp)
                            have hval : et2' (mkSubst
                                (defsBlks [Blk.mk tb tps tops (Term.ret [tv])]) c.nv tv)
                                = et2 tv := hA2 tv htvlt htvmem
                            have hclone : runIn (k2 + 2)
                                (condLoweredF b0 pred targ farg tb fb tv fv ps tps fps tops fops c).body
                                (tb + (c.nb + 1)) [e1 targ]
                                (envUpd e1 (c.nv * 2 * 2) (e1 pred)) none
                              = some (.exStdRet [v], envUpd et2' (c.nv * 2 * 2 + 1) v,
                                  [tb + (c.nb + 1), c.nb]) := by
                              rw [condLoweredF]
                              dsimp only
                              rw [runIn]
                              rw [findBlk_cons_ne _ _ _ _ _ _
                                (by omega : ¬ b0 = tb + (c.nb + 1)), findBlk_cons_self]
                              dsimp only [Blk.params, Blk.ops, Blk.term]
                              rw [hbt']
                              dsimp only
                              rw [runOps_mono_le k2 (k2 + 1) (by omega) _ _ _ hto']
                              dsimp only
                              rw [if_neg (by simp : ¬ (none : Option Nat) = some c.nb)]
                              simp only [List.map_cons, List.map_nil]
                              rw [hval, hv]
                              have htail2 := htail et2' v
                              rw [condLoweredF] at htail2
                              dsimp only at htail2
                              rw [runIn_mono_le 1 (k2 + 1) (by omega) _ _ _ _ _ _ htail2]
                            refine ⟨k2 + 5, ?_⟩
                            rw [runFuncObs, runFunc, condLoweredF]
                            dsimp only
                            rw [runIn]
                            dsimp only [Blk.bid]
                            rw [findBlk_cons_self]
                            dsimp only [Blk.params, Blk.ops, Blk.term]
                            rw [hbind]
                            dsimp only
                            have hext : runOps (k2 + 4)
                                [Op.simple (.extractElementOp (c.nv * 2 * 2) pred)] e1
                              = some (envUpd e1 (c.nv * 2 * 2) (e1 pred)) := by
                              simp [runOps, runOp, runSimple]
                            rw [hext]
                            dsimp only
                            have hscrut : envUpd e1 (c.nv * 2 * 2) (e1 pred)
                                (c.nv * 2 * 2) = e1 pred := by
                              simp [envUpd]
                            rw [hscrut]
                            simp only [if_pos hpredT]
                            rw [if_neg (by simp : ¬ (none : Option Nat)
                              = some (tb + (c.nb + 1)))]
                            simp only [List.map_cons, List.map_nil]
                            have hta : envUpd e1 (c.nv * 2 * 2) (e1 pred) targ
                                = e1 targ := by
                              simp only [envUpd]
                              rw [if_neg (by omega : ¬ targ = c.nv * 2 * 2)]
                            rw [hta]
                            have hclone2 := runIn_mono_le (k2 + 2) (k2 + 4) (by omega)
                              _ _ _ _ _ _ hclone
                            rw [condLoweredF] at hclone2
                            dsimp only at hclone2
                            rw [hclone2]
  · intro hpredF hreg
    simp only [wfAvailBlks, wfAvailBlk, Bool.and_true] at hFav
    simp only [valsBelowBlks, valsBelowBlk, Bool.and_eq_true, Bool.and_true] at hFvals
    obtain ⟨⟨hFps, hFops⟩, hFterm⟩ := hFvals
    simp only [tgtsBelowBlks, tgtsBelowBlk, Bool.and_eq_true, Bool.and_true] at hFtg
    obtain ⟨hFtops, _⟩ := hFtg
    simp only [blkIdsBelowBlks, blkIdsBelowBlk, Bool.and_eq_true, Bool.and_true,
      decide_eq_true_eq] at hFids
    obtain ⟨_, hFbops⟩ := hFids
    cases k with
    | zero =>
        rw [runRegionRet.eq_def] at hreg
        dsimp only at hreg
        cases hreg
    | succ k1 =>
        rw [runRegionRet.eq_def] at hreg
        dsimp only [Blk.bid] at hreg
        cases hri : runIn k1 [Blk.mk fb fps fops (Term.ret [fv])] fb [e1 farg] e1 none with
        | none => rw [hri] at hreg; cases hreg
        | some r =>
            obtain ⟨ex, e2t, trc⟩ := r
            rw [hri] at hreg
            cases ex with
            | exStdRet vs => cases hreg
            | exJump vs => cases hreg
            | exRet vs =>
                dsimp only at hreg
                injection hreg with hvs
                subst hvs
                cases k1 with
                | zero => rw [runIn] at hri; cases hri
                | succ k2 =>
                    rw [runIn, findBlk_cons_self] at hri
                    dsimp only [Blk.params, Blk.ops, Blk.term] at hri
                    cases hbt : bindParams fps [e1 farg] e1 with
                    | none => rw [hbt] at hri; cases hri
                    | some ef1 =>
                        rw [hbt] at hri
                        dsimp only at hri
                        cases hto : runOps k2 fops ef1 with
                        | none => rw [hto] at hri; cases hri
                        | some ef2 =>
                            rw [hto] at hri
                            dsimp only at hri
                            simp only [Option.some.injEq, Prod.mk.injEq,
                              List.map_cons, List.map_nil, Exit.exRet.injEq] at hri
                            obtain ⟨hvv, he2t, htrc⟩ := hri
                            have hv : ef2 fv = v := by
                              simpa using hvv
                            have hps : ∀ p ∈ fps, p < c.nv := by
                              intro p hp
                              simpa using List.all_eq_true.mp hFps p hp
                            have hbp := (bindParams_sim c.nv (c.nv * 2) (by omega)
                              (defsBlks [Blk.mk fb fps fops (Term.ret [fv])]) fps
                              [e1 farg] [] e1
                              (envUpd e1 (c.nv * 2 * 2) (e1 pred))
                              (Agree_nil _ _ _ _ _) hps).2 ef1 hbt
                            obtain ⟨ef1', hbt', hA1⟩ := hbp
                            have hsim := simOps c.nv (c.nv * 2) c.nb ((c.nb + 1) * 2)
                              (defsBlks [Blk.mk fb fps fops (Term.ret [fv])])
                              (blkIdsBlks [Blk.mk fb fps fops (Term.ret [fv])])
                              (by omega) (by omega) k2
                              (mkSubst (opIdsBlks [Blk.mk fb fps fops (Term.ret [fv])]) (c.nop * 2))
                              fops (Term.ret [fv]) fps ef1 ef1'
                              (by simpa using hA1) hFav hFops hFtops hFbops
                            rw [hto] at hsim
                            dsimp only [SimEnvRel] at hsim
                            obtain ⟨ef2', hto', hA2⟩ := hsim
                            have hfvlt : fv < c.nv := by
                              simpa [valsBelowTerm] using hFterm
                            have hfterm := wfAvailOpsT_term fops fps (Term.ret [fv]) hFav
                            have hfvmem : fv ∈ fps ++ resOps fops :=
                              subList_mem _ _ (by simpa [wfAvailTerm] using hfterm)
                                fv (by simp)
                            have hval : ef2' (mkSubst
                                (defsBlks [Blk.mk fb fps fops (Term.ret [fv])]) (c.nv * 2) fv)
                                = ef2 fv := hA2 fv hfvlt hfvmem
                            have hclone : runIn (k2 + 2)
                                (condLoweredF b0 pred targ farg tb fb tv fv ps tps fps tops fops c).body
                                (fb + (c.nb + 1) * 2) [e1 farg]
                                (envUpd e1 (c.nv * 2 * 2) (e1 pred)) none
                              = some (.exStdRet [v], envUpd ef2' (c.nv * 2 * 2 + 1) v,
                                  [fb + (c.nb + 1) * 2, c.nb]) := by
                              rw [condLoweredF]
                              dsimp only
                              rw [runIn]
                              rw [findBlk_cons_ne _ _ _ _ _ _
                                (by omega : ¬ b0 = fb + (c.nb + 1) * 2),
                                findBlk_cons_ne _ _ _ _ _ _
                                (by omega : ¬ tb + (c.nb + 1) = fb + (c.nb + 1) * 2),
                                findBlk_cons_self]
                              dsimp only [Blk.params, Blk.ops, Blk.term]
                              rw [hbt']
                              dsimp only
                              rw [runOps_mono_le k2 (k2 + 1) (by omega) _ _ _ hto']
                              dsimp only
                              rw [if_neg (by simp : ¬ (none : Option Nat) = some c.nb)]
                              simp only [List.map_cons, List.map_nil]
                              rw [hval, hv]
                              have htail2 := htail ef2' v
                              rw [condLoweredF] at htail2
                              dsimp only at htail2
                              rw [runIn_mono_le 1 (k2 + 1) (by omega) _ _ _ _ _ _ htail2]
                            refine ⟨k2 + 5, ?_⟩
                            rw [runFuncObs, runFunc, condLoweredF]
                            dsimp only
                            rw [runIn]
                            dsimp only [Blk.bid]
                            rw [findBlk_cons_self]
                            dsimp only [Blk.params, Blk.ops, Blk.term]
                            rw [hbind]
                            dsimp only
                            have hext : runOps (k2 + 4)
                                [Op.simple (.extractElementOp (c.nv * 2 * 2) pred)] e1
                              = some (envUpd e1 (c.nv * 2 * 2) (e1 pred)) := by
                              simp [runOps, runOp, runSimple]
                            rw [hext]
                            dsimp only
                            have hscrut : envUpd e1 (c.nv * 2 * 2) (e1 pred)
                                (c.nv * 2 * 2) = e1 pred := by
                              simp [envUpd]
                            rw [hscrut]
                            simp only [if_neg (fun hh : ¬ e1 pred = 0 => hh hpredF)]
                            rw [if_neg (by simp : ¬ (none : Option Nat)
                              = some (fb + (c.nb + 1) * 2))]
                            simp only [List.map_cons, List.map_nil]
                            have hta : envUpd e1 (c.nv * 2 * 2) (e1 pred) farg
                                = e1 farg := by
                              simp only [envUpd]
                              rw [if_neg (by omega : ¬ farg = c.nv * 2 * 2)]
                            rw [hta]
                            have hclone2 := runIn_mono_le (k2 + 2) (k2 + 4) (by omega)
                              _ _ _ _ _ _ hclone
                            rw [condLoweredF] at hclone2
                            dsimp only at hclone2
                            rw [hclone2]

/-- C2 witness (Scenario A): `%r = cond(%p, true {return 5}, false
{return 7})` with the predicate input `1` (true) — the lowered function
returns the downstream value `5`, entering the cloned true block (id 5) and
the tail (id 3). -/
theorem C2_witness :
    ∃ m, runFuncObs m (condLoweredF 0 0 0 0 1 2 2 4 [0] [1] [3]
        [.simple (.constOp 2 5)] [.simple (.constOp 4 7)] ⟨6, 3, 1⟩) [1]
      = some (.exStdRet [5], [0, 5, 3]) := by
  have h := C2_lowered_conditional_reproduces_chosen_region 0 0 5 0 0 0 1 2 2 4
    [0] [1] [3] [.simple (.constOp 2 5)] [.simple (.constOp 4 7)] ⟨6, 3, 1⟩
    (by decide) (by decide) (by decide) (by decide) (by decide)
    (by decide) (by decide)
    (by decide) (by decide) (by decide) (by decide) (by decide) (by decide)
    (by decide) (by decide) (by decide) (by decide)
    (condLoweredF 0 0 0 0 1 2 2 4 [0] [1] [3]
      [.simple (.constOp 2 5)] [.simple (.constOp 4 7)] ⟨6, 3, 1⟩)
    rfl [1] (envUpd env0 0 1) rfl 4 5
  exact h.1 (by decide) rfl

/-- Entering the lowered loop's tail block: bind the new parameter and hit
the function return with it. -/
theorem whileLowered_tail_run (b0 init cb cp cv bb bp bv : Nat)
    (ps : List Nat) (cops bops : List Op) (c : Counters)
    (hb0 : b0 < c.nb) (hcblt : cb < c.nb) (hbblt : bb < c.nb) :
    ∀ (E : Env) (w : Int),
      runIn 1 (whileLoweredF b0 init cb cp cv bb bp bv ps cops bops c).body
        c.nb [w] E none
      = some (.exStdRet [w], envUpd E (c.nv * 2 * 2 + 1) w, [c.nb]) := by
  intro E w
  rw [whileLoweredF]
  dsimp only
  rw [runIn]
  rw [findBlk_cons_ne _ _ _ _ _ _ (by omega : ¬ b0 = c.nb),
    findBlk_cons_ne _ _ _ _ _ _ (by omega : ¬ cb + (c.nb + 1) = c.nb),
    findBlk_cons_ne _ _ _ _ _ _ (by omega : ¬ bb + (c.nb + 1) * 2 = c.nb),
    findBlk_cons_self]
  dsimp only [Blk.params, Blk.ops, Blk.term]
  simp [bindParams, runOps, envUpd]

/-- The lowered loop reproduces the structured iteration: if the structured
while on state `x` performs `N` body runs and ends with `xf`, then entering
the cloned condition block with argument `x` — in any environment — reaches
the function return with `xf`, visiting condition and body blocks in exactly
the alternation recorded by `loopTrace`. -/
theorem C3_loop_sim (b0 init cb cp cv bb bp bv : Nat)
    (ps : List Nat) (cops bops : List Op) (c : Counters) (e1 : Env)
    (hb0 : b0 < c.nb) (hcblt : cb < c.nb) (hbblt : bb < c.nb)
    (hcp : cp < c.nv) (hbp : bp < c.nv)
    (hcpres : cp ∉ resOps cops)
    (hCav : wfAvailOpsT [cp] cops (Term.ret [cv]) = true)
    (hBav : wfAvailOpsT [bp] bops (Term.ret [bv]) = true)
    (hCops : valsBelowOps c.nv cops = true)
    (hBops : valsBelowOps c.nv bops = true)
    (hcv : cv < c.nv) (hbv : bv < c.nv)
    (hCtops : tgtsBelowOps c.nb cops = true)
    (hBtops : tgtsBelowOps c.nb bops = true)
    (hCbops : blkIdsBelowOps c.nb cops = true)
    (hBbops : blkIdsBelowOps c.nb bops = true) :
    ∀ k : Nat, ∀ (x : Int) (N : Nat) (xf : Int) (E : Env),
      runWhileAux k [Blk.mk cb [cp] cops (.ret [cv])]
          [Blk.mk bb [bp] bops (.ret [bv])] x e1 = some (N, xf) →
      ∃ m E2, runIn m (whileLoweredF b0 init cb cp cv bb bp bv ps cops bops c).body
          (cb + (c.nb + 1)) [x] E none
        = some (.exStdRet [xf], E2,
            loopTrace (cb + (c.nb + 1)) (bb + (c.nb + 1) * 2) c.nb N)
  | 0 => by
      intro x N xf E hwa
      cases hwa
  | k+1 => by
      intro x N xf E hwa
      rw [runWhileAux] at hwa
      cases hc : runRegionRet k [Blk.mk cb [cp] cops (Term.ret [cv])] [x] e1 with
      | none => rw [hc] at hwa; cases hwa
      | some vs =>
          rw [hc] at hwa
          cases vs with
          | nil => cases hwa
          | cons c0 vs2 =>
              cases vs2 with
              | cons _ _ => cases hwa
              | nil =>
                  dsimp only at hwa
                  cases k with
                  | zero => rw [runRegionRet.eq_def] at hc; cases hc
                  | succ k1 =>
                  rw [runRegionRet.eq_def] at hc
                  dsimp only [Blk.bid] at hc
                  cases hri : runIn k1 [Blk.mk cb [cp] cops (Term.ret [cv])]
                      cb [x] e1 none with
                  | none => rw [hri] at hc; cases hc
                  | some r =>
                      obtain ⟨ex, ecx, trcx⟩ := r
                      rw [hri] at hc
                      cases ex with
                      | exStdRet _ => cases hc
                      | exJump _ => cases hc
                      | exRet cvs =>
                          dsimp only at hc
                          injection hc with hcvs
                          subst hcvs
                          cases k1 with
                          | zero => rw [runIn] at hri; cases hri
                          | succ k2 =>
                          rw [runIn, findBlk_cons_self] at hri
                          dsimp only [Blk.params, Blk.ops, Blk.term,
                            bindParams] at hri
                          cases hoc : runOps k2 cops (envUpd e1 cp x) with
                          | none => rw [hoc] at hri; cases hri
                          | some ec2 =>
                              rw [hoc] at hri
                              dsimp only at hri
                              simp only [Option.some.injEq, Prod.mk.injEq,
                                List.map_cons, List.map_nil,
                                Exit.exRet.injEq] at hri
                              obtain ⟨hc0, _, _⟩ := hri
                              have hc0v : ec2 cv = c0 := by simpa using hc0
                              have hpsC : ∀ p ∈ [cp], p < c.nv := by
                                intro p hp
                                rw [List.mem_singleton] at hp
                                subst hp
                                exact hcp
                              have hbpC := (bindParams_sim c.nv c.nv (le_refl _)
                                (defsBlks [Blk.mk cb [cp] cops (Term.ret [cv])])
                                [cp] [x] [] e1 E (Agree_nil _ _ _ _ _) hpsC).2
                                (envUpd e1 cp x) rfl
                              obtain ⟨ec1', hbt', hA1⟩ := hbpC
                              simp only [List.map_cons, List.map_nil] at hbt'
                              have hsim := simOps c.nv c.nv c.nb (c.nb + 1)
                                (defsBlks [Blk.mk cb [cp] cops (Term.ret [cv])])
                                (blkIdsBlks [Blk.mk cb [cp] cops (Term.ret [cv])])
                                (le_refl _) (Nat.le_succ _) k2
                                (mkSubst (opIdsBlks [Blk.mk cb [cp] cops (Term.ret [cv])]) c.nop)
                                cops (Term.ret [cv]) [cp] (envUpd e1 cp x) ec1'
                                (by simpa using hA1) hCav hCops hCtops hCbops
                              rw [hoc] at hsim
                              dsimp only [SimEnvRel] at hsim
                              obtain ⟨ec2', hoc', hA2⟩ := hsim
                              have hcterm := wfAvailOpsT_term cops [cp]
                                (Term.ret [cv]) hCav
                              have hcvmem : cv ∈ [cp] ++ resOps cops :=
                                subList_mem _ _
                                  (by simpa [wfAvailTerm] using hcterm) cv (by simp)
                              have hvalc : ec2' (mkSubst
                                  (defsBlks [Blk.mk cb [cp] cops (Term.ret [cv])])
                                  c.nv cv) = ec2 cv := hA2 cv hcv hcvmem
                              have hframe : ec2 cp = x := by
                                have h := runOps_frame k2 cops (envUpd e1 cp x)
                                  ec2 hoc cp hcpres
                                rw [h]
                                simp [envUpd]
                              have hvalp : ec2' (mkSubst
                                  (defsBlks [Blk.mk cb [cp] cops (Term.ret [cv])])
                                  c.nv cp) = ec2 cp :=
                                hA2 cp hcp (List.mem_append_left _ (by simp))
                              have hsvcp : mkSubst
                                  (defsBlks [Blk.mk cb [cp] cops (Term.ret [cv])])
                                  c.nv cp = cp + c.nv := by
                                simp only [mkSubst]
                                rw [if_pos (by simp [defsBlks, defsBlk])]
                              have hext : runOps 2
                                  [Op.simple (.extractElementOp (c.nv * 2 * 2)
                                    (mkSubst (defsBlks [Blk.mk cb [cp] cops (Term.ret [cv])]) c.nv cv))]
                                  ec2'
                                = some (envUpd ec2' (c.nv * 2 * 2)
                                    (ec2' (mkSubst (defsBlks [Blk.mk cb [cp] cops (Term.ret [cv])]) c.nv cv))) := by
                                simp [runOps, runOp, runSimple]
                              have happ := runOps_append_ok _ k2 2 _ ec1' ec2' _
                                hoc' hext
                              have hscr : envUpd ec2' (c.nv * 2 * 2)
                                  (ec2' (mkSubst (defsBlks [Blk.mk cb [cp] cops (Term.ret [cv])]) c.nv cv))
                                  (c.nv * 2 * 2) = ec2 cv := by
                                simp only [envUpd, eq_self_iff_true, if_true]
                                exact hvalc
                              have hargp : envUpd ec2' (c.nv * 2 * 2)
                                  (ec2' (mkSubst (defsBlks [Blk.mk cb [cp] cops (Term.ret [cv])]) c.nv cv))
                                  (mkSubst (defsBlks [Blk.mk cb [cp] cops (Term.ret [cv])]) c.nv cp)
                                  = x := by
                                simp only [envUpd]
                                rw [if_neg (by rw [hsvcp]; omega :
                                  ¬ mkSubst (defsBlks [Blk.mk cb [cp] cops (Term.ret [cv])]) c.nv cp
                                    = c.nv * 2 * 2)]
                                rw [hvalp, hframe]
                              by_cases hc0z : c0 ≠ 0
                              · rw [if_pos hc0z] at hwa
                                cases hb : runRegionRet (k2 + 1 + 1)
                                    [Blk.mk bb [bp] bops (Term.ret [bv])] [x] e1 with
                                | none => rw [hb] at hwa; cases hwa
                                | some ws =>
                                    rw [hb] at hwa
                                    cases ws with
                                    | nil => cases hwa
                                    | cons x2 ws2 =>
                                        cases ws2 with
                                        | cons _ _ => cases hwa
                                        | nil =>
                                            dsimp only at hwa
                                            cases hwrec : runWhileAux (k2 + 1 + 1)
                                                [Blk.mk cb [cp] cops (Term.ret [cv])]
                                                [Blk.mk bb [bp] bops (Term.ret [bv])]
                                                x2 e1 with
                                            | none => rw [hwrec] at hwa; cases hwa
                                            | some p =>
                                                obtain ⟨N1, xf1⟩ := p
                                                rw [hwrec] at hwa
                                                dsimp only at hwa
                                                injection hwa with hwa2
                                                injection hwa2 with hN hxf
                                                subst hN
                                                subst hxf
                                                rw [runRegionRet.eq_def] at hb
                                                dsimp only [Blk.bid] at hb
                                                cases hrib : runIn (k2 + 1)
                                                    [Blk.mk bb [bp] bops (Term.ret [bv])]
                                                    bb [x] e1 none with
                                                | none => rw [hrib] at hb; cases hb
                                                | some rb =>
                                                    obtain ⟨exb, ebx, trbx⟩ := rb
                                                    rw [hrib] at hb
                                                    cases exb with
                                                    | exStdRet _ => cases hb
                                                    | exJump _ => cases hb
                                                    | exRet bvs =>
                                                        dsimp only at hb
                                                        injection hb with hbvs
                                                        subst hbvs
                                                        rw [runIn, findBlk_cons_self] at hrib
                                                        dsimp only [Blk.params, Blk.ops,
                                                          Blk.term, bindParams] at hrib
                                                        cases hob : runOps k2 bops
                                                            (envUpd e1 bp x) with
                                                        | none => rw [hob] at hrib; cases hrib
                                                        | some eb2 =>
                                                            rw [hob] at hrib
                                                            dsimp only at hrib
                                                            simp only [Option.some.injEq,
                                                              Prod.mk.injEq, List.map_cons,
                                                              List.map_nil,
                                                              Exit.exRet.injEq] at hrib
                                                            obtain ⟨hx2, _, _⟩ := hrib
                                                            have hx2v : eb2 bv = x2 := by
                                                              simpa using hx2
                                                            have hpsB : ∀ p ∈ [bp], p < c.nv := by
                                                              intro p hp
                                                              rw [List.mem_singleton] at hp
                                                              subst hp
                                                              exact hbp
                                                            have hbpB := (bindParams_sim c.nv
                                                              (c.nv * 2) (by omega)
                                                              (defsBlks [Blk.mk bb [bp] bops (Term.ret [bv])])
                                                              [bp] [x] [] e1
                                                              (envUpd ec2' (c.nv * 2 * 2)
                                                                (ec2' (mkSubst (defsBlks [Blk.mk cb [cp] cops (Term.ret [cv])]) c.nv cv)))
                                                              (Agree_nil _ _ _ _ _) hpsB).2
                                                              (envUpd e1 bp x) rfl
                                                            obtain ⟨eb1', hbtB', hA1B⟩ := hbpB
                                                            simp only [List.map_cons,
                                                              List.map_nil] at hbtB'
                                                            have hsimB := simOps c.nv (c.nv * 2)
                                                              c.nb ((c.nb + 1) * 2)
                                                              (defsBlks [Blk.mk bb [bp] bops (Term.ret [bv])])
                                                              (blkIdsBlks [Blk.mk bb [bp] bops (Term.ret [bv])])
                                                              (by omega) (by omega) k2
                                                              (mkSubst (opIdsBlks [Blk.mk bb [bp] bops (Term.ret [bv])]) (c.nop * 2))
                                                              bops (Term.ret [bv]) [bp]
                                                              (envUpd e1 bp x) eb1'
                                                              (by simpa using hA1B) hBav hBops
                                                              hBtops hBbops
                                                            rw [hob] at hsimB
                                                            dsimp only [SimEnvRel] at hsimB
                                                            obtain ⟨eb2', hob', hA2B⟩ := hsimB
                                                            have hbterm := wfAvailOpsT_term bops
                                                              [bp] (Term.ret [bv]) hBav
                                                            have hbvmem : bv ∈ [bp] ++ resOps bops :=
                                                              subList_mem _ _
                                                                (by simpa [wfAvailTerm] using hbterm)
                                                                bv (by simp)
                                                            have hvalb : eb2' (mkSubst
                                                                (defsBlks [Blk.mk bb [bp] bops (Term.ret [bv])])
                                                                (c.nv * 2) bv) = eb2 bv :=
                                                              hA2B bv hbv hbvmem
                                                            obtain ⟨mIH, E2IH, hIH⟩ :=
                                                              C3_loop_sim b0 init cb cp cv bb bp bv
                                                                ps cops bops c e1 hb0 hcblt hbblt
                                                                hcp hbp hcpres hCav hBav hCops hBops
                                                                hcv hbv hCtops hBtops hCbops hBbops
                                                                (k2 + 1 + 1) x2 N1 xf1 eb2' hwrec
                                                            rw [whileLoweredF] at hIH
                                                            dsimp only at hIH
                                                            refine ⟨mIH + k2 + 10, E2IH, ?_⟩
                                                            rw [whileLoweredF]
                                                            dsimp only
                                                            rw [runIn]
                                                            rw [findBlk_cons_ne _ _ _ _ _ _
                                                              (by omega : ¬ b0 = cb + (c.nb + 1)),
                                                              findBlk_cons_self]
                                                            dsimp only [Blk.params, Blk.ops, Blk.term]
                                                            rw [hbt']
                                                            dsimp only
                                                            rw [runOps_mono_le (k2 + 2)
                                                              (mIH + k2 + 9) (by omega) _ _ _ happ]
                                                            dsimp only
                                                            rw [hscr]
                                                            rw [hc0v]
                                                            simp only [if_pos hc0z]
                                                            rw [if_neg (by simp :
                                                              ¬ (none : Option Nat)
                                                                = some (bb + (c.nb + 1) * 2))]
                                                            simp only [List.map_cons, List.map_nil]
                                                            rw [hargp]
                                                            rw [runIn]
                                                            rw [findBlk_cons_ne _ _ _ _ _ _
                                                              (by omega : ¬ b0 = bb + (c.nb + 1) * 2),
                                                              findBlk_cons_ne _ _ _ _ _ _
                                                              (by omega : ¬ cb + (c.nb + 1) = bb + (c.nb + 1) * 2),
                                                              findBlk_cons_self]
                                                            dsimp only [Blk.params, Blk.ops, Blk.term]
                                                            rw [hbtB']
                                                            dsimp only
                                                            rw [runOps_mono_le k2 (mIH + k2 + 8)
                                                              (by omega) _ _ _ hob']
                                                            dsimp only
                                                            rw [if_neg (by simp :
                                                              ¬ (none : Option Nat)
                                                                = some (cb + (c.nb + 1)))]
                                                            simp only [List.map_cons, List.map_nil]
                                                            rw [hvalb, hx2v]
                                                            rw [runIn_mono_le mIH (mIH + k2 + 8)
                                                              (by omega) _ _ _ _ _ _ hIH]
                                                            rw [loopTrace]
                              · rw [if_neg hc0z] at hwa
                                injection hwa with hwa2
                                injection hwa2 with hN hxf
                                subst hN
                                subst hxf
                                have htail := whileLowered_tail_run b0 init cb cp cv bb bp bv
                                  ps cops bops c hb0 hcblt hbblt
                                refine ⟨k2 + 7, envUpd (envUpd ec2' (c.nv * 2 * 2)
                                  (ec2' (mkSubst (defsBlks [Blk.mk cb [cp] cops (Term.ret [cv])]) c.nv cv)))
                                  (c.nv * 2 * 2 + 1) x, ?_⟩
                                have htail2 := htail (envUpd ec2' (c.nv * 2 * 2)
                                  (ec2' (mkSubst (defsBlks [Blk.mk cb [cp] cops (Term.ret [cv])]) c.nv cv))) x
                                rw [whileLoweredF] at htail2
                                dsimp only at htail2
                                rw [whileLoweredF]
                                dsimp only
                                rw [runIn]
                                rw [findBlk_cons_ne _ _ _ _ _ _
                                  (by omega : ¬ b0 = cb + (c.nb + 1)),
                                  findBlk_cons_self]
                                dsimp only [Blk.params, Blk.ops, Blk.term]
                                rw [hbt']
                                dsimp only
                                rw [runOps_mono_le (k2 + 2) (k2 + 6) (by omega) _ _ _ happ]
                                dsimp only
                                rw [hscr]
                                rw [hc0v]
                                simp only [if_neg hc0z]
                                rw [if_neg (by simp : ¬ (none : Option Nat) = some c.nb)]
                                simp only [List.map_cons, List.map_nil]
                                rw [hargp]
                                rw [runIn_mono_le 1 (k2 + 6) (by omega) _ _ _ _ _ _ htail2]
                                rw [loopTrace]

/-- C3: for the canonical function holding one Loop (single-block,
single-parameter condition and body regions), and for every input vector: if
the structured loop on the initial value runs its body `N` times before the
condition turns false, reaching final state `xf`, then the lowered function
reaches the function return with `xf`, visiting the cloned condition block
`N + 1` times and the cloned body block `N` times, threading the loop state
through the block arguments each iteration. -/
theorem C3_lowered_loop_visits_condition_N_plus_one_times
    (b0 oid res init cb cp cv bb bp bv : Nat)
    (ps : List Nat) (cops bops : List Op) (c : Counters)
    (hb0 : b0 < c.nb) (hres : res < c.nv) (hir : init ≠ res)
    (hcpres : cp ∉ resOps cops)
    (hCav : wfAvailBlks [Blk.mk cb [cp] cops (.ret [cv])] = true)
    (hBav : wfAvailBlks [Blk.mk bb [bp] bops (.ret [bv])] = true)
    (hCvals : valsBelowBlks c.nv [Blk.mk cb [cp] cops (.ret [cv])] = true)
    (hBvals : valsBelowBlks c.nv [Blk.mk bb [bp] bops (.ret [bv])] = true)
    (hCtg : tgtsBelowBlks c.nb [Blk.mk cb [cp] cops (.ret [cv])] = true)
    (hBtg : tgtsBelowBlks c.nb [Blk.mk bb [bp] bops (.ret [bv])] = true)
    (hCids : blkIdsBelowBlks c.nb [Blk.mk cb [cp] cops (.ret [cv])] = true)
    (hBids : blkIdsBelowBlks c.nb [Blk.mk bb [bp] bops (.ret [bv])] = true)
    (huC : res ∉ usesBlks [Blk.mk cb [cp] cops (.ret [cv])])
    (huB : res ∉ usesBlks [Blk.mk bb [bp] bops (.ret [bv])])
    (F' : FuncState)
    (hlow : LowerWhileOp oid
        (whileCanonF b0 oid res init cb cp cv bb bp bv ps cops bops c) = .ok F')
    (inputs : List Int) (e1 : Env)
    (hbind : bindParams ps inputs env0 = some e1)
    (k N : Nat) (xf : Int)
    (hwa : runWhileAux k [Blk.mk cb [cp] cops (.ret [cv])]
        [Blk.mk bb [bp] bops (.ret [bv])] (e1 init) e1 = some (N, xf)) :
    (∃ m, runFuncObs m F' inputs
      = some (.exStdRet [xf],
          b0 :: loopTrace (cb + (c.nb + 1)) (bb + (c.nb + 1) * 2) c.nb N))
    ∧ (b0 :: loopTrace (cb + (c.nb + 1)) (bb + (c.nb + 1) * 2) c.nb N).count
        (cb + (c.nb + 1)) = N + 1
    ∧ (b0 :: loopTrace (cb + (c.nb + 1)) (bb + (c.nb + 1) * 2) c.nb N).count
        (bb + (c.nb + 1) * 2) = N := by
  rw [LowerWhileOp_canonical b0 oid res init cb cp cv bb bp bv ps cops bops c
    hb0 hres hir hCids hBids huC huB] at hlow
  injection hlow with hF'
  subst hF'
  simp only [wfAvailBlks, wfAvailBlk, Bool.and_true] at hCav hBav
  simp only [valsBelowBlks, valsBelowBlk, Bool.and_eq_true, Bool.and_true] at hCvals hBvals
  obtain ⟨⟨hCps, hCops⟩, hCterm⟩ := hCvals
  obtain ⟨⟨hBps, hBops⟩, hBterm⟩ := hBvals
  have hcp : cp < c.nv := by
    have := List.all_eq_true.mp hCps cp (by simp)
    simpa using this
  have hbp : bp < c.nv := by
    have := List.all_eq_true.mp hBps bp (by simp)
    simpa using this
  have hcv : cv < c.nv := by simpa [valsBelowTerm] using hCterm
  have hbv : bv < c.nv := by simpa [valsBelowTerm] using hBterm
  simp only [tgtsBelowBlks, tgtsBelowBlk, Bool.and_eq_true, Bool.and_true] at hCtg hBtg
  obtain ⟨hCtops, _⟩ := hCtg
  obtain ⟨hBtops, _⟩ := hBtg
  simp only [blkIdsBelowBlks, blkIdsBelowBlk, Bool.and_eq_true, Bool.and_true,
    decide_eq_true_eq] at hCids hBids
  obtain ⟨hcblt, hCbops⟩ := hCids
  obtain ⟨hbblt, hBbops⟩ := hBids
  obtain ⟨mIH, E2, hIH⟩ := C3_loop_sim b0 init cb cp cv bb bp bv ps cops bops c e1
    hb0 hcblt hbblt hcp hbp hcpres hCav hBav hCops hBops hcv hbv
    hCtops hBtops hCbops hBbops k (e1 init) N xf e1 hwa
  refine ⟨⟨mIH + 2, ?_⟩, ?_, ?_⟩
  · rw [runFuncObs, runFunc, whileLoweredF]
    dsimp only
    rw [runIn]
    dsimp only [Blk.bid]
    rw [findBlk_cons_self]
    dsimp only [Blk.params, Blk.ops, Blk.term]
    rw [hbind]
    dsimp only [runOps]
    rw [if_neg (by simp : ¬ (none : Option Nat) = some (cb + (c.nb + 1)))]
    simp only [List.map_cons, List.map_nil]
    have hIH2 := runIn_mono_le mIH (mIH + 1) (by omega) _ _ _ _ _ _ hIH
    rw [whileLoweredF] at hIH2
    dsimp only at hIH2
    rw [hIH2]
  · have h1 := loopTrace_count_cid (cb + (c.nb + 1)) (bb + (c.nb + 1) * 2) c.nb
      (by omega) (by omega) N
    simp [List.count_cons, h1, show ¬ b0 = cb + (c.nb + 1) by omega,
      show ¬ cb + (c.nb + 1) = b0 by omega]
  · have h1 := loopTrace_count_bid (cb + (c.nb + 1)) (bb + (c.nb + 1) * 2) c.nb
      (by omega) (by omega) N
    simp [List.count_cons, h1, show ¬ b0 = bb + (c.nb + 1) * 2 by omega,
      show ¬ bb + (c.nb + 1) * 2 = b0 by omega]

/-- C3 witness (Scenario B): `%r = while(%x0 = 7, cond {return x < 10}, body
{return x + 1})` — the structured loop runs the body 3 times and ends at 10;
the lowered function returns tail value 10, visiting the cloned condition
block (id 5) 4 times and the cloned body block (id 10) 3 times. -/
theorem C3_witness :
    (∃ m, runFuncObs m (whileLoweredF 0 0 1 2 4 2 5 7 [0]
        [.simple (.constOp 3 10), .simple (.ltOp 4 2 3)]
        [.simple (.constOp 6 1), .simple (.addOp 7 5 6)] ⟨8, 3, 1⟩) [7]
      = some (.exStdRet [10], 0 :: loopTrace 5 10 3 3))
    ∧ (0 :: loopTrace 5 10 3 3).count 5 = 3 + 1
    ∧ (0 :: loopTrace 5 10 3 3).count 10 = 3 := by
  have h := C3_lowered_loop_visits_condition_N_plus_one_times 0 0 1 0 1 2 4 2 5 7
    [0] [.simple (.constOp 3 10), .simple (.ltOp 4 2 3)]
    [.simple (.constOp 6 1), .simple (.addOp 7 5 6)] ⟨8, 3, 1⟩
    (by decide) (by decide) (by decide) (by decide)
    (by decide) (by decide) (by decide) (by decide) (by decide) (by decide)
    (by decide) (by decide) (by decide) (by decide)
    (whileLoweredF 0 0 1 2 4 2 5 7 [0]
      [.simple (.constOp 3 10), .simple (.ltOp 4 2 3)]
      [.simple (.constOp 6 1), .simple (.addOp 7 5 6)] ⟨8, 3, 1⟩)
    rfl [7] (envUpd env0 0 7) rfl 12 3 10 rfl
  exact h

end XlaCF
